import Mathlib

/-!
# copernicus: compact-block codec, transaction-level UTXO operations, keystore, notifier,
`sendmany` handler

A shallow embedding of `net/wire/msgcmpctblock.go`, `logic/ltx/ltxcoins.go`,
`crypto/keystore.go`, `model/chain/notification.go` and of `handleSendMany` in
`rpc/rpcwallet.go`.

Conventions of the embedding
* machine integers are natural numbers, reduced `% 2^w` wherever the source converts
  or where a fixed-width value is written;
* an `io.Reader` is the list of bytes still unread; a read that runs out of bytes
  consumes what is left and reports `Err.io`;
* an `io.Writer` is an in-memory buffer (`bytes.Buffer`): the list of bytes written so
  far; writing to it never fails;
* a method with a pointer receiver returns the receiver's state after the call next to
  the error, so the state left behind by a failing call can be observed;
* a function that can panic returns an `Outcome`; `make` panics on a length that is
  negative or that the runtime rejects, an indexed access on an index outside its
  slice; for `BtcDecode` the runs with panics are `BtcDecodeRun`, and `BtcDecode` is its
  restriction to the runs that return;
* pointers to transactions, keys and key pairs are the values they point to, except
  where the source leaves a pointer nil; locks are left out, every method runs alone.
-/

namespace wire

/-! ## Bytes, errors, little-endian integers -/

abbrev Byte := Fin 256

/-- The low eight bits of a number, as a byte. -/
def byteOf (n : Nat) : Byte := ⟨n % 256, Nat.mod_lt _ (by decide)⟩

/-- Errors returned by the codec: `io` is `io.EOF` / `io.ErrUnexpectedEOF` of the reader,
`messageError f d` is `messageError(f, d)` of package wire. -/
inductive Err where
  | io : Err
  | messageError (func : String) (desc : String) : Err
deriving DecidableEq, Repr

/-- Result of a decoding method: the receiver after the call, the unread bytes,
and the returned error (`none` is Go's `nil`). -/
structure Res (σ : Type) where
  val : σ
  rest : List Byte
  err : Option Err
deriving DecidableEq, Repr

/-- The `n` low-order bytes of `v`, least significant first
(`binary.LittleEndian.PutUintN`). -/
def leBytes : Nat → Nat → List Byte
  | 0, _ => []
  | n + 1, v => byteOf v :: leBytes n (v / 256)

/-- The number denoted by little-endian bytes (`binary.LittleEndian.UintN`). -/
def leVal : List Byte → Nat
  | [] => 0
  | b :: bs => b.val + 256 * leVal bs

/-- Go's `io.ReadFull` of `n` bytes: the bytes read (or `none` when the stream is too
short) and the unread remainder. -/
def readN (n : Nat) (r : List Byte) : Option (List Byte) × List Byte :=
  if n ≤ r.length then (some (r.take n), r.drop n) else (none, [])

/-- Modelled from the spec: `util.ReadElements(r, &v)` for a fixed-width unsigned
integer of `n` bytes ("fixed-endian integer I/O"): `n` little-endian bytes. -/
def readUint (n : Nat) (r : List Byte) : Option Nat × List Byte :=
  match readN n r with
  | (some bs, r1) => (some (leVal bs), r1)
  | (none, r1) => (none, r1)

/-- Modelled from the spec: `util.WriteElements(w, v)` for a fixed-width unsigned
integer of `n` bytes: appends `n` little-endian bytes to the buffer. -/
def WriteElements (n : Nat) (w : List Byte) (v : Nat) : Except Err (List Byte) :=
  .ok (w ++ leBytes n v)

/-- Modelled from the spec: `util.WriteVarInt`, the Bitcoin compact size ("one byte if
<253, otherwise 253/254/255 prefix followed by 2/4/8 little-endian bytes"). -/
def varIntBytes (v : Nat) : List Byte :=
  if v < 0xfd then [byteOf v]
  else if v ≤ 0xffff then byteOf 0xfd :: leBytes 2 v
  else if v ≤ 0xffffffff then byteOf 0xfe :: leBytes 4 v
  else byteOf 0xff :: leBytes 8 v

/-- Modelled from the spec: `util.WriteVarInt(w, v)` on an in-memory buffer. -/
def WriteVarInt (w : List Byte) (v : Nat) : Except Err (List Byte) :=
  .ok (w ++ varIntBytes v)

/-- Modelled from the spec: `util.ReadVarInt` ("Decode fails on truncated input"):
a discriminant byte, then 0/2/4/8 little-endian bytes. -/
def ReadVarInt (r : List Byte) : Option Nat × List Byte :=
  match r with
  | [] => (none, [])
  | d :: r1 =>
    if d.val = 0xff then readUint 8 r1
    else if d.val = 0xfe then readUint 4 r1
    else if d.val = 0xfd then readUint 2 r1
    else (some d.val, r1)

/-! ## Hashes and the block header -/

/-- Modelled from the spec: a Hash is "a 32-byte opaque identifier" (`util.Hash`). -/
abbrev Hash := { l : List Byte // l.length = 32 }

/-- The all-zero hash, the zero value of `util.Hash`. -/
def Hash.zero : Hash := ⟨List.replicate 32 0, by simp⟩

/-- Modelled from the spec: the block header, "80 bytes, fields in order version (LE32),
prev-hash (32), merkle-root (32), timestamp (LE32), bits (LE32), nonce (LE32)". The type
`BlockHeader` is declared outside the files under study. -/
structure BlockHeader where
  Version : Nat
  PrevBlock : Hash
  MerkleRoot : Hash
  Timestamp : Nat
  Bits : Nat
  Nonce : Nat
deriving DecidableEq, Repr

/-- The zero value of `BlockHeader`. -/
def BlockHeader.zero : BlockHeader := ⟨0, Hash.zero, Hash.zero, 0, 0, 0⟩

/-- The 80 bytes of a header. -/
def BlockHeader.bytes (h : BlockHeader) : List Byte :=
  leBytes 4 h.Version ++ h.PrevBlock.val ++ h.MerkleRoot.val ++
    leBytes 4 h.Timestamp ++ leBytes 4 h.Bits ++ leBytes 4 h.Nonce

/-- Modelled from the spec: `writeBlockHeader(w, pver, bh)` on an in-memory buffer. -/
def writeBlockHeader (w : List Byte) (_pver : Nat) (bh : BlockHeader) :
    Except Err (List Byte) :=
  .ok (w ++ bh.bytes)

/-- Modelled from the spec: reading a 32-byte hash from the stream. -/
def readHash (r : List Byte) : Option Hash × List Byte :=
  if h : 32 ≤ r.length then
    (some ⟨r.take 32, by simp [List.length_take]; omega⟩, r.drop 32)
  else (none, [])

/-- Modelled from the spec: `BlockHeader.BtcDecode`, which reads the six fields in order
into the receiver and stops at the first read that fails. -/
def BlockHeader.BtcDecode (bh : BlockHeader) (r : List Byte) (_pver _enc : Nat) :
    Res BlockHeader :=
  match readUint 4 r with
  | (none, r1) => ⟨bh, r1, some .io⟩
  | (some v, r1) =>
    let bh := { bh with Version := v }
    match readHash r1 with
    | (none, r2) => ⟨bh, r2, some .io⟩
    | (some p, r2) =>
      let bh := { bh with PrevBlock := p }
      match readHash r2 with
      | (none, r3) => ⟨bh, r3, some .io⟩
      | (some m, r3) =>
        let bh := { bh with MerkleRoot := m }
        match readUint 4 r3 with
        | (none, r4) => ⟨bh, r4, some .io⟩
        | (some t, r4) =>
          let bh := { bh with Timestamp := t }
          match readUint 4 r4 with
          | (none, r5) => ⟨bh, r5, some .io⟩
          | (some b, r5) =>
            let bh := { bh with Bits := b }
            match readUint 4 r5 with
            | (none, r6) => ⟨bh, r6, some .io⟩
            | (some n, r6) => ⟨{ bh with Nonce := n }, r6, none⟩

/-- Modelled from the spec: `BlockHeader.BtcEncode` on an in-memory buffer, which appends
the 80 header bytes. -/
def BlockHeader.BtcEncode (bh : BlockHeader) (w : List Byte) (pver _enc : Nat) :
    Except Err (List Byte) :=
  writeBlockHeader w pver bh

/-! ## The compact-block message -/

/-- What the codec takes from outside the file: two protocol constants, the hash
primitives, and the transaction type `MsgTx` with its hash and its wire codec.
`TxBtcEncode tx pver enc` gives the bytes `tx.BtcEncode` appends to the writer and the
error it returns; `TxBtcDecode tx r pver enc` gives the receiver, the unread bytes and the
error after `tx.BtcDecode`. The receiver is a pointer, `none` being the nil pointer. -/
structure Env (Tx : Type) where
  ShortIdsBlocksVersion : Nat
  MaxBlockPayload : Nat
  Sha256Bytes : List Byte → Hash
  SipHash : Nat → Nat → List Byte → Nat
  TxHash : Tx → Hash
  TxBtcEncode : Option Tx → Nat → Nat → List Byte × Option Err
  TxBtcDecode : Option Tx → List Byte → Nat → Nat → Res (Option Tx)

/-- A prefilled entry: a pointer to a transaction (`none` is nil) and a 16-bit index. -/
structure PreFilledTransaction (Tx : Type) where
  Tx : Option Tx
  Index : Nat
deriving DecidableEq, Repr

/-- The compact-block message, with the fields in the order of the source. -/
structure MsgHeaderAndShortTxIDs (Tx : Type) where
  shortTxidk0 : Nat
  shortTxidk1 : Nat
  Nonce : Nat
  ShortTxids : List Nat
  PreFilledTxn : List (PreFilledTransaction Tx)
  Header : BlockHeader
deriving DecidableEq, Repr

/-- Modelled from the spec: a block as the constructor uses it, its header and its
transactions (`MsgBlock`, declared outside the files under study). -/
structure MsgBlock (Tx : Type) where
  Header : BlockHeader
  Transactions : List Tx

/-- The zero value of the message, what `&MsgHeaderAndShortTxIDs{}` points to. -/
def MsgHeaderAndShortTxIDs.empty (Tx : Type) : MsgHeaderAndShortTxIDs Tx :=
  ⟨0, 0, 0, [], [], BlockHeader.zero⟩

/-- Outcome of a function that can panic. -/
inductive Outcome (α : Type) where
  | panic : Outcome α
  | ret (a : α) : Outcome α
deriving DecidableEq, Repr

variable {Tx : Type}

def fillShortTxIDSelector (E : Env Tx) (h : BlockHeader) (nonce : Nat) :
    Except Err (Nat × Nat) :=
  match writeBlockHeader [] 0 h with
  | .error err => .error err
  | .ok bw =>
    match WriteElements 8 bw nonce with
    | .error err => .error err
    | .ok bw =>
      let hb := E.Sha256Bytes bw
      .ok (leVal (hb.val.take 8), leVal ((hb.val.drop 8).take 8))

def getShortID (E : Env Tx) (id0 id1 : Nat) (hash : Hash) : Nat :=
  E.SipHash id0 id1 hash.val &&& 0xffffffffffff

/-- An indexed store `s[i] = v` into a Go slice: the runtime panics when the index is
outside the slice. The index is an `int`. -/
def sliceStore (s : List Nat) (i : Int) (v : Nat) : Outcome (List Nat) :=
  if 0 ≤ i ∧ i < s.length then .ret (s.set i.toNat v) else .panic

/-- The loop of `NewMsgHeaderAndShortTxIDs`: `for i := 1; i < len(txs); i++`, reading
`txs[i]` and storing into `shortids[i-1]`; either access panics when its index is outside
its slice. The first argument bounds the number of iterations. -/
def shortIDLoop (E : Env Tx) (id0 id1 : Nat) (txs : List Tx) :
    Nat → Nat → List Nat → Outcome (List Nat)
  | 0, _, shortids => .ret shortids
  | fuel + 1, i, shortids =>
    if i < txs.length then
      match txs[i]? with
      | none => .panic
      | some tx =>
        match sliceStore shortids ((i : Int) - 1) (getShortID E id0 id1 (E.TxHash tx)) with
        | .panic => .panic
        | .ret shortids => shortIDLoop E id0 id1 txs fuel (i + 1) shortids
    else .ret shortids

/-- Constructor `NewMsgHeaderAndShortTxIDs(block)`, with the nonce drawn by `util.RandomUint64()`
as an argument. `make([]uint64, len(block.Transactions)-1)` panics when the length
`len(block.Transactions)-1` is negative; `block.Transactions[0]` and the accesses of the
loop panic when their index is outside the slice. -/
def NewMsgHeaderAndShortTxIDs (E : Env Tx) (block : MsgBlock Tx) (nonce : Nat) :
    Outcome (Option (MsgHeaderAndShortTxIDs Tx)) :=
  if (block.Transactions.length : Int) - 1 < 0 then .panic
  else
    let shortids := List.replicate ((block.Transactions.length : Int) - 1).toNat 0
    let header := block.Header
    match fillShortTxIDSelector E header nonce with
    | .error _ => .ret none
    | .ok (id0, id1) =>
      match block.Transactions[0]? with
      | none => .panic
      | some tx0 =>
        let prefilledTxn : List (PreFilledTransaction Tx) := [⟨some tx0, 0⟩]
        match shortIDLoop E id0 id1 block.Transactions block.Transactions.length 1
            shortids with
        | .panic => .panic
        | .ret shortids =>
          .ret (some
            { shortTxidk0 := id0
              shortTxidk1 := id1
              Nonce := nonce
              ShortTxids := shortids
              PreFilledTxn := prefilledTxn
              Header := header })

/-- The message error of the 16-bit index check. -/
def indexOverflow : Err :=
  .messageError "MsgCmpctBlock.BtcDecode" "index overflowed 16-bits"

/-- The pointer `pft.Tx` after the call `pft.Tx.BtcDecode(r, pver, enc)`: the call does
not change the pointer, so that a nil pointer stays nil; what a pointer that is not nil
refers to is the transaction the decoder leaves. -/
def afterTxDecode (p decoded : Option Tx) : Option Tx :=
  match p, decoded with
  | some _, some t => some t
  | p, _ => p

/-- Method `BtcDecode` of a prefilled entry, on the runs in which `pft.Tx.BtcDecode`
returns; `PreFilledTransaction.BtcDecodeRun` below adds the run in which it panics. -/
def PreFilledTransaction.BtcDecode (E : Env Tx) (pft : PreFilledTransaction Tx)
    (r : List Byte) (pver enc : Nat) : Res (PreFilledTransaction Tx) :=
  match ReadVarInt r with
  | (none, r1) => ⟨pft, r1, some .io⟩
  | (some idx, r1) =>
    if idx > 65535 then ⟨pft, r1, some indexOverflow⟩
    else
      let pft := { pft with Index := idx % 65536 }
      let t := E.TxBtcDecode pft.Tx r1 pver enc
      ⟨{ pft with Tx := afterTxDecode pft.Tx t.val }, t.rest, t.err⟩

def PreFilledTransaction.BtcEncode (E : Env Tx) (pft : PreFilledTransaction Tx)
    (w : List Byte) (pver enc : Nat) : List Byte × Option Err :=
  match WriteVarInt w pft.Index with
  | .error err => (w, some err)
  | .ok w1 =>
    let t := E.TxBtcEncode pft.Tx pver enc
    (w1 ++ t.1, t.2)

/-- The error of the protocol-version guard; `func` is the name of the method. -/
def versionError (func : String) (pver : Nat) : Err :=
  .messageError func ("cmpctblock message invalid for protocol version " ++ toString pver)

/-- The short-ID loop of `BtcDecode`: `n` times a 4-byte and a 2-byte little-endian
read, the identifiers in stream order. -/
def readShortIDs : Nat → List Byte → Option (List Nat) × List Byte
  | 0, r => (some [], r)
  | n + 1, r =>
    match readUint 4 r with
    | (none, r1) => (none, r1)
    | (some lsb, r1) =>
      match readUint 2 r1 with
      | (none, r2) => (none, r2)
      | (some msb, r2) =>
        match readShortIDs n r2 with
        | (none, r3) => (none, r3)
        | (some ids, r3) => (some (((msb <<< 32) ||| lsb) :: ids), r3)

/-- The prefilled loop of `BtcDecode` over the local slice `vpft`, whose entries start
as zero values (nil `Tx`, index 0): the entries decoded so far, the unread bytes and
the first error. -/
def decodePrefilled (E : Env Tx) (pver enc : Nat) :
    Nat → List Byte → Res (List (PreFilledTransaction Tx))
  | 0, r => ⟨[], r, none⟩
  | n + 1, r =>
    let x := PreFilledTransaction.BtcDecode E ⟨none, 0⟩ r pver enc
    match x.err with
    | some err => ⟨[x.val], x.rest, some err⟩
    | none =>
      let y := decodePrefilled E pver enc n x.rest
      ⟨x.val :: y.val, y.rest, y.err⟩

/-- Method `BtcDecode` of the message, on the runs in which the two `make` calls succeed
and the transaction decoder returns: what it reads, assigns and returns on them.
`MsgHeaderAndShortTxIDs.BtcDecodeRun` below adds the runs that panic, and agrees with
this one on every run that returns. -/
def MsgHeaderAndShortTxIDs.BtcDecode (E : Env Tx) (msg : MsgHeaderAndShortTxIDs Tx)
    (r : List Byte) (pver enc : Nat) : Res (MsgHeaderAndShortTxIDs Tx) :=
  if pver < E.ShortIdsBlocksVersion then
    ⟨msg, r, some (versionError "MsgCmpctBlock.BtcDecode" pver)⟩
  else
    let h := msg.Header.BtcDecode r pver enc
    let msg := { msg with Header := h.val }
    match h.err with
    | some err => ⟨msg, h.rest, some err⟩
    | none =>
      match readUint 8 h.rest with
      | (none, r1) => ⟨msg, r1, some .io⟩
      | (some nonce, r1) =>
        let msg := { msg with Nonce := nonce }
        match ReadVarInt r1 with
        | (none, r2) => ⟨msg, r2, some .io⟩
        | (some shortIDSize, r2) =>
          match readShortIDs shortIDSize r2 with
          | (none, r3) => ⟨msg, r3, some .io⟩
          | (some ids, r3) =>
            let msg := { msg with ShortTxids := msg.ShortTxids ++ ids }
            match ReadVarInt r3 with
            | (none, r4) => ⟨msg, r4, some .io⟩
            | (some pftLen, r4) =>
              let vpft := decodePrefilled E pver enc pftLen r4
              match vpft.err with
              | some err => ⟨msg, vpft.rest, some err⟩
              | none =>
                match fillShortTxIDSelector E msg.Header msg.Nonce with
                | .error err => ⟨msg, vpft.rest, some err⟩
                | .ok (id0, id1) =>
                  ⟨{ msg with shortTxidk0 := id0, shortTxidk1 := id1 }, vpft.rest, none⟩

/-- Result of a decoding method that can panic: the receiver and the unread bytes at the
moment the method returns or panics, and the returned error or the panic. -/
structure Ran (σ : Type) where
  val : σ
  rest : List Byte
  outcome : Outcome (Option Err)
deriving DecidableEq, Repr

/-- What a run of the decoder takes from the Go runtime and from the code of `MsgTx`,
next to `Env`: the largest lengths that `make([]uint64, n)` and
`make([]PreFilledTransaction, n)` accept, which depend on the platform; and whether the
call `tx.BtcDecode(r, pver, enc)` panics, as a method that writes through its receiver
does on the nil pointer. When the call does not panic, `Env.TxBtcDecode` gives its
result. -/
structure Runtime (Tx : Type) where
  maxShortIDs : Nat
  maxPrefilled : Nat
  TxBtcDecodePanics : Option Tx → List Byte → Nat → Nat → Bool

/-- Whether `make([]T, n)` panics ("makeslice: len out of range") for a length `n` read
as a `uint64`: it does when `n` does not fit an `int`, which has at most 64 bits, and
when `n` is above the largest length the platform accepts for the element type. -/
def makePanics (limit n : Nat) : Bool :=
  decide (2 ^ 63 ≤ n) || decide (limit < n)

/-- Method `BtcDecode` of a prefilled entry, with the panic of `pft.Tx.BtcDecode`. The
index is checked and assigned before the transaction decoder is called. -/
def PreFilledTransaction.BtcDecodeRun (E : Env Tx) (R : Runtime Tx)
    (pft : PreFilledTransaction Tx) (r : List Byte) (pver enc : Nat) :
    Ran (PreFilledTransaction Tx) :=
  match ReadVarInt r with
  | (none, r1) => ⟨pft, r1, .ret (some .io)⟩
  | (some idx, r1) =>
    if idx > 65535 then ⟨pft, r1, .ret (some indexOverflow)⟩
    else
      let pft := { pft with Index := idx % 65536 }
      if R.TxBtcDecodePanics pft.Tx r1 pver enc then ⟨pft, r1, .panic⟩
      else
        let t := E.TxBtcDecode pft.Tx r1 pver enc
        ⟨{ pft with Tx := afterTxDecode pft.Tx t.val }, t.rest, .ret t.err⟩

/-- The prefilled loop of `BtcDecode` over the local slice `vpft`, whose entries start
as zero values (nil `Tx`, index 0), with the panics: the entries decoded so far, the
unread bytes, and the first error or panic. -/
def decodePrefilledRun (E : Env Tx) (R : Runtime Tx) (pver enc : Nat) :
    Nat → List Byte → Ran (List (PreFilledTransaction Tx))
  | 0, r => ⟨[], r, .ret none⟩
  | n + 1, r =>
    let x := PreFilledTransaction.BtcDecodeRun E R ⟨none, 0⟩ r pver enc
    match x.outcome with
    | .panic => ⟨[x.val], x.rest, .panic⟩
    | .ret (some err) => ⟨[x.val], x.rest, .ret (some err)⟩
    | .ret none =>
      let y := decodePrefilledRun E R pver enc n x.rest
      ⟨x.val :: y.val, y.rest, y.outcome⟩

/-- Method `BtcDecode` of the message, with its panics: `make([]uint64, shortIDSize)` and
`make([]PreFilledTransaction, pftLen)` are called with the counts as they are read from
the stream, and each prefilled entry calls the transaction decoder on the nil `Tx` of a
fresh entry. -/
def MsgHeaderAndShortTxIDs.BtcDecodeRun (E : Env Tx) (R : Runtime Tx)
    (msg : MsgHeaderAndShortTxIDs Tx) (r : List Byte) (pver enc : Nat) :
    Ran (MsgHeaderAndShortTxIDs Tx) :=
  if pver < E.ShortIdsBlocksVersion then
    ⟨msg, r, .ret (some (versionError "MsgCmpctBlock.BtcDecode" pver))⟩
  else
    let h := msg.Header.BtcDecode r pver enc
    let msg := { msg with Header := h.val }
    match h.err with
    | some err => ⟨msg, h.rest, .ret (some err)⟩
    | none =>
      match readUint 8 h.rest with
      | (none, r1) => ⟨msg, r1, .ret (some .io)⟩
      | (some nonce, r1) =>
        let msg := { msg with Nonce := nonce }
        match ReadVarInt r1 with
        | (none, r2) => ⟨msg, r2, .ret (some .io)⟩
        | (some shortIDSize, r2) =>
          if makePanics R.maxShortIDs shortIDSize then ⟨msg, r2, .panic⟩
          else
            match readShortIDs shortIDSize r2 with
            | (none, r3) => ⟨msg, r3, .ret (some .io)⟩
            | (some ids, r3) =>
              let msg := { msg with ShortTxids := msg.ShortTxids ++ ids }
              match ReadVarInt r3 with
              | (none, r4) => ⟨msg, r4, .ret (some .io)⟩
              | (some pftLen, r4) =>
                if makePanics R.maxPrefilled pftLen then ⟨msg, r4, .panic⟩
                else
                  let vpft := decodePrefilledRun E R pver enc pftLen r4
                  match vpft.outcome with
                  | .panic => ⟨msg, vpft.rest, .panic⟩
                  | .ret (some err) => ⟨msg, vpft.rest, .ret (some err)⟩
                  | .ret none =>
                    match fillShortTxIDSelector E msg.Header msg.Nonce with
                    | .error err => ⟨msg, vpft.rest, .ret (some err)⟩
                    | .ok (id0, id1) =>
                      ⟨{ msg with shortTxidk0 := id0, shortTxidk1 := id1 }, vpft.rest,
                        .ret none⟩

/-- The short-ID loop of `BtcEncode`: per identifier the low 32 bits and the next 16
bits, little-endian. -/
def writeShortIDs : List Nat → List Byte → List Byte × Option Err
  | [], w => (w, none)
  | x :: xs, w =>
    let lsb := (x &&& 0xffffffff) % 2 ^ 32
    let msb := ((x >>> 32) &&& 0xffff) % 2 ^ 16
    match WriteElements 4 w lsb with
    | .error err => (w, some err)
    | .ok w1 =>
      match WriteElements 2 w1 msb with
      | .error err => (w1, some err)
      | .ok w2 => writeShortIDs xs w2

/-- The prefilled loop of `BtcEncode`. -/
def encodePrefilled (E : Env Tx) (pver enc : Nat) :
    List (PreFilledTransaction Tx) → List Byte → List Byte × Option Err
  | [], w => (w, none)
  | p :: ps, w =>
    match p.BtcEncode E w pver enc with
    | (w1, some err) => (w1, some err)
    | (w1, none) => encodePrefilled E pver enc ps w1

/-- Method `BtcEncode` on an in-memory writer holding `w`: the writer's contents after the
call and the returned error. -/
def MsgHeaderAndShortTxIDs.BtcEncode (E : Env Tx) (msg : MsgHeaderAndShortTxIDs Tx)
    (w : List Byte) (pver enc : Nat) : List Byte × Option Err :=
  if pver < E.ShortIdsBlocksVersion then
    (w, some (versionError "MsgCmpctBlock.BtcEncode" pver))
  else
    match msg.Header.BtcEncode w pver enc with
    | .error err => (w, some err)
    | .ok w1 =>
      match WriteElements 8 w1 msg.Nonce with
      | .error err => (w1, some err)
      | .ok w2 =>
        match WriteVarInt w2 msg.ShortTxids.length with
        | .error err => (w2, some err)
        | .ok w3 =>
          match writeShortIDs msg.ShortTxids w3 with
          | (w4, some err) => (w4, some err)
          | (w4, none) => encodePrefilled E pver enc msg.PreFilledTxn w4

end wire

/-! ## Transaction-level UTXO operations (`logic/ltx/ltxcoins.go`) -/

namespace ltx

/-- Modelled from the spec: an OutPoint is a "pair (TxHash, u32 index) identifying a
transaction output" (`outpoint.OutPoint`, declared outside the files under study). -/
structure OutPoint where
  Hash : wire.Hash
  Index : Nat
deriving DecidableEq, Repr

/-- Modelled from the spec: `outpoint.NewOutPoint(hash, index)`, the pair of its
arguments. -/
def NewOutPoint (hash : wire.Hash) (index : Nat) : OutPoint := ⟨hash, index⟩

/-- Modelled from the spec: a TxOut is "an amount (signed 64-bit integer, satoshis) and a
ScriptPubKey (opaque byte sequence)" (declared outside the files under study). -/
structure TxOut where
  value : Int
  scriptPubKey : List wire.Byte
deriving DecidableEq, Repr

/-- Modelled from the spec: a transaction input, of which the operations use the outpoint
it spends (`txin.TxIn`, declared outside the files under study). -/
structure TxIn where
  PreviousOutPoint : OutPoint
deriving DecidableEq, Repr

/-- Modelled from the spec: a Coin is "a TxOut plus (a) the block height at which it was
created, (b) a coinbase flag, (c) a freshness flag". The sentinel "empty" Coin is a value
of the same type that carries no output (`txOut = none`), so that it differs from every
coin that carries one, whatever the amount and script of that output. The type
`utxo.Coin` is declared outside the files under study. -/
structure Coin where
  txOut : Option TxOut
  height : Int
  isCoinBase : Bool
  fresh : Bool
deriving DecidableEq, Repr

/-- Modelled from the spec: the sentinel "empty" Coin ("spent/zero-value") that
`AccessCoin` returns for an outpoint without an unspent coin. -/
def Coin.empty : Coin := ⟨none, 0, false, false⟩

/-- Modelled from the spec: `IsSpent()`, the method by which the empty Coin is
"distinguishable" from a coin carrying an output. -/
def Coin.IsSpent (c : Coin) : Bool := c.txOut.isNone

/-- Modelled from the spec: `DeepCopy` gives a coin with the same contents. -/
def Coin.DeepCopy (c : Coin) : Coin := ⟨c.txOut, c.height, c.isCoinBase, c.fresh⟩

/-- Modelled from the spec: `NewFreshCoin(out, height, isCoinbase)`. -/
def NewFreshCoin (out : TxOut) (height : Int) (isCoinBase : Bool) : Coin :=
  ⟨some out, height, isCoinBase, true⟩

/-- Modelled from the spec: an entry of the UTXO view, "one of {Unspent(Coin), Spent,
Absent}". The coin of an Unspent entry is given by its parts, "a TxOut plus" height,
coinbase flag and freshness flag: it always carries an output, so no Unspent entry holds
the empty Coin. -/
inductive Entry where
  | unspent (out : TxOut) (height : Int) (isCoinBase : Bool) (fresh : Bool) : Entry
  | spent : Entry
  | absent : Entry
deriving DecidableEq, Repr

/-- Whether the entry is Unspent. -/
def Entry.isUnspent : Entry → Bool
  | .unspent _ _ _ _ => true
  | _ => false

/-- Modelled from the spec: the CoinsMap, "a mapping from OutPoint to one of
{Unspent(Coin), Spent, Absent}". The type `utxo.CoinsMap` is declared outside the files
under study. -/
abbrev CoinsMap := OutPoint → Entry

/-- The map with the entry of one outpoint replaced. -/
def CoinsMap.set (m : CoinsMap) (op : OutPoint) (e : Entry) : CoinsMap :=
  fun q => if q = op then e else m q

/-- Modelled from the spec: "AccessCoin(op) returns the current Coin, never panics; if
absent it returns a sentinel empty Coin". -/
def CoinsMap.AccessCoin (m : CoinsMap) (op : OutPoint) : Coin :=
  match m op with
  | .unspent out height isCoinBase fresh => ⟨some out, height, isCoinBase, fresh⟩
  | _ => Coin.empty

/-- Modelled from the spec: "SpendCoin(op) transitions Unspent→Spent"; on an Absent or
already-Spent entry "the behavior is to record a Spent tombstone". -/
def CoinsMap.SpendCoin (m : CoinsMap) (op : OutPoint) : CoinsMap := m.set op .spent

/-- Modelled from the spec: "AddCoin(op, coin, possibleOverwrite) transitions
Absent→Unspent; overwriting an existing Unspent entry is permitted only when
possibleOverwrite is true". `none` is the refused call: an overwrite that is not
permitted, or the empty Coin, for which the specification has no Unspent entry. -/
def CoinsMap.AddCoin (m : CoinsMap) (op : OutPoint) (coin : Coin) (possibleOverwrite : Bool) :
    Option CoinsMap :=
  match coin.txOut with
  | none => none
  | some out =>
    match m op with
    | .unspent _ _ _ _ =>
      if possibleOverwrite then
        some (m.set op (.unspent out coin.height coin.isCoinBase coin.fresh))
      else none
    | _ => some (m.set op (.unspent out coin.height coin.isCoinBase coin.fresh))

/-- Modelled from the spec: a TxUndo is "an ordered list of Coins matching 1:1 the inputs
of the transaction being undone". -/
structure TxUndo where
  undoCoins : List Coin
deriving DecidableEq, Repr

/-- Modelled from the spec: `txundo.SetUndoCoins(coins)` stores the list in the undo
record. -/
def TxUndo.SetUndoCoins (_u : TxUndo) (coins : List Coin) : TxUndo := ⟨coins⟩

/-- Modelled from the spec: a transaction as the UTXO operations use it, through
`GetHash()`, `GetIns()`, `GetOuts()` and `IsCoinBase()`; each is a field, so that nothing
is assumed about how they are computed (`tx.Tx`, declared outside the files under
study). -/
structure Tx where
  GetHash : wire.Hash
  GetIns : List TxIn
  GetOuts : List TxOut
  IsCoinBase : Bool
deriving DecidableEq, Repr

/-- The loop of `TxSpendCoins` over the inputs: the map after the spends and the undo
coins in input order. -/
def spendLoop : List TxIn → CoinsMap → CoinsMap × List Coin
  | [], coinMap => (coinMap, [])
  | txin :: ins, coinMap =>
    let coin := coinMap.AccessCoin txin.PreviousOutPoint
    let undoCoin := coin.DeepCopy
    let coinMap := coinMap.SpendCoin txin.PreviousOutPoint
    let rest := spendLoop ins coinMap
    (rest.1, undoCoin :: rest.2)

/-- Function `TxSpendCoins(tx, coinMap, txundo)`: the map and the undo record after the call;
`txundo = none` is the nil pointer. -/
def TxSpendCoins (tx : Tx) (coinMap : CoinsMap) (txundo : Option TxUndo) :
    CoinsMap × Option TxUndo :=
  if !tx.IsCoinBase then
    let r := spendLoop tx.GetIns coinMap
    match txundo with
    | some u => (r.1, some (u.SetUndoCoins r.2))
    | none => (r.1, none)
  else (coinMap, txundo)

/-- The loop of `TxAddCoins` over the outputs, from output index `idx` on. -/
def addLoop (txid : wire.Hash) (height : Int) (isCoinbase : Bool) :
    List TxOut → Nat → CoinsMap → Option CoinsMap
  | [], _, coinMap => some coinMap
  | out :: outs, idx, coinMap =>
    let op := NewOutPoint txid (idx % 2 ^ 32)
    let coin := NewFreshCoin out height isCoinbase
    match coinMap.AddCoin op coin isCoinbase with
    | none => none
    | some coinMap => addLoop txid height isCoinbase outs (idx + 1) coinMap

/-- Function `TxAddCoins(tx, coinMap, height)`: the map after the call, `none` when `AddCoin`
refuses an overwrite. -/
def TxAddCoins (tx : Tx) (coinMap : CoinsMap) (height : Int) : Option CoinsMap :=
  let isCoinbase := tx.IsCoinBase
  let txid := tx.GetHash
  addLoop txid height isCoinbase tx.GetOuts 0 coinMap

/-! ### Block connect and disconnect, as the specification describes them -/

/-- Modelled from the spec: "for each transaction in block order, call TxSpendCoins then
TxAddCoins"; every transaction gets an undo record of its own. The block connect loop is
outside the files under study. -/
def connectBlock (height : Int) : List Tx → CoinsMap → Option (CoinsMap × List TxUndo)
  | [], coinMap => some (coinMap, [])
  | tx :: txs, coinMap =>
    match TxSpendCoins tx coinMap (some ⟨[]⟩) with
    | (_, none) => none
    | (m1, some u) =>
      match TxAddCoins tx m1 height with
      | none => none
      | some m2 =>
        match connectBlock height txs m2 with
        | none => none
        | some (m3, us) => some (m3, u :: us)

/-- Modelled from the spec: "for each output of the transaction, remove the Coin". -/
def removeOutputs (txid : wire.Hash) : List TxOut → Nat → CoinsMap → CoinsMap
  | [], _, coinMap => coinMap
  | _ :: outs, idx, coinMap =>
    removeOutputs txid outs (idx + 1) (coinMap.set (NewOutPoint txid (idx % 2 ^ 32)) .absent)

/-- Modelled from the spec: "for each input, re-insert the saved Coin at its outpoint
(transitioning Spent→Unspent)"; "the reverse op inspects IsSpent" so that an empty saved
coin, which carries no output, introduces no coin. -/
def restoreInputs : List TxIn → List Coin → CoinsMap → CoinsMap
  | txin :: ins, c :: cs, coinMap =>
    restoreInputs ins cs
      (if c.IsSpent then coinMap
       else
        match c.txOut with
        | none => coinMap
        | some out =>
          coinMap.set txin.PreviousOutPoint (.unspent out c.height c.isCoinBase c.fresh))
  | _, _, coinMap => coinMap

/-- Modelled from the spec: undoing one transaction: its outputs are removed, then its
inputs are re-inserted from the undo record. -/
def disconnectTx (tx : Tx) (u : TxUndo) (coinMap : CoinsMap) : CoinsMap :=
  restoreInputs tx.GetIns u.undoCoins (removeOutputs tx.GetHash tx.GetOuts 0 coinMap)

/-- Modelled from the spec: block disconnect, "replay undo records in reverse transaction
order". The block disconnect loop is outside the files under study. -/
def disconnectBlock : List Tx → List TxUndo → CoinsMap → CoinsMap
  | tx :: txs, u :: us, coinMap => disconnectTx tx u (disconnectBlock txs us coinMap)
  | _, _, coinMap => coinMap

/-- Every input is unspent in the view at the moment it is spent: the entry of its
outpoint is Unspent, whatever coin it holds. -/
def inputsUnspent : List TxIn → CoinsMap → Bool
  | [], _ => true
  | txin :: ins, coinMap =>
    (coinMap txin.PreviousOutPoint).isUnspent &&
      inputsUnspent ins (coinMap.SpendCoin txin.PreviousOutPoint)

/-- Every output outpoint is absent from the view at the moment its coin is added. -/
def outputsAbsent (txid : wire.Hash) (height : Int) (isCoinbase : Bool) :
    List TxOut → Nat → CoinsMap → Bool
  | [], _, _ => true
  | out :: outs, idx, coinMap =>
    decide (coinMap (NewOutPoint txid (idx % 2 ^ 32)) = .absent) &&
      outputsAbsent txid height isCoinbase outs (idx + 1)
        (coinMap.set (NewOutPoint txid (idx % 2 ^ 32)) (.unspent out height isCoinbase true))

/-- The hypothesis on a block and a view: for each transaction in block order, the inputs
of a non-coinbase transaction are unspent when they are spent and the output outpoints
are absent when they are added. -/
def connectable (height : Int) : List Tx → CoinsMap → Bool
  | [], _ => true
  | tx :: txs, coinMap =>
    (tx.IsCoinBase || inputsUnspent tx.GetIns coinMap) &&
    outputsAbsent tx.GetHash height tx.IsCoinBase tx.GetOuts 0
      (TxSpendCoins tx coinMap none).1 &&
    match TxAddCoins tx (TxSpendCoins tx coinMap none).1 height with
    | some m2 => connectable height txs m2
    | none => false

/-- The empty view. -/
def CoinsMap.empty : CoinsMap := fun _ => .absent

/-- A sample coinbase transaction with one output of 50. -/
def sampleCoinbase : Tx :=
  ⟨⟨List.replicate 32 1, by simp⟩, [⟨⟨wire.Hash.zero, 0xffffffff⟩⟩], [⟨50, [1]⟩], true⟩

/-- A sample transaction that spends the output of `sampleCoinbase` into one output
of 49. -/
def sampleSpend : Tx :=
  ⟨⟨List.replicate 32 2, by simp⟩, [⟨⟨sampleCoinbase.GetHash, 0⟩⟩], [⟨49, [2]⟩], false⟩

/-- A sample view with one entry: an unspent coin of amount zero with an empty script,
created at height 5. -/
def sampleZeroView : CoinsMap :=
  CoinsMap.empty.set ⟨⟨List.replicate 32 3, by simp⟩, 0⟩ (.unspent ⟨0, []⟩ 5 false false)

/-- A sample transaction that spends the zero-amount coin of `sampleZeroView` into one
output of amount zero with an empty script. -/
def sampleZeroSpend : Tx :=
  ⟨⟨List.replicate 32 4, by simp⟩, [⟨⟨⟨List.replicate 32 3, by simp⟩, 0⟩⟩], [⟨0, []⟩],
    false⟩

/-- A sample transaction that spends the output of `sampleZeroSpend`. -/
def sampleZeroSpendAgain : Tx :=
  ⟨⟨List.replicate 32 5, by simp⟩, [⟨⟨sampleZeroSpend.GetHash, 0⟩⟩], [⟨0, [7]⟩], false⟩

end ltx

/-! ## The calls of `AddCoin` as the specification lists them -/

namespace ltx

/-- The calls the specification lists for `TxAddCoins`, from output index `i` on: "for
each output i: op := (txid, i); coin := NewFreshCoin(output[i], height, coinbase);
AddCoin(op, coin, possibleOverwrite=coinbase)". -/
def addCoinCalls (txid : wire.Hash) (height : Int) (isCoinbase : Bool) :
    List TxOut → Nat → List (OutPoint × Coin × Bool)
  | [], _ => []
  | out :: outs, i =>
    (⟨txid, i⟩, NewFreshCoin out height isCoinbase, isCoinbase) ::
      addCoinCalls txid height isCoinbase outs (i + 1)

/-- Performing a list of `AddCoin` calls one after the other, stopping at the first one
that is refused. -/
def runAddCoin : List (OutPoint × Coin × Bool) → CoinsMap → Option CoinsMap
  | [], m => some m
  | c :: cs, m =>
    match m.AddCoin c.1 c.2.1 c.2.2 with
    | none => none
    | some m1 => runAddCoin cs m1

end ltx

/-! ## Maximum payload of the compact-block message -/

namespace wire

variable {Tx : Type}

/-- Method `MaxPayloadLength(pver)`: the sum is computed on Go's `int` and converted to
`uint32`, which keeps its low 32 bits. -/
def MsgHeaderAndShortTxIDs.MaxPayloadLength (E : Env Tx) (msg : MsgHeaderAndShortTxIDs Tx)
    (_pver : Nat) : Nat :=
  (80 + 8 + 3 + msg.ShortTxids.length * 6 + 3 +
    msg.PreFilledTxn.length * (3 + E.MaxBlockPayload)) % 2 ^ 32

end wire

/-! ## The keystore (`crypto/keystore.go`) -/

namespace crypto

/-- What the keystore takes from outside the file: the derivation of the public key from
a private key (`PrivateKey.PubKey`), of the 20-byte hash from a public key
(`PublicKey.ToHash160`), and `util.Hash160` on the bytes of a public key. -/
structure KeyEnv (PrivateKey PublicKey : Type) where
  PubKey : PrivateKey → PublicKey
  ToHash160 : PublicKey → List wire.Byte
  Hash160 : List wire.Byte → List wire.Byte

/-- A key pair: key ID (the hash of the public key), public key, private key. -/
structure KeyPair (PrivateKey PublicKey : Type) where
  keyID : List wire.Byte
  publicKey : PublicKey
  privateKey : PrivateKey
deriving DecidableEq, Repr

variable {PrivateKey PublicKey : Type}

def NewKeyPair (K : KeyEnv PrivateKey PublicKey) (privateKey : PrivateKey) :
    KeyPair PrivateKey PublicKey :=
  let pubKey := K.PubKey privateKey
  let pubKeyHash := K.ToHash160 pubKey
  { keyID := pubKeyHash, publicKey := pubKey, privateKey := privateKey }

/-- Method `GetKeyID`: `string(kd.keyID)`, the bytes of the key ID as a map key. -/
def KeyPair.GetKeyID (kd : KeyPair PrivateKey PublicKey) : List wire.Byte := kd.keyID

def KeyPair.GetPublicKey (kd : KeyPair PrivateKey PublicKey) : PublicKey := kd.publicKey

def KeyPair.GetPrivateKey (kd : KeyPair PrivateKey PublicKey) : PrivateKey := kd.privateKey

/-- The keystore: the Go map `keys` from key ID to key pair, as a partial function. The
lock is not part of the embedding, every method runs alone. -/
structure KeyStore (PrivateKey PublicKey : Type) where
  keys : List wire.Byte → Option (KeyPair PrivateKey PublicKey)

def NewKeyStore : KeyStore PrivateKey PublicKey := { keys := fun _ => none }

/-- The map assignment `ks.keys[k] = keyPair`. -/
def KeyStore.assign (ks : KeyStore PrivateKey PublicKey) (k : List wire.Byte)
    (keyPair : KeyPair PrivateKey PublicKey) : KeyStore PrivateKey PublicKey :=
  { keys := fun q => if q = k then some keyPair else ks.keys q }

def KeyStore.AddKey (K : KeyEnv PrivateKey PublicKey) (ks : KeyStore PrivateKey PublicKey)
    (privateKey : PrivateKey) : KeyStore PrivateKey PublicKey :=
  let keyPair := NewKeyPair K privateKey
  ks.assign keyPair.GetKeyID keyPair

def KeyStore.GetKeyPair (ks : KeyStore PrivateKey PublicKey) (pubKeyHash : List wire.Byte) :
    Option (KeyPair PrivateKey PublicKey) :=
  match ks.keys pubKeyHash with
  | some keyPair => some keyPair
  | none => none

def KeyStore.GetKeyPairByPubKey (K : KeyEnv PrivateKey PublicKey)
    (ks : KeyStore PrivateKey PublicKey) (pubKey : List wire.Byte) :
    Option (KeyPair PrivateKey PublicKey) :=
  let pubKeyHash := K.Hash160 pubKey
  ks.GetKeyPair pubKeyHash

/-- The loop of `GetKeyPairs`: the pairs found so far, extended by `append`. -/
def getKeyPairsLoop (ks : KeyStore PrivateKey PublicKey) :
    List (List wire.Byte) → List (KeyPair PrivateKey PublicKey) →
      List (KeyPair PrivateKey PublicKey)
  | [], keys => keys
  | pubKeyHash :: rest, keys =>
    match ks.keys pubKeyHash with
    | some keyPair => getKeyPairsLoop ks rest (keys ++ [keyPair])
    | none => getKeyPairsLoop ks rest keys

/-- Method `GetKeyPairs`: the keystore after the call and the returned list. -/
def KeyStore.GetKeyPairs (ks : KeyStore PrivateKey PublicKey)
    (pubKeyHashList : List (List wire.Byte)) :
    KeyStore PrivateKey PublicKey × List (KeyPair PrivateKey PublicKey) :=
  let keys : List (KeyPair PrivateKey PublicKey) := []
  (ks, getKeyPairsLoop ks pubKeyHashList keys)

def KeyStore.AddKeyPairs (ks : KeyStore PrivateKey PublicKey) :
    List (KeyPair PrivateKey PublicKey) → KeyStore PrivateKey PublicKey
  | [] => ks
  | keyPair :: keys => KeyStore.AddKeyPairs (ks.assign keyPair.GetKeyID keyPair) keys

/-- The batch lookup as the specification words it: `GetKeyPair` on each listed hash in
order, the absent results dropped. -/
def lookupPresent (ks : KeyStore PrivateKey PublicKey) (hashes : List (List wire.Byte)) :
    List (KeyPair PrivateKey PublicKey) :=
  hashes.filterMap ks.GetKeyPair

/-- A writer operation on the keystore. -/
inductive KeyOp (PrivateKey PublicKey : Type) where
  | addKey (privateKey : PrivateKey) : KeyOp PrivateKey PublicKey
  | addKeyPairs (keys : List (KeyPair PrivateKey PublicKey)) : KeyOp PrivateKey PublicKey

/-- The keystore after a writer operation. -/
def KeyOp.apply (K : KeyEnv PrivateKey PublicKey) (ks : KeyStore PrivateKey PublicKey) :
    KeyOp PrivateKey PublicKey → KeyStore PrivateKey PublicKey
  | .addKey privateKey => ks.AddKey K privateKey
  | .addKeyPairs keys => ks.AddKeyPairs keys

/-- The key IDs under which a writer operation stores key pairs. -/
def KeyOp.keyIDs (K : KeyEnv PrivateKey PublicKey) :
    KeyOp PrivateKey PublicKey → List (List wire.Byte)
  | .addKey privateKey => [(NewKeyPair K privateKey).GetKeyID]
  | .addKeyPairs keys => keys.map KeyPair.GetKeyID

/-- A sample key environment: keys are numbers, the public key of `k` is `k + 100` and
its hash is twenty times the low byte of the public key. -/
def sampleKeyEnv : KeyEnv Nat Nat where
  PubKey := fun k => k + 100
  ToHash160 := fun p => List.replicate 20 (wire.byteOf p)
  Hash160 := fun b => (b ++ List.replicate 20 0).take 20

end crypto

/-! ## The chain notifier (`model/chain/notification.go`) -/

namespace chain

/-- The type of a notification, a Go `int`. -/
abbrev NotificationType := Int

def NTBlockAccepted : NotificationType := 0

def NTBlockConnected : NotificationType := 1

def NTBlockDisconnected : NotificationType := 2

def NTChainTipUpdated : NotificationType := 3

/-- The map `notificationTypeStrings`, with the three entries of the source. -/
def notificationTypeStrings (n : NotificationType) : Option String :=
  if n = NTBlockAccepted then some "NTBlockAccepted"
  else if n = NTBlockConnected then some "NTBlockConnected"
  else if n = NTBlockDisconnected then some "NTBlockDisconnected"
  else none

/-- Method `String`: the name in the map, or the `%d` form of the number. -/
def NotificationType.String (n : NotificationType) : String :=
  match notificationTypeStrings n with
  | some s => s
  | none => "Unknown Notification Type (" ++ toString n ++ ")"

/-- A notification: its type and its data (`Type` and `Data` in the source). -/
structure Notification (D : Type) where
  Typ : NotificationType
  Data : D
deriving DecidableEq, Repr

/-- A callback: called with the pointer to the notification, it may change what the
pointer refers to and the world outside the chain (`W`), or it may panic. -/
abbrev NotificationCallback (W D : Type) :=
  Notification D → W → wire.Outcome (Notification D × W)

/-- The part of `Chain` the notifier uses: the list of callbacks. The lock is not part of
the embedding, every method runs alone. -/
structure Chain (W D : Type) where
  notifications : List (NotificationCallback W D)

variable {W D : Type}

def Chain.Subscribe (c : Chain W D) (callback : NotificationCallback W D) : Chain W D :=
  { c with notifications := c.notifications ++ [callback] }

/-- The loop of `SendNotification` over the callbacks, the first of which is at position
`i` of the subscriber list. Next to the outcome it gives the log of the calls made: the
position of the callback and the notification it was called with. A panic ends the
loop. -/
def notifyLoop : List (NotificationCallback W D) → Nat → Notification D → W →
    List (Nat × Notification D) × wire.Outcome (Notification D × W)
  | [], _, n, w => ([], .ret (n, w))
  | callback :: rest, i, n, w =>
    match callback n w with
    | .panic => ([(i, n)], .panic)
    | .ret (n1, w1) =>
      let r := notifyLoop rest (i + 1) n1 w1
      ((i, n) :: r.1, r.2)

/-- What `SendNotification` leaves: the chain, the log of the callback calls, and the
world after the call or the panic that left it. -/
structure Sent (W D : Type) where
  chain : Chain W D
  log : List (Nat × Notification D)
  outcome : wire.Outcome W

def Chain.SendNotification (c : Chain W D) (typ : NotificationType) (data : D) (w : W) :
    Sent W D :=
  let n : Notification D := { Typ := typ, Data := data }
  let r := notifyLoop c.notifications 0 n w
  { chain := c
    log := r.1
    outcome := match r.2 with
      | .panic => .panic
      | .ret (_, w1) => .ret w1 }

/-- A sequence of `SendNotification` calls, each on the chain and world the previous one
left; a panic ends the sequence. The logs are concatenated. -/
def sendAll : Chain W D → List (NotificationType × D) → W → Sent W D
  | c, [], w => { chain := c, log := [], outcome := .ret w }
  | c, (typ, data) :: rest, w =>
    let s := c.SendNotification typ data w
    match s.outcome with
    | .panic => s
    | .ret w1 =>
      let t := sendAll s.chain rest w1
      { chain := t.chain, log := s.log ++ t.log, outcome := t.outcome }

/-- A callback that neither panics nor changes the notification it is given. -/
def wellBehaved (callback : NotificationCallback W D) : Prop :=
  ∀ n w, ∃ w1, callback n w = .ret (n, w1)

/-- A sample callback that counts its calls. -/
def countingCallback : NotificationCallback Nat Nat := fun n w => .ret (n, w + 1)

/-- A sample callback that panics. -/
def panickingCallback : NotificationCallback Nat Nat := fun _ _ => .panic

/-- What the callbacks of a list do during one call of `SendNotification`: called one
after the other with the notification `n`, the first in the world `w`, each returns and
leaves the notification as it is; `w1` is the world the last one leaves. Nothing is said
of what the callbacks do on other notifications or in other worlds. -/
def returnUnchanged : List (NotificationCallback W D) → Notification D → W → W → Prop
  | [], _, w, w1 => w1 = w
  | callback :: rest, n, w, w1 =>
    ∃ w0, callback n w = .ret (n, w0) ∧ returnUnchanged rest n w0 w1

/-- A sample callback that panics only when it is called in world 1, and counts its
calls otherwise. -/
def panicsInWorldOne : NotificationCallback Nat Nat :=
  fun n w => if w = 1 then .panic else .ret (n, w + 1)

end chain

/-! ## The `sendmany` handler (`rpc/rpcwallet.go`) -/

namespace rpc

/-- A non-nil Go `error`, as far as the handler uses it: the text `Error()` returns. -/
structure GoError where
  Error : String
deriving DecidableEq, Repr

/-- An RPC error of package btcjson: code and message. -/
structure RPCError where
  Code : Int
  Message : String
deriving DecidableEq, Repr

/-- A recipient of the wallet (`wallet.Recipient`). -/
structure Recipient (Script : Type) where
  ScriptPubKey : Script
  Value : Int
  SubtractFeeFromAmount : Bool
deriving DecidableEq, Repr

/-- The `sendmany` command; `Amounts`, a Go map, is the list of its entries in the order
in which the `range` loop visits them. -/
structure SendManyCmd (Value : Type) where
  FromAccount : String
  Amounts : List (String × Value)
  MinConf : Int
  Comment : Option String
  SubTractFeeFrom : Option (List String)

/-- What the handler takes from outside the file: the error codes of btcjson, the state
of the wallet (`IsWalletEnable`, `GetBalance`), the helpers `getStandardScriptPubKey` and
`amountFromValue`, and the wallet operations. `CreateTransaction recipients` is the
triple `(txn, feeRequired, err)` the call returns and `CommitTransaction txn extInfo` the
error it returns, `none` being a nil error. -/
structure WalletEnv (Script Txn Value : Type) where
  ErrRPCMethodNotFoundCode : Int
  RPCWalletInvalidAccountName : Int
  RPCTypeError : Int
  RPCWalletInsufficientFunds : Int
  RPCWalletError : Int
  IsWalletEnable : Bool
  GetBalance : Int
  getStandardScriptPubKey : String → Except RPCError Script
  amountFromValue : Value → Except RPCError Int
  CreateTransaction : List (Recipient Script) → Txn × Int × Option GoError
  CommitTransaction : Txn → List (String × String) → Option GoError
  TxHashString : Txn → String

/-- A call of a wallet operation made by the handler. -/
inductive WalletCall where
  | CreateTransaction : WalletCall
  | CommitTransaction : WalletCall
deriving DecidableEq, Repr

/-- What a call of the handler leaves: the returned pair `(result, error)` or the panic
that ended it, and the wallet operations it called, in order. -/
structure Handled where
  outcome : wire.Outcome (Option String × Option RPCError)
  calls : List WalletCall
deriving DecidableEq, Repr

variable {Script Txn Value : Type}

/-- The value of an `amount.Amount` sum, an `int64` that wraps around. -/
def wrapInt64 (x : Int) : Int := (x + 2 ^ 63) % 2 ^ 64 - 2 ^ 63

def walletDisableRPCError (E : WalletEnv Script Txn Value) : RPCError :=
  { Code := E.ErrRPCMethodNotFoundCode
    Message := "Method not found (wallet method is disabled because no wallet is loaded)" }

/-- The inner loop over `*c.SubTractFeeFrom`: the flag is set when an entry equals the
address. -/
def subtractFeeLoop (address : String) : List String → Bool → Bool
  | [], flag => flag
  | addr :: rest, flag => subtractFeeLoop address rest (if addr = address then true else flag)

/-- The loop over `sendTo`: the total amount and the recipients, or the RPC error of the
first entry that is refused. -/
def recipientsLoop (E : WalletEnv Script Txn Value) (subTractFeeFrom : Option (List String)) :
    List (String × Value) → Int → List (Recipient Script) →
      Except RPCError (Int × List (Recipient Script))
  | [], totalAmount, recipients => .ok (totalAmount, recipients)
  | (address, money) :: rest, totalAmount, recipients =>
    match E.getStandardScriptPubKey address with
    | .error rpcErr => .error rpcErr
    | .ok scriptPubKey =>
      match E.amountFromValue money with
      | .error rpcErr => .error rpcErr
      | .ok amount =>
        if amount < 0 then .error ⟨E.RPCTypeError, "Invalid amount for send"⟩
        else
          let totalAmount := wrapInt64 (totalAmount + amount)
          let subTractFeeFromeAmount :=
            match subTractFeeFrom with
            | some l => subtractFeeLoop address l false
            | none => false
          recipientsLoop E subTractFeeFrom rest totalAmount
            (recipients ++ [⟨scriptPubKey, amount, subTractFeeFromeAmount⟩])

/-- Function `handleSendMany`, on a command of the right type. Calling `err.Error()` on a
nil error is a nil dereference, a panic. The update of `*c.MinConf` and the fields of
`walletTx` other than `ExtInfo` reach neither the result nor the wallet calls and are
left out. -/
def handleSendMany (E : WalletEnv Script Txn Value) (c : SendManyCmd Value) : Handled :=
  if !E.IsWalletEnable then ⟨.ret (none, some (walletDisableRPCError E)), []⟩
  else
    let strAccount := c.FromAccount
    if strAccount = "*" then
      ⟨.ret (none, some ⟨E.RPCWalletInvalidAccountName, "Invalid account anme"⟩), []⟩
    else
      let sendTo := c.Amounts
      let extInfo : List (String × String) :=
        match c.Comment with
        | some comment => [("comment", comment)]
        | none => []
      match recipientsLoop E c.SubTractFeeFrom sendTo 0 [] with
      | .error rpcErr => ⟨.ret (none, some rpcErr), []⟩
      | .ok (totalAmount, recipients) =>
        let balance := E.GetBalance
        if totalAmount > balance then
          ⟨.ret (none, some ⟨E.RPCWalletInsufficientFunds, "Account has insufficient funds"⟩),
            []⟩
        else
          match E.CreateTransaction recipients with
          | (txn, feeRequired, err) =>
            if err ≠ none ∨ wrapInt64 (feeRequired + totalAmount) > balance then
              match err with
              | some e =>
                ⟨.ret (none, some ⟨E.RPCWalletInsufficientFunds, e.Error⟩),
                  [.CreateTransaction]⟩
              | none => ⟨.panic, [.CreateTransaction]⟩
            else
              match E.CommitTransaction txn extInfo with
              | some e =>
                ⟨.ret (none, some ⟨E.RPCWalletError,
                    "Error: The transaction was rejected! Reason given: " ++ e.Error⟩),
                  [.CreateTransaction, .CommitTransaction]⟩
              | none =>
                ⟨.ret (some (E.TxHashString txn), none),
                  [.CreateTransaction, .CommitTransaction]⟩

/-- A sample wallet: enabled, balance 100, addresses are their own scripts, values are
amounts, `CreateTransaction` returns the given triple and `CommitTransaction` accepts. -/
def sampleWalletEnv (created : Nat × Int × Option GoError) : WalletEnv String Nat Int where
  ErrRPCMethodNotFoundCode := -32601
  RPCWalletInvalidAccountName := -11
  RPCTypeError := -3
  RPCWalletInsufficientFunds := -6
  RPCWalletError := -4
  IsWalletEnable := true
  GetBalance := 100
  getStandardScriptPubKey := fun a => .ok a
  amountFromValue := fun v => .ok v
  CreateTransaction := fun _ => created
  CommitTransaction := fun _ _ => none
  TxHashString := fun t => toString t

end rpc

/-! ## Predicates and layouts the properties are stated with -/

namespace wire

deriving instance DecidableEq for Except

variable {Tx : Type}

/-- The invariant of the message: the stored salts are those derived from the header
and nonce it holds. -/
def saltsConsistent (E : Env Tx) (m : MsgHeaderAndShortTxIDs Tx) : Prop :=
  fillShortTxIDSelector E m.Header m.Nonce = .ok (m.shortTxidk0, m.shortTxidk1)

instance (E : Env Tx) (m : MsgHeaderAndShortTxIDs Tx) : Decidable (saltsConsistent E m) := by
  unfold saltsConsistent
  infer_instance

/-- Wire form of one short ID as the specification words it: the low 32 bits as four
little-endian bytes, then the next 16 bits as two little-endian bytes. -/
def shortIDBytes (x : Nat) : List Byte :=
  leBytes 4 (x % 2 ^ 32) ++ leBytes 2 (x / 2 ^ 32 % 2 ^ 16)

/-- Wire form of one prefilled entry as the specification words it: the compact size of
the index, then the serialization of the transaction. -/
def entryBytes (E : Env Tx) (pver enc : Nat) (p : PreFilledTransaction Tx) : List Byte :=
  varIntBytes p.Index ++ (E.TxBtcEncode p.Tx pver enc).1

/-- The layout the specification gives for an encoded message: header, nonce, count of
short IDs, the short IDs, count of prefilled entries, the prefilled entries. -/
def specLayout (E : Env Tx) (pver enc : Nat) (m : MsgHeaderAndShortTxIDs Tx) : List Byte :=
  m.Header.bytes ++ leBytes 8 m.Nonce ++ varIntBytes m.ShortTxids.length ++
    m.ShortTxids.flatMap shortIDBytes ++ varIntBytes m.PreFilledTxn.length ++
    m.PreFilledTxn.flatMap (entryBytes E pver enc)

/-- The bytes `BtcEncode` writes: as `specLayout`, without the count of prefilled
entries. -/
def writtenLayout (E : Env Tx) (pver enc : Nat) (m : MsgHeaderAndShortTxIDs Tx) : List Byte :=
  m.Header.bytes ++ leBytes 8 m.Nonce ++ varIntBytes m.ShortTxids.length ++
    m.ShortTxids.flatMap shortIDBytes ++ m.PreFilledTxn.flatMap (entryBytes E pver enc)

end wire

/-! ## An instance for evaluating the codec on concrete inputs -/

namespace wire

/-- A sample environment: a transaction is one byte on the wire, the digest of a buffer
is its first 32 bytes (zero-padded), and the keyed hash adds the keys to the
little-endian value of its input. The protocol constants are those of the network. -/
def sampleEnv : Env Nat where
  ShortIdsBlocksVersion := 70014
  MaxBlockPayload := 32000000
  Sha256Bytes := fun b => ⟨(b ++ List.replicate 32 0).take 32, by simp [List.length_take]⟩
  SipHash := fun k0 k1 b => (k0 + k1 + leVal b) % 2 ^ 64
  TxHash := fun t => ⟨List.replicate 32 (byteOf t), by simp⟩
  TxBtcEncode := fun t _ _ =>
    match t with
    | some v => ([byteOf v], none)
    | none => ([], some .io)
  TxBtcDecode := fun t r _ _ =>
    match r with
    | [] => ⟨t, [], some .io⟩
    | b :: r1 => ⟨some b.val, r1, none⟩

/-- A sample header: version 1, zero hashes, timestamp 2, bits 3, nonce 4. -/
def sampleHeader : BlockHeader := ⟨1, Hash.zero, Hash.zero, 2, 3, 4⟩

/-- A sample runtime: the allocation limit of 2^48 bytes of a 64-bit platform, with
elements of 8 and of 16 bytes, and a transaction decoder that panics on the nil
receiver. -/
def sampleRuntime : Runtime Nat where
  maxShortIDs := 2 ^ 45
  maxPrefilled := 2 ^ 44
  TxBtcDecodePanics := fun t _ _ _ => t.isNone

end wire

/-! # Properties of the compact-block codec -/

namespace wire

variable {Tx : Type}

/-! ## Little-endian integers and the compact size -/

theorem byteOf_val (n : Nat) : (byteOf n).val = n % 256 := rfl

theorem leBytes_length (n v : Nat) : (leBytes n v).length = n := by
  induction n generalizing v with
  | zero => rfl
  | succ n ih => simp [leBytes, ih]

theorem leVal_leBytes (n v : Nat) : leVal (leBytes n v) = v % 256 ^ n := by
  induction n generalizing v with
  | zero => simp [leBytes, leVal, Nat.mod_one]
  | succ n ih =>
    simp only [leBytes, leVal, ih, byteOf_val]
    rw [pow_succ, Nat.mul_comm (256 ^ n) 256, Nat.mod_mul]

theorem readN_append (n : Nat) (bs rest : List Byte) (h : bs.length = n) :
    readN n (bs ++ rest) = (some bs, rest) := by
  subst h
  simp [readN]

theorem readUint_append (n : Nat) (bs rest : List Byte) (h : bs.length = n) :
    readUint n (bs ++ rest) = (some (leVal bs), rest) := by
  simp [readUint, readN_append n bs rest h]

theorem readUint_leBytes (n v : Nat) (rest : List Byte) :
    readUint n (leBytes n v ++ rest) = (some (v % 256 ^ n), rest) := by
  rw [readUint_append n _ rest (leBytes_length n v), leVal_leBytes]

theorem varIntBytes_length_pos (v : Nat) : 0 < (varIntBytes v).length := by
  unfold varIntBytes
  split_ifs <;> simp

/-- Reading back a compact size written by `WriteVarInt` gives the value and leaves the
rest of the stream. -/
theorem ReadVarInt_varIntBytes (v : Nat) (hv : v < 2 ^ 64) (rest : List Byte) :
    ReadVarInt (varIntBytes v ++ rest) = (some v, rest) := by
  unfold varIntBytes
  split_ifs with h1 h2 h3
  · have e : v % 256 = v := Nat.mod_eq_of_lt (by omega)
    simp only [List.singleton_append, ReadVarInt, byteOf_val, e]
    rw [if_neg (by omega), if_neg (by omega), if_neg (by omega)]
  · simp only [List.cons_append, ReadVarInt, byteOf_val]
    rw [if_neg (by decide), if_neg (by decide), if_pos (by decide), readUint_leBytes]
    have e : v % 256 ^ 2 = v := Nat.mod_eq_of_lt (by norm_num; omega)
    rw [e]
  · simp only [List.cons_append, ReadVarInt, byteOf_val]
    rw [if_neg (by decide), if_pos (by decide), readUint_leBytes]
    have e : v % 256 ^ 4 = v := Nat.mod_eq_of_lt (by norm_num; omega)
    rw [e]
  · simp only [List.cons_append, ReadVarInt, byteOf_val]
    rw [if_pos (by decide), readUint_leBytes]
    have e : v % 256 ^ 8 = v := Nat.mod_eq_of_lt (by norm_num at hv ⊢; omega)
    rw [e]

/-! ## The header and the short-ID section of a stream -/

theorem readUint_of_le (n : Nat) (r : List Byte) (h : n ≤ r.length) :
    readUint n r = (some (leVal (r.take n)), r.drop n) := by
  simp [readUint, readN, h]

theorem readUint_of_lt (n : Nat) (r : List Byte) (h : r.length < n) :
    readUint n r = (none, []) := by
  simp [readUint, readN, Nat.not_le.mpr h]

theorem readHash_of_le (r : List Byte) (h : 32 ≤ r.length) :
    ∃ p, readHash r = (some p, r.drop 32) := by
  simp [readHash, h]

/-- A stream that holds at least 80 bytes: the header is read without error and exactly
80 bytes are consumed. -/
theorem headerDecode_of_le (bh : BlockHeader) (r : List Byte) (pver enc : Nat)
    (h : 80 ≤ r.length) :
    (bh.BtcDecode r pver enc).err = none ∧ (bh.BtcDecode r pver enc).rest = r.drop 80 := by
  unfold BlockHeader.BtcDecode
  rw [readUint_of_le 4 r (by omega)]
  obtain ⟨p, hp⟩ := readHash_of_le (r.drop 4) (by simp; omega)
  simp only [hp]
  obtain ⟨m, hm⟩ := readHash_of_le ((r.drop 4).drop 32) (by simp; omega)
  simp only [hm]
  rw [readUint_of_le 4 _ (by simp; omega)]
  simp only []
  rw [readUint_of_le 4 _ (by simp; omega)]
  simp only []
  rw [readUint_of_le 4 _ (by simp; omega)]
  simp [List.drop_drop]

/-- A short-ID section of `n` six-byte entries is read completely, whatever follows. -/
theorem readShortIDs_append (n : Nat) (bs rest : List Byte) (h : bs.length = 6 * n) :
    ∃ ids, readShortIDs n (bs ++ rest) = (some ids, rest) ∧ ids.length = n := by
  induction n generalizing bs with
  | zero =>
    have : bs = [] := List.length_eq_zero.mp (by simpa using h)
    subst this
    exact ⟨[], rfl, rfl⟩
  | succ n ih =>
    have h4 : 4 ≤ (bs ++ rest).length := by simp; omega
    have h2 : 2 ≤ ((bs ++ rest).drop 4).length := by simp; omega
    have e : ((bs ++ rest).drop 4).drop 2 = bs.drop 6 ++ rest := by
      rw [List.drop_drop, List.drop_append_of_le_length (by omega)]
    obtain ⟨ids, hids, hlen⟩ := ih (bs.drop 6) (by simp; omega)
    refine ⟨((leVal (((bs ++ rest).drop 4).take 2) <<< 32) ||| leVal ((bs ++ rest).take 4))
      :: ids, ?_, by simp [hlen]⟩
    simp only [readShortIDs]
    rw [readUint_of_le 4 _ h4]
    simp only []
    rw [readUint_of_le 2 _ h2]
    simp only [e, hids]

end wire

namespace wire

variable {Tx : Type}

/-! ## Short IDs and their salts -/

theorem fillShortTxIDSelector_eq (E : Env Tx) (h : BlockHeader) (nonce : Nat) :
    fillShortTxIDSelector E h nonce =
      .ok (leVal ((E.Sha256Bytes (h.bytes ++ leBytes 8 nonce)).val.take 8),
           leVal (((E.Sha256Bytes (h.bytes ++ leBytes 8 nonce)).val.drop 8).take 8)) := by
  simp [fillShortTxIDSelector, writeBlockHeader, WriteElements]

theorem headerBytes_length (h : BlockHeader) : h.bytes.length = 80 := by
  simp [BlockHeader.bytes, leBytes_length, h.PrevBlock.property, h.MerkleRoot.property]

theorem leVal_lt (bs : List Byte) : leVal bs < 256 ^ bs.length := by
  induction bs with
  | nil => simp [leVal]
  | cons b bs ih =>
    have hb := b.isLt
    simp only [leVal, List.length_cons, pow_succ]
    omega

/-- C4: `getShortID(k0, k1, h)` is the keyed hash of `h` with all but the low 48 bits
cleared: it equals `SipHash(k0, k1, h) mod 2^48`, is below `2^48`, and equal arguments
give equal results. -/
theorem C4_getShortID_low48 (E : Env Tx) (k0 k1 : Nat) (h : Hash) :
    getShortID E k0 k1 h = E.SipHash k0 k1 h.val % 2 ^ 48 ∧
    getShortID E k0 k1 h < 2 ^ 48 ∧
    ∀ (k0' k1' : Nat) (h' : Hash), k0' = k0 → k1' = k1 → h' = h →
      getShortID E k0' k1' h' = getShortID E k0 k1 h := by
  have e : getShortID E k0 k1 h = E.SipHash k0 k1 h.val % 2 ^ 48 := by
    have := Nat.and_pow_two_sub_one_eq_mod (E.SipHash k0 k1 h.val) 48
    simpa [getShortID] using this
  refine ⟨e, ?_, ?_⟩
  · rw [e]; exact Nat.mod_lt _ (by norm_num)
  · intro k0' k1' h' e0 e1 eh
    rw [e0, e1, eh]

/-- Instance of C4 at the sample environment. -/
theorem C4_getShortID_low48_witness :
    getShortID sampleEnv 5 6 Hash.zero = sampleEnv.SipHash 5 6 Hash.zero.val % 2 ^ 48 ∧
    getShortID sampleEnv 5 6 Hash.zero < 2 ^ 48 ∧
    ∀ (k0' k1' : Nat) (h' : Hash), k0' = 5 → k1' = 6 → h' = Hash.zero →
      getShortID sampleEnv k0' k1' h' = getShortID sampleEnv 5 6 Hash.zero :=
  C4_getShortID_low48 sampleEnv 5 6 Hash.zero

end wire

namespace wire

variable {Tx : Type}

/-- A successful `BtcDecode` leaves the salts of the header and nonce it leaves. -/
theorem BtcDecode_ok_salts (E : Env Tx) (msg : MsgHeaderAndShortTxIDs Tx) (r : List Byte)
    (pver enc : Nat) (h : (msg.BtcDecode E r pver enc).err = none) :
    fillShortTxIDSelector E (msg.BtcDecode E r pver enc).val.Header
        (msg.BtcDecode E r pver enc).val.Nonce =
      .ok ((msg.BtcDecode E r pver enc).val.shortTxidk0,
           (msg.BtcDecode E r pver enc).val.shortTxidk1) := by
  generalize hres : msg.BtcDecode E r pver enc = res at h ⊢
  unfold MsgHeaderAndShortTxIDs.BtcDecode at hres
  split at hres
  · subst hres; simp at h
  · simp only [] at hres
    split at hres
    · subst hres; simp at h
    · split at hres
      · subst hres; simp at h
      · split at hres
        · subst hres; simp at h
        · split at hres
          · subst hres; simp at h
          · split at hres
            · subst hres; simp at h
            · split at hres
              · subst hres; simp at h
              · split at hres
                · subst hres; simp at h
                · rename_i id0 id1 hfill
                  subst hres
                  simpa using hfill

end wire

namespace wire

variable {Tx : Type}

/-! ## Construction from a block -/

/-- A store at `i - 1` with `1 ≤ i` and `i - 1` inside the slice does not panic. -/
theorem sliceStore_pred (s : List Nat) (i v : Nat) (hi : 1 ≤ i) (hs : i - 1 < s.length) :
    sliceStore s ((i : Int) - 1) v = .ret (s.set (i - 1) v) := by
  unfold sliceStore
  rw [if_pos (by omega)]
  congr 2
  omega

/-- A loop that starts at `1 ≤ i` on a slice one shorter than the transaction list does
not panic: it returns a slice of the same length, in which the slots below the loop
index are left as they are and every slot the loop reaches holds the short ID of the
transaction one place later. -/
theorem shortIDLoop_ret (E : Env Tx) (id0 id1 : Nat) (txs : List Tx) (fuel i : Nat)
    (s : List Nat) (hi : 1 ≤ i) (hs : s.length + 1 = txs.length) :
    ∃ s1, shortIDLoop E id0 id1 txs fuel i s = .ret s1 ∧ s1.length = s.length ∧
      (∀ k, k + 1 < i → s1[k]? = s[k]?) ∧
      ∀ (j : Nat) (hj : j < txs.length), i ≤ j → txs.length ≤ i + fuel →
        s1[j - 1]? = some (getShortID E id0 id1 (E.TxHash (txs.get ⟨j, hj⟩))) := by
  induction fuel generalizing i s with
  | zero =>
    refine ⟨s, rfl, rfl, fun _ _ => rfl, ?_⟩
    intro j hj hij hfuel
    omega
  | succ fuel ih =>
    unfold shortIDLoop
    by_cases hlt : i < txs.length
    · rw [if_pos hlt, List.getElem?_eq_getElem hlt]
      simp only []
      rw [sliceStore_pred s i _ hi (by omega)]
      simp only []
      obtain ⟨s1, hrun, hlen, hbelow, hget⟩ :=
        ih (i + 1) (s.set (i - 1) (getShortID E id0 id1 (E.TxHash txs[i]))) (by omega)
          (by simpa using hs)
      refine ⟨s1, hrun, by simpa using hlen, ?_, ?_⟩
      · intro k hk
        rw [hbelow k (by omega), List.getElem?_set, if_neg (by omega)]
      · intro j hj hij hfuel
        by_cases hcase : i = j
        · subst hcase
          rw [hbelow (i - 1) (by omega), List.getElem?_set]
          simp
          omega
        · exact hget j hj (by omega) (by omega)
    · rw [if_neg hlt]
      refine ⟨s, rfl, rfl, fun _ _ => rfl, ?_⟩
      intro j hj hij hfuel
      omega

/-- On a block with at least one transaction the constructor does not panic and returns
a message whose fields are read off the block. -/
theorem NewMsgHeaderAndShortTxIDs_ret (E : Env Tx) (block : MsgBlock Tx)
    (nonce : Nat) (hn : 1 ≤ block.Transactions.length) :
    ∃ (m : MsgHeaderAndShortTxIDs Tx) (k0 k1 : Nat),
      NewMsgHeaderAndShortTxIDs E block nonce = .ret (some m) ∧
      fillShortTxIDSelector E block.Header nonce = .ok (k0, k1) ∧
      m.shortTxidk0 = k0 ∧ m.shortTxidk1 = k1 ∧
      m.Header = block.Header ∧ m.Nonce = nonce ∧
      m.PreFilledTxn = [⟨some (block.Transactions.get ⟨0, hn⟩), 0⟩] ∧
      m.ShortTxids.length = block.Transactions.length - 1 ∧
      ∀ (i : Nat) (_h1 : 1 ≤ i) (hi : i < block.Transactions.length),
        m.ShortTxids[i - 1]? =
          some (getShortID E k0 k1 (E.TxHash (block.Transactions.get ⟨i, hi⟩))) := by
  obtain ⟨header, txs⟩ := block
  simp only at hn
  have hrep : (List.replicate (((txs.length : Nat) : Int) - 1).toNat 0).length + 1
      = txs.length := by
    simp only [List.length_replicate]
    omega
  obtain ⟨s1, hrun, hlen, _, hget⟩ :=
    shortIDLoop_ret E
      (leVal ((E.Sha256Bytes (header.bytes ++ leBytes 8 nonce)).val.take 8))
      (leVal (((E.Sha256Bytes (header.bytes ++ leBytes 8 nonce)).val.drop 8).take 8))
      txs txs.length 1 _ (le_refl 1) hrep
  have h0 : txs[0]? = some (txs.get ⟨0, hn⟩) := by
    rw [List.getElem?_eq_getElem hn]; rfl
  refine ⟨
    { shortTxidk0 := leVal ((E.Sha256Bytes (header.bytes ++ leBytes 8 nonce)).val.take 8)
      shortTxidk1 :=
        leVal (((E.Sha256Bytes (header.bytes ++ leBytes 8 nonce)).val.drop 8).take 8)
      Nonce := nonce
      ShortTxids := s1
      PreFilledTxn := [⟨some (txs.get ⟨0, hn⟩), 0⟩]
      Header := header }, _, _, ?_, fillShortTxIDSelector_eq E header nonce, rfl, rfl, rfl,
    rfl, rfl, ?_, ?_⟩
  · simp only [NewMsgHeaderAndShortTxIDs, fillShortTxIDSelector_eq]
    rw [if_neg (by omega), h0]
    simp only []
    rw [hrun]
  · simp only [hlen, List.length_replicate]
    omega
  · intro i h1 hi
    exact hget i hi h1 (by omega)

/-- C9: for a block with at least one transaction and any nonce, the constructor returns
a message with the block's header, the nonce, the salts of header and nonce, the single
prefilled entry (index 0, first transaction), and `n - 1` short IDs of which the one at
`i - 1` is `getShortID` of the hash of transaction `i`, for `1 ≤ i < n`. -/
theorem C9_NewMsgHeaderAndShortTxIDs_fields (E : Env Tx) (block : MsgBlock Tx)
    (nonce : Nat) (hn : 1 ≤ block.Transactions.length) :
    ∃ (m : MsgHeaderAndShortTxIDs Tx) (k0 k1 : Nat),
      NewMsgHeaderAndShortTxIDs E block nonce = .ret (some m) ∧
      fillShortTxIDSelector E block.Header nonce = .ok (k0, k1) ∧
      m.shortTxidk0 = k0 ∧ m.shortTxidk1 = k1 ∧
      m.Header = block.Header ∧ m.Nonce = nonce ∧
      m.PreFilledTxn = [⟨some (block.Transactions.get ⟨0, hn⟩), 0⟩] ∧
      m.ShortTxids.length = block.Transactions.length - 1 ∧
      ∀ (i : Nat) (_h1 : 1 ≤ i) (hi : i < block.Transactions.length),
        m.ShortTxids[i - 1]? =
          some (getShortID E k0 k1 (E.TxHash (block.Transactions.get ⟨i, hi⟩))) := by
  obtain ⟨m, k0, k1, hrun, hfill, h0, h1, hh, hnonce, hpre, hlen, hids⟩ :=
    NewMsgHeaderAndShortTxIDs_ret E block nonce hn
  exact ⟨m, k0, k1, hrun, hfill, h0, h1, hh, hnonce, hpre, hlen, hids⟩

/-- Instance of C9: a block of three one-byte transactions. -/
theorem C9_NewMsgHeaderAndShortTxIDs_fields_witness :
    ∃ (m : MsgHeaderAndShortTxIDs Nat) (k0 k1 : Nat),
      NewMsgHeaderAndShortTxIDs sampleEnv ⟨sampleHeader, [10, 11, 12]⟩ 7 = .ret (some m) ∧
      fillShortTxIDSelector sampleEnv sampleHeader 7 = .ok (k0, k1) ∧
      m.shortTxidk0 = k0 ∧ m.shortTxidk1 = k1 ∧
      m.Header = sampleHeader ∧ m.Nonce = 7 ∧
      m.PreFilledTxn = [⟨some 10, 0⟩] ∧
      m.ShortTxids.length = 2 ∧
      ∀ (i : Nat) (_h1 : 1 ≤ i) (hi : i < 3),
        m.ShortTxids[i - 1]? =
          some (getShortID sampleEnv k0 k1
            (sampleEnv.TxHash ([10, 11, 12].get ⟨i, hi⟩))) :=
  C9_NewMsgHeaderAndShortTxIDs_fields sampleEnv ⟨sampleHeader, [10, 11, 12]⟩ 7 (by decide)

end wire

namespace wire

variable {Tx : Type}

/-! ## Errors of the codec -/

theorem indexOverflow_ne_versionError (f : String) (q : Nat) :
    indexOverflow ≠ versionError f q := by
  intro h
  simp only [indexOverflow, versionError, Err.messageError.injEq] at h
  have h2 := congrArg String.data h.2
  rw [String.data_append] at h2
  have h3 := congrArg List.head? h2
  have h4 : ("cmpctblock message invalid for protocol version ".data ++
      (toString q).data).head? = some 'c' := rfl
  rw [h4] at h3
  revert h3
  decide

theorem prefilledDecode_overflow (E : Env Tx) (pft : PreFilledTransaction Tx)
    (r r1 : List Byte) (pver enc idx : Nat) (hr : ReadVarInt r = (some idx, r1))
    (hidx : 65535 < idx) :
    pft.BtcDecode E r pver enc = ⟨pft, r1, some indexOverflow⟩ := by
  simp [PreFilledTransaction.BtcDecode, hr, hidx]

theorem prefilledDecode_inRange (E : Env Tx) (pft : PreFilledTransaction Tx)
    (r r1 : List Byte) (pver enc idx : Nat) (hr : ReadVarInt r = (some idx, r1))
    (hidx : idx ≤ 65535) :
    pft.BtcDecode E r pver enc =
      ⟨⟨afterTxDecode pft.Tx (E.TxBtcDecode pft.Tx r1 pver enc).val, idx⟩,
        (E.TxBtcDecode pft.Tx r1 pver enc).rest, (E.TxBtcDecode pft.Tx r1 pver enc).err⟩ := by
  have e : idx % 65536 = idx := Nat.mod_eq_of_lt (by omega)
  simp [PreFilledTransaction.BtcDecode, hr, Nat.not_lt.mpr hidx, e]

theorem prefilledDecode_truncated (E : Env Tx)
    (pft : PreFilledTransaction Tx) (r r1 : List Byte) (pver enc : Nat)
    (hr : ReadVarInt r = (none, r1)) :
    pft.BtcDecode E r pver enc = ⟨pft, r1, some .io⟩ := by
  simp [PreFilledTransaction.BtcDecode, hr]

/-- The errors `PreFilledTransaction.BtcDecode` can return. -/
theorem prefilledDecode_err (E : Env Tx) (pft : PreFilledTransaction Tx)
    (r : List Byte) (pver enc : Nat) :
    (pft.BtcDecode E r pver enc).err = some .io ∨
    (pft.BtcDecode E r pver enc).err = some indexOverflow ∨
    ∃ t r1, (pft.BtcDecode E r pver enc).err = (E.TxBtcDecode t r1 pver enc).err := by
  rcases hr : ReadVarInt r with ⟨_ | idx, r1⟩
  · left; rw [prefilledDecode_truncated E pft r r1 pver enc hr]
  · by_cases hidx : 65535 < idx
    · right; left; rw [prefilledDecode_overflow E pft r r1 pver enc idx hr hidx]
    · right; right
      rw [prefilledDecode_inRange E pft r r1 pver enc idx hr (by omega)]
      exact ⟨_, _, rfl⟩

/-- The errors the prefilled loop can return. -/
theorem decodePrefilled_err (E : Env Tx) (pver enc n : Nat) (r : List Byte) :
    (decodePrefilled E pver enc n r).err = none ∨
    (decodePrefilled E pver enc n r).err = some .io ∨
    (decodePrefilled E pver enc n r).err = some indexOverflow ∨
    ∃ t r1, (decodePrefilled E pver enc n r).err = (E.TxBtcDecode t r1 pver enc).err := by
  induction n generalizing r with
  | zero => left; rfl
  | succ n ih =>
    unfold decodePrefilled
    simp only []
    split
    · rename_i err herr
      rcases prefilledDecode_err E ⟨none, 0⟩ r pver enc with h | h | ⟨t, r1, h⟩
      · right; left; rw [← herr, h]
      · right; right; left; rw [← herr, h]
      · right; right; right; exact ⟨t, r1, by rw [← herr, h]⟩
    · exact ih _

end wire

namespace wire

variable {Tx : Type}

/-- Decoding a stream that starts with 80 header bytes, 8 nonce bytes, a count `n` and
`n` six-byte short IDs: the header, the nonce and the short IDs are taken from these
sections and decoding goes on with the count of prefilled entries. -/
theorem BtcDecode_sections (E : Env Tx) (msg : MsgHeaderAndShortTxIDs Tx)
    (hdr nonce idb rest : List Byte) (n pver enc : Nat)
    (hh : hdr.length = 80) (hn : nonce.length = 8) (hid : idb.length = 6 * n)
    (hn64 : n < 2 ^ 64) (hp : E.ShortIdsBlocksVersion ≤ pver) :
    ∃ (hd : BlockHeader) (ids : List Nat), ids.length = n ∧
      readShortIDs n (idb ++ rest) = (some ids, rest) ∧
      msg.BtcDecode E (hdr ++ (nonce ++ (varIntBytes n ++ (idb ++ rest)))) pver enc =
        (match ReadVarInt rest with
          | (none, r4) =>
            ⟨{ msg with Header := hd, Nonce := leVal nonce,
                        ShortTxids := msg.ShortTxids ++ ids }, r4, some .io⟩
          | (some pftLen, r4) =>
            match (decodePrefilled E pver enc pftLen r4).err with
            | some err =>
              ⟨{ msg with Header := hd, Nonce := leVal nonce,
                          ShortTxids := msg.ShortTxids ++ ids },
                (decodePrefilled E pver enc pftLen r4).rest, some err⟩
            | none =>
              ⟨{ msg with
                  Header := hd, Nonce := leVal nonce, ShortTxids := msg.ShortTxids ++ ids,
                  shortTxidk0 :=
                    leVal ((E.Sha256Bytes (hd.bytes ++ leBytes 8 (leVal nonce))).val.take 8),
                  shortTxidk1 :=
                    leVal (((E.Sha256Bytes
                      (hd.bytes ++ leBytes 8 (leVal nonce))).val.drop 8).take 8) },
                (decodePrefilled E pver enc pftLen r4).rest, none⟩) := by
  obtain ⟨ids, hids, hlen⟩ := readShortIDs_append n idb rest hid
  obtain ⟨herr, hrest⟩ := headerDecode_of_le msg.Header
    (hdr ++ (nonce ++ (varIntBytes n ++ (idb ++ rest)))) pver enc (by simp; omega)
  rw [List.drop_left' hh] at hrest
  refine ⟨(msg.Header.BtcDecode
    (hdr ++ (nonce ++ (varIntBytes n ++ (idb ++ rest)))) pver enc).val, ids, hlen, hids, ?_⟩
  unfold MsgHeaderAndShortTxIDs.BtcDecode
  rw [if_neg (by omega)]
  simp only [herr, hrest, readUint_append 8 nonce _ hn, ReadVarInt_varIntBytes n hn64, hids,
    fillShortTxIDSelector_eq]

end wire

namespace wire

variable {Tx : Type}

/-! ## Reading back the bytes of a header -/

theorem leBytes_leVal (bs : List Byte) : leBytes bs.length (leVal bs) = bs := by
  induction bs with
  | nil => rfl
  | cons b bs ih =>
    have hb := b.isLt
    simp only [List.length_cons, leBytes, leVal]
    have h1 : byteOf (b.val + 256 * leVal bs) = b := by
      apply Fin.ext
      simp only [byteOf_val]
      omega
    have h2 : (b.val + 256 * leVal bs) / 256 = leVal bs := by omega
    rw [h1, h2, ih]

theorem readHash_append (b rest : List Byte) (hb : b.length = 32) :
    readHash (b ++ rest) = (some ⟨b, hb⟩, rest) := by
  have h : 32 ≤ (b ++ rest).length := by simp; omega
  simp only [readHash, h, dite_true]
  congr 1
  · congr 1
    apply Subtype.ext
    simp [List.take_left' hb]
  · exact List.drop_left' hb

theorem split_at (l : List Byte) (n : Nat) (h : n ≤ l.length) :
    ∃ a b, l = a ++ b ∧ a.length = n ∧ b.length = l.length - n :=
  ⟨l.take n, l.drop n, (List.take_append_drop n l).symm, by simp [h], by simp⟩

/-- Decoding a stream that starts with 80 bytes gives the header these bytes denote and
leaves what follows them. -/
theorem headerDecode_bytes (bh : BlockHeader) (hdr rest : List Byte) (pver enc : Nat)
    (hh : hdr.length = 80) :
    ∃ hd : BlockHeader, bh.BtcDecode (hdr ++ rest) pver enc = ⟨hd, rest, none⟩ ∧
      hd.bytes = hdr := by
  obtain ⟨a, l1, rfl, ha, h1⟩ := split_at hdr 4 (by omega)
  obtain ⟨b, l2, rfl, hb, h2⟩ := split_at l1 32 (by simp at hh; omega)
  obtain ⟨c, l3, rfl, hc, h3⟩ := split_at l2 32 (by simp at hh; omega)
  obtain ⟨d, l4, rfl, hd, h4⟩ := split_at l3 4 (by simp at hh; omega)
  obtain ⟨e, f, rfl, he, h5⟩ := split_at l4 4 (by simp at hh; omega)
  have hf : f.length = 4 := by simp at hh; omega
  refine ⟨⟨leVal a, ⟨b, hb⟩, ⟨c, hc⟩, leVal d, leVal e, leVal f⟩, ?_, ?_⟩
  · unfold BlockHeader.BtcDecode
    simp only [List.append_assoc, readUint_append 4 a _ ha, readHash_append b _ hb,
      readHash_append c _ hc, readUint_append 4 d _ hd, readUint_append 4 e _ he,
      readUint_append 4 f _ hf]
  · have ea := leBytes_leVal a
    have ed := leBytes_leVal d
    have ee := leBytes_leVal e
    have ef := leBytes_leVal f
    rw [ha] at ea
    rw [hd] at ed
    rw [he] at ee
    rw [hf] at ef
    simp only [BlockHeader.bytes, ea, ed, ee, ef, List.append_assoc]

/-! ## Runs of the decoder that return, and runs that panic -/

/-- A run of the entry decoder that returns is the run `PreFilledTransaction.BtcDecode`
describes. -/
theorem prefilledDecodeRun_returns (E : Env Tx) (R : Runtime Tx)
    (pft : PreFilledTransaction Tx) (r : List Byte) (pver enc : Nat) (e : Option Err)
    (h : (pft.BtcDecodeRun E R r pver enc).outcome = .ret e) :
    pft.BtcDecode E r pver enc =
      ⟨(pft.BtcDecodeRun E R r pver enc).val, (pft.BtcDecodeRun E R r pver enc).rest, e⟩ := by
  unfold PreFilledTransaction.BtcDecodeRun at h ⊢
  unfold PreFilledTransaction.BtcDecode
  rcases hr : ReadVarInt r with ⟨_ | idx, r1⟩
  · simp only [hr] at h ⊢
    cases h
    rfl
  · simp only [hr] at h ⊢
    by_cases hidx : idx > 65535
    · simp only [hidx, if_true] at h ⊢
      cases h
      rfl
    · simp only [hidx, if_false] at h ⊢
      by_cases hp : R.TxBtcDecodePanics pft.Tx r1 pver enc = true
      · simp only [hp, if_true] at h
        cases h
      · simp only [hp] at h ⊢
        cases h
        rfl

/-- A run of the prefilled loop that returns is the run `decodePrefilled` describes. -/
theorem decodePrefilledRun_returns (E : Env Tx) (R : Runtime Tx) (pver enc n : Nat)
    (r : List Byte) (e : Option Err)
    (h : (decodePrefilledRun E R pver enc n r).outcome = .ret e) :
    decodePrefilled E pver enc n r =
      ⟨(decodePrefilledRun E R pver enc n r).val,
        (decodePrefilledRun E R pver enc n r).rest, e⟩ := by
  induction n generalizing r with
  | zero =>
    simp only [decodePrefilledRun] at h ⊢
    cases h
    rfl
  | succ n ih =>
    unfold decodePrefilledRun at h ⊢
    unfold decodePrefilled
    simp only [] at h ⊢
    rcases hx : (PreFilledTransaction.BtcDecodeRun E R ⟨none, 0⟩ r pver enc).outcome
      with _ | (_ | err)
    · simp only [hx] at h
      cases h
    · simp only [hx] at h ⊢
      rw [prefilledDecodeRun_returns E R _ r pver enc none hx]
      simp only []
      rw [ih _ h]
    · simp only [hx] at h ⊢
      rw [prefilledDecodeRun_returns E R _ r pver enc (some err) hx]
      cases h
      rfl

/-- A run of `BtcDecode` that returns is the run `MsgHeaderAndShortTxIDs.BtcDecode`
describes: the same message, the same unread bytes, the same error. -/
theorem BtcDecodeRun_returns (E : Env Tx) (R : Runtime Tx)
    (msg : MsgHeaderAndShortTxIDs Tx) (r : List Byte) (pver enc : Nat) (e : Option Err)
    (h : (msg.BtcDecodeRun E R r pver enc).outcome = .ret e) :
    msg.BtcDecode E r pver enc =
      ⟨(msg.BtcDecodeRun E R r pver enc).val, (msg.BtcDecodeRun E R r pver enc).rest, e⟩ := by
  unfold MsgHeaderAndShortTxIDs.BtcDecodeRun at h ⊢
  unfold MsgHeaderAndShortTxIDs.BtcDecode
  by_cases hp : pver < E.ShortIdsBlocksVersion
  · simp only [hp, if_true] at h ⊢
    cases h
    rfl
  · simp only [hp, if_false] at h ⊢
    rcases hh : (msg.Header.BtcDecode r pver enc).err with _ | err
    · simp only [hh] at h ⊢
      rcases hn : readUint 8 (msg.Header.BtcDecode r pver enc).rest with ⟨_ | nonce, r1⟩
      · simp only [hn] at h ⊢
        cases h
        rfl
      · simp only [hn] at h ⊢
        rcases hs : ReadVarInt r1 with ⟨_ | shortIDSize, r2⟩
        · simp only [hs] at h ⊢
          cases h
          rfl
        · simp only [hs] at h ⊢
          by_cases hmk : makePanics R.maxShortIDs shortIDSize = true
          · simp only [hmk, if_true] at h
            cases h
          · simp only [hmk] at h ⊢
            rcases hids : readShortIDs shortIDSize r2 with ⟨_ | ids, r3⟩
            · simp only [hids] at h ⊢
              cases h
              rfl
            · simp only [hids] at h ⊢
              rcases hl : ReadVarInt r3 with ⟨_ | pftLen, r4⟩
              · simp only [hl] at h ⊢
                cases h
                rfl
              · simp only [hl] at h ⊢
                by_cases hmk2 : makePanics R.maxPrefilled pftLen = true
                · simp only [hmk2, if_true] at h
                  cases h
                · simp only [hmk2] at h ⊢
                  rcases hv : (decodePrefilledRun E R pver enc pftLen r4).outcome
                    with _ | (_ | err)
                  · simp only [hv] at h
                    cases h
                  · simp only [hv] at h ⊢
                    rw [decodePrefilledRun_returns E R pver enc pftLen r4 none hv]
                    simp only [fillShortTxIDSelector_eq] at h ⊢
                    cases h
                    rfl
                  · simp only [hv] at h ⊢
                    rw [decodePrefilledRun_returns E R pver enc pftLen r4 (some err) hv]
                    cases h
                    rfl
    · simp only [hh] at h ⊢
      cases h
      rfl

/-- Decoding a stream that starts with 80 header bytes, 8 nonce bytes, a count `n` that
`make` accepts and `n` six-byte short IDs: the header, the nonce and the short IDs are
taken from these sections, and the run goes on with the count of prefilled entries,
where it panics when `make` rejects the count. -/
theorem BtcDecodeRun_sections (E : Env Tx) (R : Runtime Tx) (msg : MsgHeaderAndShortTxIDs Tx)
    (hdr nonce idb rest : List Byte) (n pver enc : Nat)
    (hh : hdr.length = 80) (hn : nonce.length = 8) (hid : idb.length = 6 * n)
    (hn64 : n < 2 ^ 64) (hp : E.ShortIdsBlocksVersion ≤ pver)
    (hmk : makePanics R.maxShortIDs n = false) :
    ∃ (hd : BlockHeader) (ids : List Nat), hd.bytes = hdr ∧ ids.length = n ∧
      msg.BtcDecodeRun E R (hdr ++ (nonce ++ (varIntBytes n ++ (idb ++ rest)))) pver enc =
        (match ReadVarInt rest with
          | (none, r4) =>
            ⟨{ msg with Header := hd, Nonce := leVal nonce,
                        ShortTxids := msg.ShortTxids ++ ids }, r4, .ret (some .io)⟩
          | (some pftLen, r4) =>
            if makePanics R.maxPrefilled pftLen then
              ⟨{ msg with Header := hd, Nonce := leVal nonce,
                          ShortTxids := msg.ShortTxids ++ ids }, r4, .panic⟩
            else
              match (decodePrefilledRun E R pver enc pftLen r4).outcome with
              | .panic =>
                ⟨{ msg with Header := hd, Nonce := leVal nonce,
                            ShortTxids := msg.ShortTxids ++ ids },
                  (decodePrefilledRun E R pver enc pftLen r4).rest, .panic⟩
              | .ret (some err) =>
                ⟨{ msg with Header := hd, Nonce := leVal nonce,
                            ShortTxids := msg.ShortTxids ++ ids },
                  (decodePrefilledRun E R pver enc pftLen r4).rest, .ret (some err)⟩
              | .ret none =>
                ⟨{ msg with
                    Header := hd, Nonce := leVal nonce, ShortTxids := msg.ShortTxids ++ ids,
                    shortTxidk0 :=
                      leVal ((E.Sha256Bytes (hdr ++ nonce)).val.take 8),
                    shortTxidk1 :=
                      leVal (((E.Sha256Bytes (hdr ++ nonce)).val.drop 8).take 8) },
                  (decodePrefilledRun E R pver enc pftLen r4).rest, .ret none⟩) := by
  obtain ⟨ids, hids, hlen⟩ := readShortIDs_append n idb rest hid
  obtain ⟨hd, hdec, hbytes⟩ := headerDecode_bytes msg.Header hdr
    (nonce ++ (varIntBytes n ++ (idb ++ rest))) pver enc hh
  have hnonce : leBytes 8 (leVal nonce) = nonce := by
    have := leBytes_leVal nonce
    rwa [hn] at this
  refine ⟨hd, ids, hbytes, hlen, ?_⟩
  unfold MsgHeaderAndShortTxIDs.BtcDecodeRun
  rw [if_neg (by omega)]
  simp only [hdec, readUint_append 8 nonce _ hn, ReadVarInt_varIntBytes n hn64, hids, hmk,
    fillShortTxIDSelector_eq, hbytes, hnonce]
  rfl

/-- A count of short IDs that `make` rejects: the run panics once the count is read,
after the header and the nonce were assigned. -/
theorem BtcDecodeRun_shortIDs_panic (E : Env Tx) (R : Runtime Tx)
    (msg : MsgHeaderAndShortTxIDs Tx) (hdr nonce rest : List Byte) (n pver enc : Nat)
    (hh : hdr.length = 80) (hn : nonce.length = 8)
    (hn64 : n < 2 ^ 64) (hp : E.ShortIdsBlocksVersion ≤ pver)
    (hmk : makePanics R.maxShortIDs n = true) :
    (msg.BtcDecodeRun E R (hdr ++ (nonce ++ (varIntBytes n ++ rest))) pver enc).outcome
      = .panic := by
  obtain ⟨hd, hdec, _⟩ := headerDecode_bytes msg.Header hdr
    (nonce ++ (varIntBytes n ++ rest)) pver enc hh
  unfold MsgHeaderAndShortTxIDs.BtcDecodeRun
  rw [if_neg (by omega)]
  simp only [hdec, readUint_append 8 nonce _ hn, ReadVarInt_varIntBytes n hn64, hmk, if_true]

/-- A run that returns success on a stream starting with 80 header bytes and 8 nonce
bytes has stored the header and the nonce these bytes denote, and the salts of the
digest of these 88 bytes. -/
theorem BtcDecodeRun_ok (E : Env Tx) (R : Runtime Tx) (msg : MsgHeaderAndShortTxIDs Tx)
    (hdr nonce tail : List Byte) (pver enc : Nat)
    (hh : hdr.length = 80) (hn : nonce.length = 8)
    (h : (msg.BtcDecodeRun E R (hdr ++ (nonce ++ tail)) pver enc).outcome = .ret none) :
    (msg.BtcDecodeRun E R (hdr ++ (nonce ++ tail)) pver enc).val.Header.bytes = hdr ∧
    (msg.BtcDecodeRun E R (hdr ++ (nonce ++ tail)) pver enc).val.Nonce = leVal nonce ∧
    (msg.BtcDecodeRun E R (hdr ++ (nonce ++ tail)) pver enc).val.shortTxidk0 =
      leVal ((E.Sha256Bytes (hdr ++ nonce)).val.take 8) ∧
    (msg.BtcDecodeRun E R (hdr ++ (nonce ++ tail)) pver enc).val.shortTxidk1 =
      leVal (((E.Sha256Bytes (hdr ++ nonce)).val.drop 8).take 8) := by
  obtain ⟨hd, hdec, hbytes⟩ := headerDecode_bytes msg.Header hdr (nonce ++ tail) pver enc hh
  have hnonce : leBytes 8 (leVal nonce) = nonce := by
    have := leBytes_leVal nonce
    rwa [hn] at this
  unfold MsgHeaderAndShortTxIDs.BtcDecodeRun at h ⊢
  by_cases hp : pver < E.ShortIdsBlocksVersion
  · simp only [hp, if_true] at h
    cases h
  · simp only [hp, if_false, hdec, readUint_append 8 nonce _ hn] at h ⊢
    rcases hs : ReadVarInt tail with ⟨_ | shortIDSize, r2⟩
    · simp only [hs] at h
      cases h
    · simp only [hs] at h ⊢
      by_cases hmk : makePanics R.maxShortIDs shortIDSize = true
      · simp only [hmk, if_true] at h
        cases h
      · simp only [hmk] at h ⊢
        rcases hids : readShortIDs shortIDSize r2 with ⟨_ | ids, r3⟩
        · simp only [hids] at h
          cases h
        · simp only [hids] at h ⊢
          rcases hl : ReadVarInt r3 with ⟨_ | pftLen, r4⟩
          · simp only [hl] at h
            cases h
          · simp only [hl] at h ⊢
            by_cases hmk2 : makePanics R.maxPrefilled pftLen = true
            · simp only [hmk2, if_true] at h
              cases h
            · simp only [hmk2] at h ⊢
              rcases hv : (decodePrefilledRun E R pver enc pftLen r4).outcome
                with _ | (_ | err)
              · simp only [hv] at h
                cases h
              · simp [hv, fillShortTxIDSelector_eq, hbytes, hnonce]
              · simp only [hv] at h
                cases h

/-! ## The 16-bit index of a prefilled entry -/

theorem prefilledDecodeRun_overflow (E : Env Tx) (R : Runtime Tx)
    (pft : PreFilledTransaction Tx) (r r1 : List Byte) (pver enc idx : Nat)
    (hr : ReadVarInt r = (some idx, r1)) (hidx : 65535 < idx) :
    pft.BtcDecodeRun E R r pver enc = ⟨pft, r1, .ret (some indexOverflow)⟩ := by
  simp [PreFilledTransaction.BtcDecodeRun, hr, hidx]

/-- With an index that fits 16 bits the entry decoder assigns the index and calls the
transaction decoder, whose panic or result it passes on. -/
theorem prefilledDecodeRun_inRange (E : Env Tx) (R : Runtime Tx)
    (pft : PreFilledTransaction Tx) (r r1 : List Byte) (pver enc idx : Nat)
    (hr : ReadVarInt r = (some idx, r1)) (hidx : idx ≤ 65535) :
    pft.BtcDecodeRun E R r pver enc =
      if R.TxBtcDecodePanics pft.Tx r1 pver enc then ⟨⟨pft.Tx, idx⟩, r1, .panic⟩
      else
        ⟨⟨afterTxDecode pft.Tx (E.TxBtcDecode pft.Tx r1 pver enc).val, idx⟩,
          (E.TxBtcDecode pft.Tx r1 pver enc).rest,
          .ret (E.TxBtcDecode pft.Tx r1 pver enc).err⟩ := by
  have e : idx % 65536 = idx := Nat.mod_eq_of_lt (by omega)
  simp [PreFilledTransaction.BtcDecodeRun, hr, Nat.not_lt.mpr hidx, e]

/-- C5, counterexample: the stream made of the sample header, nonce 7, one short ID, the
count 2^64 - 1 of prefilled entries and a first entry whose index reads as 65536 has a
valid header, nonce and short-ID section and a first index above 65535, and the
protocol version is not below `ShortIdsBlocksVersion`; `BtcDecode` does not return the
message error "index overflowed 16-bits" on it: it panics in
`make([]PreFilledTransaction, pftLen)`, before the index is read. -/
theorem C5_count_panics :
    ReadVarInt (varIntBytes (2 ^ 64 - 1) ++ (varIntBytes 65536 ++ [9])) =
      (some (2 ^ 64 - 1), varIntBytes 65536 ++ [9]) ∧
    ReadVarInt (varIntBytes 65536 ++ [9]) = (some 65536, [9]) ∧
    sampleEnv.ShortIdsBlocksVersion ≤ 70014 ∧
    makePanics sampleRuntime.maxPrefilled (2 ^ 64 - 1) = true ∧
    (MsgHeaderAndShortTxIDs.BtcDecodeRun sampleEnv sampleRuntime
        (MsgHeaderAndShortTxIDs.empty Nat)
        (sampleHeader.bytes ++ (leBytes 8 7 ++ (varIntBytes 1 ++ ([1, 2, 3, 4, 5, 6] ++
          (varIntBytes (2 ^ 64 - 1) ++ (varIntBytes 65536 ++ [9])))))) 70014 0).outcome
      = .panic ∧
    (MsgHeaderAndShortTxIDs.BtcDecodeRun sampleEnv sampleRuntime
        (MsgHeaderAndShortTxIDs.empty Nat)
        (sampleHeader.bytes ++ (leBytes 8 7 ++ (varIntBytes 1 ++ ([1, 2, 3, 4, 5, 6] ++
          (varIntBytes (2 ^ 64 - 1) ++ (varIntBytes 65536 ++ [9])))))) 70014 0).outcome
      ≠ .ret (some (.messageError "MsgCmpctBlock.BtcDecode" "index overflowed 16-bits")) := by
  decide

/-- C5, amended: take a stream with a header, a nonce and a complete short-ID section,
whose prefilled section announces at least one entry and starts with a compact size
that reads as an index above 65535, and a protocol version not below
`ShortIdsBlocksVersion`. When `make` accepts both announced counts,
`MsgHeaderAndShortTxIDs.BtcDecode` returns the message error "index overflowed 16-bits";
when `make` rejects one of them, as it does for every count from 2^63 on, `BtcDecode`
panics instead, before it reads the index. `PreFilledTransaction.BtcDecode`, having read
the index `v`, returns that error exactly when `v > 65535` (the transaction decoder not
producing this error itself) and then leaves the entry as it was; otherwise it sets
`Index` to `v`, also when the transaction decoder it calls next panics. -/
theorem C5_index_overflow (E : Env Tx) (R : Runtime Tx) (msg : MsgHeaderAndShortTxIDs Tx)
    (hdr nonce idb entries tail : List Byte) (n m idx pver enc : Nat)
    (pft : PreFilledTransaction Tx) (r r1 : List Byte) (v : Nat)
    (hh : hdr.length = 80) (hn : nonce.length = 8) (hid : idb.length = 6 * n)
    (hn64 : n < 2 ^ 64) (hm : 1 ≤ m) (hm64 : m < 2 ^ 64)
    (hentries : ReadVarInt entries = (some idx, tail))
    (hidx : 65535 < idx) (hp : E.ShortIdsBlocksVersion ≤ pver)
    (hTx : ∀ t s p e, (E.TxBtcDecode t s p e).err ≠ some indexOverflow)
    (hr : ReadVarInt r = (some v, r1)) :
    (makePanics R.maxShortIDs n = false → makePanics R.maxPrefilled m = false →
      (msg.BtcDecodeRun E R
          (hdr ++ (nonce ++ (varIntBytes n ++ (idb ++
            (varIntBytes m ++ entries))))) pver enc).outcome
        = .ret (some (.messageError "MsgCmpctBlock.BtcDecode" "index overflowed 16-bits"))) ∧
    (makePanics R.maxShortIDs n = true ∨ makePanics R.maxPrefilled m = true →
      (msg.BtcDecodeRun E R
          (hdr ++ (nonce ++ (varIntBytes n ++ (idb ++
            (varIntBytes m ++ entries))))) pver enc).outcome = .panic) ∧
    (2 ^ 63 ≤ n → makePanics R.maxShortIDs n = true) ∧
    (2 ^ 63 ≤ m → makePanics R.maxPrefilled m = true) ∧
    ((pft.BtcDecodeRun E R r pver enc).outcome
        = .ret (some (.messageError "MsgCmpctBlock.BtcDecode" "index overflowed 16-bits"))
      ↔ 65535 < v) ∧
    (65535 < v → (pft.BtcDecodeRun E R r pver enc).val = pft) ∧
    (v ≤ 65535 → (pft.BtcDecodeRun E R r pver enc).val.Index = v) := by
  have hsec : makePanics R.maxShortIDs n = false →
      ∃ (hd : BlockHeader) (ids : List Nat),
        msg.BtcDecodeRun E R
          (hdr ++ (nonce ++ (varIntBytes n ++ (idb ++ (varIntBytes m ++ entries))))) pver enc =
        if makePanics R.maxPrefilled m then
          ⟨{ msg with Header := hd, Nonce := leVal nonce,
                      ShortTxids := msg.ShortTxids ++ ids }, entries, .panic⟩
        else
          ⟨{ msg with Header := hd, Nonce := leVal nonce,
                      ShortTxids := msg.ShortTxids ++ ids }, tail,
            .ret (some indexOverflow)⟩ := by
    intro hnmk
    obtain ⟨hd, ids, _, _, hdec⟩ := BtcDecodeRun_sections E R msg hdr nonce idb
      (varIntBytes m ++ entries) n pver enc hh hn hid hn64 hp hnmk
    refine ⟨hd, ids, ?_⟩
    rw [hdec, ReadVarInt_varIntBytes m hm64]
    obtain ⟨m', rfl⟩ : ∃ m', m = m' + 1 := ⟨m - 1, by omega⟩
    have hx := prefilledDecodeRun_overflow E R (⟨none, 0⟩ : PreFilledTransaction Tx)
      entries tail pver enc idx hentries hidx
    simp only [decodePrefilledRun, hx]
  refine ⟨?_, ?_, ?_, ?_, ?_, ?_, ?_⟩
  · intro hnmk hmmk
    obtain ⟨hd, ids, hdec⟩ := hsec hnmk
    rw [hdec, hmmk]
    rfl
  · intro hmk
    by_cases hnmk : makePanics R.maxShortIDs n = true
    · exact BtcDecodeRun_shortIDs_panic E R msg hdr nonce _ n pver enc hh hn hn64 hp hnmk
    · have hmmk : makePanics R.maxPrefilled m = true := by
        rcases hmk with h | h
        · exact absurd h hnmk
        · exact h
      obtain ⟨hd, ids, hdec⟩ := hsec (by simpa using hnmk)
      rw [hdec, hmmk]
      rfl
  · intro h
    simp only [makePanics, Bool.or_eq_true, decide_eq_true_eq]
    exact Or.inl h
  · intro h
    simp only [makePanics, Bool.or_eq_true, decide_eq_true_eq]
    exact Or.inl h
  · constructor
    · intro herr
      by_contra hv
      rw [prefilledDecodeRun_inRange E R pft r r1 pver enc v hr (by omega)] at herr
      by_cases hpan : R.TxBtcDecodePanics pft.Tx r1 pver enc = true
      · rw [if_pos hpan] at herr
        cases herr
      · rw [if_neg hpan] at herr
        injection herr with herr
        exact hTx _ _ _ _ herr
    · intro hv
      rw [prefilledDecodeRun_overflow E R pft r r1 pver enc v hr hv]
      rfl
  · intro hv
    rw [prefilledDecodeRun_overflow E R pft r r1 pver enc v hr hv]
  · intro hv
    rw [prefilledDecodeRun_inRange E R pft r r1 pver enc v hr hv]
    split <;> rfl

theorem sampleEnv_TxBtcDecode_err (t : Option Nat) (s : List Byte) (p e : Nat) :
    (sampleEnv.TxBtcDecode t s p e).err = none ∨
    (sampleEnv.TxBtcDecode t s p e).err = some .io := by
  cases s with
  | nil => right; rfl
  | cons b s => left; rfl

/-- Instance of C5 (amended): the sample header, nonce 7, one short ID, one announced
prefilled entry whose index is 65536; and an entry decoder that reads the index 5
before the transaction decoder panics on the nil `Tx` of the entry. -/
theorem C5_index_overflow_witness :
    (MsgHeaderAndShortTxIDs.BtcDecodeRun sampleEnv sampleRuntime
        (MsgHeaderAndShortTxIDs.empty Nat)
        (sampleHeader.bytes ++ (leBytes 8 7 ++ (varIntBytes 1 ++ ([1, 2, 3, 4, 5, 6] ++
          (varIntBytes 1 ++ (varIntBytes 65536 ++ [9])))))) 70014 0).outcome
      = .ret (some (.messageError "MsgCmpctBlock.BtcDecode" "index overflowed 16-bits")) ∧
    ((PreFilledTransaction.BtcDecodeRun sampleEnv sampleRuntime ⟨none, 0⟩ [5, 9] 70014 0).outcome
        = .ret (some (.messageError "MsgCmpctBlock.BtcDecode" "index overflowed 16-bits"))
      ↔ 65535 < 5) ∧
    (PreFilledTransaction.BtcDecodeRun sampleEnv sampleRuntime ⟨none, 0⟩ [5, 9] 70014 0).val.Index
      = 5 ∧
    (PreFilledTransaction.BtcDecodeRun sampleEnv sampleRuntime ⟨none, 0⟩ [5, 9] 70014 0).outcome
      = .panic := by
  have h := C5_index_overflow sampleEnv sampleRuntime (MsgHeaderAndShortTxIDs.empty Nat)
    sampleHeader.bytes (leBytes 8 7) [1, 2, 3, 4, 5, 6] (varIntBytes 65536 ++ [9]) [9]
    1 1 65536 70014 0 ⟨none, 0⟩ [5, 9] [9] 5
    (by decide) (by decide) (by decide) (by decide) (by decide) (by decide) (by decide)
    (by decide) (by decide)
    (fun t s p e h => by
      rcases sampleEnv_TxBtcDecode_err t s p e with h' | h' <;> rw [h'] at h <;>
        simp [indexOverflow] at h)
    (by decide)
  exact ⟨h.1 (by decide) (by decide), h.2.2.2.2.1, h.2.2.2.2.2.2 (by decide), by decide⟩

/-! ## The salts a decoded message stores -/

/-- C7: `fillShortTxIDSelector(H, N)` succeeds; with `d` the digest of the 88-byte buffer
made of the 80 header bytes followed by `N` as 8 little-endian bytes, it returns `d[0..8]`
and `d[8..16]` read as little-endian 64-bit numbers. Every run of `BtcDecode` that returns
success leaves on the message the salts of the header and nonce it leaves there; these
are the header and the nonce of the stream: when the stream starts with the 80 bytes
`hdr` and the 8 bytes `nonce`, the stored header has the bytes `hdr`, the stored nonce is
the number `nonce` denotes, and the stored salts are the two words of the digest of
`hdr` followed by `nonce`, whatever the message held before. Such runs exist: the
stream made of the bytes of `H`, of `N` and of two zero counts is decoded with success
into any message. -/
theorem C7_fillShortTxIDSelector_digest (E : Env Tx) (R : Runtime Tx) (H : BlockHeader)
    (N : Nat) :
    H.bytes.length = 80 ∧ (leBytes 8 N).length = 8 ∧
    (H.bytes ++ leBytes 8 N).length = 88 ∧
    fillShortTxIDSelector E H N =
      .ok (leVal ((E.Sha256Bytes (H.bytes ++ leBytes 8 N)).val.take 8),
           leVal (((E.Sha256Bytes (H.bytes ++ leBytes 8 N)).val.drop 8).take 8)) ∧
    leVal ((E.Sha256Bytes (H.bytes ++ leBytes 8 N)).val.take 8) < 2 ^ 64 ∧
    leVal (((E.Sha256Bytes (H.bytes ++ leBytes 8 N)).val.drop 8).take 8) < 2 ^ 64 ∧
    (∀ (msg : MsgHeaderAndShortTxIDs Tx) (r : List Byte) (pver enc : Nat),
      (msg.BtcDecodeRun E R r pver enc).outcome = .ret none →
      fillShortTxIDSelector E (msg.BtcDecodeRun E R r pver enc).val.Header
          (msg.BtcDecodeRun E R r pver enc).val.Nonce =
        .ok ((msg.BtcDecodeRun E R r pver enc).val.shortTxidk0,
             (msg.BtcDecodeRun E R r pver enc).val.shortTxidk1)) ∧
    (∀ (msg : MsgHeaderAndShortTxIDs Tx) (hdr nonce tail : List Byte) (pver enc : Nat),
      hdr.length = 80 → nonce.length = 8 →
      (msg.BtcDecodeRun E R (hdr ++ (nonce ++ tail)) pver enc).outcome = .ret none →
      (msg.BtcDecodeRun E R (hdr ++ (nonce ++ tail)) pver enc).val.Header.bytes = hdr ∧
      (msg.BtcDecodeRun E R (hdr ++ (nonce ++ tail)) pver enc).val.Nonce = leVal nonce ∧
      (msg.BtcDecodeRun E R (hdr ++ (nonce ++ tail)) pver enc).val.shortTxidk0 =
        leVal ((E.Sha256Bytes (hdr ++ nonce)).val.take 8) ∧
      (msg.BtcDecodeRun E R (hdr ++ (nonce ++ tail)) pver enc).val.shortTxidk1 =
        leVal (((E.Sha256Bytes (hdr ++ nonce)).val.drop 8).take 8)) ∧
    (∀ (msg : MsgHeaderAndShortTxIDs Tx) (pver enc : Nat), E.ShortIdsBlocksVersion ≤ pver →
      (msg.BtcDecodeRun E R
          (H.bytes ++ (leBytes 8 N ++ (varIntBytes 0 ++ varIntBytes 0))) pver enc).outcome
        = .ret none ∧
      (msg.BtcDecodeRun E R
          (H.bytes ++ (leBytes 8 N ++ (varIntBytes 0 ++ varIntBytes 0))) pver enc).rest = [] ∧
      fillShortTxIDSelector E H N =
        .ok ((msg.BtcDecodeRun E R
                (H.bytes ++ (leBytes 8 N ++ (varIntBytes 0 ++ varIntBytes 0))) pver
                enc).val.shortTxidk0,
             (msg.BtcDecodeRun E R
                (H.bytes ++ (leBytes 8 N ++ (varIntBytes 0 ++ varIntBytes 0))) pver
                enc).val.shortTxidk1)) := by
  have hd := (E.Sha256Bytes (H.bytes ++ leBytes 8 N)).property
  refine ⟨headerBytes_length H, leBytes_length 8 N, ?_, fillShortTxIDSelector_eq E H N, ?_, ?_,
    ?_, ?_, ?_⟩
  · simp [headerBytes_length H, leBytes_length]
  · have := leVal_lt ((E.Sha256Bytes (H.bytes ++ leBytes 8 N)).val.take 8)
    simp only [List.length_take, hd] at this
    simpa using this
  · have := leVal_lt (((E.Sha256Bytes (H.bytes ++ leBytes 8 N)).val.drop 8).take 8)
    simp only [List.length_take, List.length_drop, hd] at this
    simpa using this
  · intro msg r pver enc h
    have hold := BtcDecodeRun_returns E R msg r pver enc none h
    have hsalts := BtcDecode_ok_salts E msg r pver enc (by rw [hold])
    rw [hold] at hsalts
    exact hsalts
  · intro msg hdr nonce tail pver enc hh hn h
    exact BtcDecodeRun_ok E R msg hdr nonce tail pver enc hh hn h
  · intro msg pver enc hp
    have hrun : (msg.BtcDecodeRun E R
        (H.bytes ++ (leBytes 8 N ++ (varIntBytes 0 ++ varIntBytes 0))) pver enc).outcome
          = .ret none ∧
        (msg.BtcDecodeRun E R
        (H.bytes ++ (leBytes 8 N ++ (varIntBytes 0 ++ varIntBytes 0))) pver enc).rest = [] := by
      obtain ⟨hd', ids, _, _, hdec⟩ := BtcDecodeRun_sections E R msg H.bytes (leBytes 8 N) []
        (varIntBytes 0) 0 pver enc (headerBytes_length H) (leBytes_length 8 N) rfl
        (by norm_num) hp (by simp [makePanics])
      have hmk : makePanics R.maxPrefilled 0 = false := by simp [makePanics]
      have hread : ReadVarInt (varIntBytes 0) = (some 0, []) := by decide
      rw [List.nil_append] at hdec
      rw [hdec, hread]
      simp only [hmk, decodePrefilledRun]
      exact ⟨rfl, rfl⟩
    refine ⟨hrun.1, hrun.2, ?_⟩
    obtain ⟨_, _, h0, h1⟩ := BtcDecodeRun_ok E R msg H.bytes (leBytes 8 N)
      (varIntBytes 0 ++ varIntBytes 0) pver enc (headerBytes_length H) (leBytes_length 8 N)
      hrun.1
    rw [h0, h1]
    exact fillShortTxIDSelector_eq E H N

/-- Instance of C7: the sample header with nonce 7, decoded into a message that holds
another header and the salts (5, 5): the run returns success and the message holds the
sample header, the nonce 7 and the salts (1, 0) of the sample digest. -/
theorem C7_fillShortTxIDSelector_digest_witness :
    (MsgHeaderAndShortTxIDs.BtcDecodeRun sampleEnv sampleRuntime
        ⟨5, 5, 0, [], [], BlockHeader.zero⟩
        (sampleHeader.bytes ++ (leBytes 8 7 ++ (varIntBytes 0 ++ varIntBytes 0)))
        70014 0) = ⟨⟨1, 0, 7, [], [], sampleHeader⟩, [], .ret none⟩ ∧
    fillShortTxIDSelector sampleEnv sampleHeader 7 = .ok (1, 0) ∧
    fillShortTxIDSelector sampleEnv sampleHeader 7 =
      .ok ((MsgHeaderAndShortTxIDs.BtcDecodeRun sampleEnv sampleRuntime
              ⟨5, 5, 0, [], [], BlockHeader.zero⟩
              (sampleHeader.bytes ++ (leBytes 8 7 ++ (varIntBytes 0 ++ varIntBytes 0)))
              70014 0).val.shortTxidk0,
           (MsgHeaderAndShortTxIDs.BtcDecodeRun sampleEnv sampleRuntime
              ⟨5, 5, 0, [], [], BlockHeader.zero⟩
              (sampleHeader.bytes ++ (leBytes 8 7 ++ (varIntBytes 0 ++ varIntBytes 0)))
              70014 0).val.shortTxidk1) :=
  ⟨by decide, by decide,
   ((C7_fillShortTxIDSelector_digest sampleEnv sampleRuntime sampleHeader 7).2.2.2.2.2.2.2.2
     ⟨5, 5, 0, [], [], BlockHeader.zero⟩ 70014 0 (by decide)).2.2⟩

end wire

namespace wire

variable {Tx : Type}

theorem headerDecode_err (bh : BlockHeader) (r : List Byte) (pver enc : Nat) :
    (bh.BtcDecode r pver enc).err = none ∨ (bh.BtcDecode r pver enc).err = some .io := by
  unfold BlockHeader.BtcDecode
  repeat' split
  all_goals first | (left; rfl) | (right; rfl)

/-- The errors `MsgHeaderAndShortTxIDs.BtcDecode` can return once the version guard is
passed. -/
theorem BtcDecode_err (E : Env Tx) (msg : MsgHeaderAndShortTxIDs Tx) (r : List Byte)
    (pver enc : Nat) (hp : E.ShortIdsBlocksVersion ≤ pver) :
    (msg.BtcDecode E r pver enc).err = none ∨
    (msg.BtcDecode E r pver enc).err = some .io ∨
    (msg.BtcDecode E r pver enc).err = some indexOverflow ∨
    ∃ t r1, (msg.BtcDecode E r pver enc).err = (E.TxBtcDecode t r1 pver enc).err := by
  unfold MsgHeaderAndShortTxIDs.BtcDecode
  rw [if_neg (by omega)]
  simp only [fillShortTxIDSelector_eq]
  split
  · rename_i err herr
    rcases headerDecode_err msg.Header r pver enc with h | h
    · rw [h] at herr; cases herr
    · rw [h] at herr; cases herr; right; left; rfl
  · split
    · right; left; rfl
    · split
      · right; left; rfl
      · split
        · right; left; rfl
        · split
          · right; left; rfl
          · split
            · rename_i pftLen r4 _ _ err herr
              rcases decodePrefilled_err E pver enc pftLen r4 with h | h | h | ⟨t, r1, h⟩
              · rw [h] at herr; cases herr
              · right; left; rw [← herr, h]
              · right; right; left; rw [← herr, h]
              · right; right; right; exact ⟨t, r1, by rw [← herr, h]⟩
            · left; rfl

theorem writeShortIDs_err (ids : List Nat) (w : List Byte) : (writeShortIDs ids w).2 = none := by
  induction ids generalizing w with
  | nil => rfl
  | cons x xs ih => simp [writeShortIDs, WriteElements, ih]

theorem encodePrefilled_err (E : Env Tx) (pver enc : Nat) (ps : List (PreFilledTransaction Tx))
    (w : List Byte) :
    (encodePrefilled E pver enc ps w).2 = none ∨
    ∃ t, (encodePrefilled E pver enc ps w).2 = (E.TxBtcEncode t pver enc).2 := by
  induction ps generalizing w with
  | nil => left; rfl
  | cons p ps ih =>
    unfold encodePrefilled
    split
    · rename_i w1 err h
      right
      refine ⟨p.Tx, ?_⟩
      simp only [PreFilledTransaction.BtcEncode, WriteVarInt] at h
      rw [← (Prod.mk.inj h).2]
    · exact ih _

/-- The errors `MsgHeaderAndShortTxIDs.BtcEncode` can return once the version guard is
passed. -/
theorem BtcEncode_err (E : Env Tx) (msg : MsgHeaderAndShortTxIDs Tx) (w : List Byte)
    (pver enc : Nat) (hp : E.ShortIdsBlocksVersion ≤ pver) :
    (msg.BtcEncode E w pver enc).2 = none ∨
    ∃ t, (msg.BtcEncode E w pver enc).2 = (E.TxBtcEncode t pver enc).2 := by
  unfold MsgHeaderAndShortTxIDs.BtcEncode
  rw [if_neg (by omega)]
  simp only [BlockHeader.BtcEncode, writeBlockHeader, WriteElements, WriteVarInt]
  split
  · rename_i w4 err h
    have := writeShortIDs_err msg.ShortTxids
      (w ++ msg.Header.bytes ++ leBytes 8 msg.Nonce ++ varIntBytes msg.ShortTxids.length)
    rw [h] at this
    cases this
  · exact encodePrefilled_err E pver enc _ _

theorem BtcDecode_below_version (E : Env Tx) (msg : MsgHeaderAndShortTxIDs Tx)
    (r : List Byte) (pver enc : Nat) (hp : pver < E.ShortIdsBlocksVersion) :
    msg.BtcDecode E r pver enc =
      ⟨msg, r, some (.messageError "MsgCmpctBlock.BtcDecode"
        ("cmpctblock message invalid for protocol version " ++ toString pver))⟩ := by
  unfold MsgHeaderAndShortTxIDs.BtcDecode
  rw [if_pos hp]; rfl

theorem BtcEncode_below_version (E : Env Tx) (msg : MsgHeaderAndShortTxIDs Tx)
    (w : List Byte) (pver enc : Nat) (hp : pver < E.ShortIdsBlocksVersion) :
    msg.BtcEncode E w pver enc =
      (w, some (.messageError "MsgCmpctBlock.BtcEncode"
        ("cmpctblock message invalid for protocol version " ++ toString pver))) := by
  unfold MsgHeaderAndShortTxIDs.BtcEncode
  rw [if_pos hp]; rfl

/-- C6: below `ShortIdsBlocksVersion`, `BtcDecode` returns the protocol-version message
error, consumes nothing and leaves the message as it was, and `BtcEncode` returns the
protocol-version message error and writes nothing; from `ShortIdsBlocksVersion` on
neither returns a protocol-version error (the transaction codec not producing one
itself). -/
theorem C6_version_guard (E : Env Tx) (msg : MsgHeaderAndShortTxIDs Tx) (r w : List Byte)
    (pver enc : Nat) :
    (pver < E.ShortIdsBlocksVersion →
      msg.BtcDecode E r pver enc =
        ⟨msg, r, some (.messageError "MsgCmpctBlock.BtcDecode"
          ("cmpctblock message invalid for protocol version " ++ toString pver))⟩ ∧
      msg.BtcEncode E w pver enc =
        (w, some (.messageError "MsgCmpctBlock.BtcEncode"
          ("cmpctblock message invalid for protocol version " ++ toString pver)))) ∧
    (E.ShortIdsBlocksVersion ≤ pver →
      (∀ t s p e f q, (E.TxBtcDecode t s p e).err ≠ some (versionError f q)) →
      (∀ t p e f q, (E.TxBtcEncode t p e).2 ≠ some (versionError f q)) →
      ∀ f q, (msg.BtcDecode E r pver enc).err ≠ some (versionError f q) ∧
        (msg.BtcEncode E w pver enc).2 ≠ some (versionError f q)) := by
  constructor
  · intro hp
    exact ⟨BtcDecode_below_version E msg r pver enc hp,
      BtcEncode_below_version E msg w pver enc hp⟩
  · intro hp hDec hEnc f q
    constructor
    · rcases BtcDecode_err E msg r pver enc hp with h | h | h | ⟨t, r1, h⟩
      · rw [h]; simp
      · rw [h]; simp [versionError]
      · rw [h]; intro hc; exact indexOverflow_ne_versionError f q (Option.some.inj hc)
      · rw [h]; exact hDec _ _ _ _ f q
    · rcases BtcEncode_err E msg w pver enc hp with h | ⟨t, h⟩
      · rw [h]; simp
      · rw [h]; exact hEnc _ _ _ f q

/-- Instance of C6 below the threshold: protocol version 70013 at the sample environment,
on a stream of three bytes and a writer holding one byte. -/
theorem C6_version_guard_witness :
    (70013 < sampleEnv.ShortIdsBlocksVersion ∧
      MsgHeaderAndShortTxIDs.BtcDecode sampleEnv (MsgHeaderAndShortTxIDs.empty Nat)
          [1, 2, 3] 70013 0 =
        ⟨MsgHeaderAndShortTxIDs.empty Nat, [1, 2, 3],
          some (.messageError "MsgCmpctBlock.BtcDecode"
            ("cmpctblock message invalid for protocol version " ++ toString 70013))⟩ ∧
      MsgHeaderAndShortTxIDs.BtcEncode sampleEnv (MsgHeaderAndShortTxIDs.empty Nat)
          [4] 70013 0 =
        ([4], some (.messageError "MsgCmpctBlock.BtcEncode"
          ("cmpctblock message invalid for protocol version " ++ toString 70013)))) ∧
    (sampleEnv.ShortIdsBlocksVersion ≤ 70014 ∧
      ∀ f q,
        (MsgHeaderAndShortTxIDs.BtcDecode sampleEnv (MsgHeaderAndShortTxIDs.empty Nat)
          [1, 2, 3] 70014 0).err ≠ some (versionError f q) ∧
        (MsgHeaderAndShortTxIDs.BtcEncode sampleEnv (MsgHeaderAndShortTxIDs.empty Nat)
          [4] 70014 0).2 ≠ some (versionError f q)) :=
  ⟨⟨by decide,
    (C6_version_guard sampleEnv (MsgHeaderAndShortTxIDs.empty Nat) [1, 2, 3] [4] 70013 0).1
      (by decide)⟩,
   ⟨by decide,
    (C6_version_guard sampleEnv (MsgHeaderAndShortTxIDs.empty Nat) [1, 2, 3] [4] 70014 0).2
      (by decide)
      (fun t s p e f q h => by
        rcases sampleEnv_TxBtcDecode_err t s p e with h' | h' <;> rw [h'] at h <;>
          simp [versionError] at h)
      (fun t p e f q h => by
        cases t <;> simp [sampleEnv, versionError] at h)⟩⟩

end wire

namespace wire

variable {Tx : Type}

/-! ## What `BtcEncode` writes -/

theorem shortID_lsb (x : Nat) : (x &&& 0xffffffff) % 2 ^ 32 = x % 2 ^ 32 := by
  have := Nat.and_pow_two_sub_one_eq_mod x 32
  norm_num at this
  rw [this]
  exact Nat.mod_mod _ _

theorem shortID_msb (x : Nat) : ((x >>> 32) &&& 0xffff) % 2 ^ 16 = x / 2 ^ 32 % 2 ^ 16 := by
  have := Nat.and_pow_two_sub_one_eq_mod (x >>> 32) 16
  norm_num at this
  rw [this, Nat.shiftRight_eq_div_pow]
  exact Nat.mod_mod _ _

theorem shortIDBytes_length (x : Nat) : (shortIDBytes x).length = 6 := by
  simp [shortIDBytes, leBytes_length]

theorem flatMap_shortIDBytes_length (ids : List Nat) :
    (ids.flatMap shortIDBytes).length = 6 * ids.length := by
  induction ids with
  | nil => rfl
  | cons x xs ih =>
    simp only [List.flatMap_cons, List.length_append, shortIDBytes_length, ih,
      List.length_cons]
    omega

theorem writeShortIDs_eq (ids : List Nat) (w : List Byte) :
    writeShortIDs ids w = (w ++ ids.flatMap shortIDBytes, none) := by
  induction ids generalizing w with
  | nil => simp [writeShortIDs]
  | cons x xs ih =>
    simp only [writeShortIDs, WriteElements, ih, shortID_lsb, shortID_msb, shortIDBytes,
      List.flatMap_cons, List.append_assoc]

theorem encodePrefilled_eq (E : Env Tx) (pver enc : Nat)
    (ps : List (PreFilledTransaction Tx)) (w : List Byte)
    (hps : ∀ p ∈ ps, (E.TxBtcEncode p.Tx pver enc).2 = none) :
    encodePrefilled E pver enc ps w = (w ++ ps.flatMap (entryBytes E pver enc), none) := by
  induction ps generalizing w with
  | nil => simp [encodePrefilled]
  | cons p ps ih =>
    have hp := hps p (List.mem_cons_self _ _)
    have e : p.BtcEncode E w pver enc = (w ++ entryBytes E pver enc p, none) := by
      simp [PreFilledTransaction.BtcEncode, WriteVarInt, entryBytes, hp]
    unfold encodePrefilled
    rw [e]
    simp only []
    rw [ih _ (fun q hq => hps q (List.mem_cons_of_mem _ hq))]
    simp

/-- With a transaction encoder that does not fail on the prefilled entries, `BtcEncode`
appends header, nonce, the count of short IDs, the short IDs and the prefilled entries:
no count of prefilled entries is written. -/
theorem BtcEncode_written (E : Env Tx) (msg : MsgHeaderAndShortTxIDs Tx) (w : List Byte)
    (pver enc : Nat) (hp : E.ShortIdsBlocksVersion ≤ pver)
    (hps : ∀ p ∈ msg.PreFilledTxn, (E.TxBtcEncode p.Tx pver enc).2 = none) :
    msg.BtcEncode E w pver enc = (w ++ writtenLayout E pver enc msg, none) := by
  unfold MsgHeaderAndShortTxIDs.BtcEncode
  rw [if_neg (by omega)]
  simp only [BlockHeader.BtcEncode, writeBlockHeader, WriteElements, WriteVarInt,
    writeShortIDs_eq, encodePrefilled_eq E pver enc _ _ hps, writtenLayout, List.append_assoc]

theorem specLayout_length (E : Env Tx) (pver enc : Nat) (m : MsgHeaderAndShortTxIDs Tx) :
    (specLayout E pver enc m).length =
      (writtenLayout E pver enc m).length + (varIntBytes m.PreFilledTxn.length).length := by
  simp only [specLayout, writtenLayout, List.length_append]
  omega

end wire

namespace wire

variable {Tx : Type}

/-- Method `BtcDecode` never assigns the receiver's `PreFilledTxn`: the entries it decodes stay
in a local slice. -/
theorem BtcDecode_PreFilledTxn (E : Env Tx) (msg : MsgHeaderAndShortTxIDs Tx)
    (r : List Byte) (pver enc : Nat) :
    (msg.BtcDecode E r pver enc).val.PreFilledTxn = msg.PreFilledTxn := by
  unfold MsgHeaderAndShortTxIDs.BtcDecode
  split
  · rfl
  · simp only []
    repeat' split
    all_goals rfl

/-- C2: what `BtcEncode` writes for a message whose prefilled transactions encode without
error is header, nonce, count of short IDs, six bytes per short ID, and then the
prefilled entries directly: the count of prefilled entries of the specified layout is
missing, so the written bytes are shorter than, and differ from, the specified ones. -/
theorem C2_BtcEncode_written_layout (E : Env Tx) (msg : MsgHeaderAndShortTxIDs Tx)
    (pver enc : Nat) (hp : E.ShortIdsBlocksVersion ≤ pver)
    (hps : ∀ p ∈ msg.PreFilledTxn, (E.TxBtcEncode p.Tx pver enc).2 = none) :
    msg.BtcEncode E [] pver enc =
      (msg.Header.bytes ++ leBytes 8 msg.Nonce ++ varIntBytes msg.ShortTxids.length ++
        msg.ShortTxids.flatMap shortIDBytes ++
        msg.PreFilledTxn.flatMap (entryBytes E pver enc), none) ∧
    (msg.BtcEncode E [] pver enc).1.length < (specLayout E pver enc msg).length ∧
    (msg.BtcEncode E [] pver enc).1 ≠ specLayout E pver enc msg := by
  have h := BtcEncode_written E msg [] pver enc hp hps
  have hl := specLayout_length E pver enc msg
  have hpos := varIntBytes_length_pos msg.PreFilledTxn.length
  have hlt : (msg.BtcEncode E [] pver enc).1.length < (specLayout E pver enc msg).length := by
    rw [h, hl]
    simp only [List.nil_append]
    omega
  refine ⟨?_, hlt, ?_⟩
  · rw [h]; simp [writtenLayout]
  · intro hc
    rw [hc] at hlt
    exact Nat.lt_irrefl _ hlt

/-- Instance of C2: the message built from a block of three one-byte transactions. -/
theorem C2_BtcEncode_written_layout_witness :
    MsgHeaderAndShortTxIDs.BtcEncode sampleEnv ⟨1, 0, 7, [11, 12], [⟨some 10, 0⟩], sampleHeader⟩
        [] 70014 0 =
      (sampleHeader.bytes ++ leBytes 8 7 ++ varIntBytes 2 ++
        [11, 12].flatMap shortIDBytes ++
        [(⟨some 10, 0⟩ : PreFilledTransaction Nat)].flatMap (entryBytes sampleEnv 70014 0),
        none) ∧
    (MsgHeaderAndShortTxIDs.BtcEncode sampleEnv
        ⟨1, 0, 7, [11, 12], [⟨some 10, 0⟩], sampleHeader⟩ [] 70014 0).1.length <
      (specLayout sampleEnv 70014 0 ⟨1, 0, 7, [11, 12], [⟨some 10, 0⟩], sampleHeader⟩).length ∧
    (MsgHeaderAndShortTxIDs.BtcEncode sampleEnv
        ⟨1, 0, 7, [11, 12], [⟨some 10, 0⟩], sampleHeader⟩ [] 70014 0).1 ≠
      specLayout sampleEnv 70014 0 ⟨1, 0, 7, [11, 12], [⟨some 10, 0⟩], sampleHeader⟩ :=
  C2_BtcEncode_written_layout sampleEnv ⟨1, 0, 7, [11, 12], [⟨some 10, 0⟩], sampleHeader⟩
    70014 0 (by decide) (by decide)

/-- C1: encoding a message and decoding the bytes into an empty message never gives the
message back. With no prefilled entry the decoder runs out of input where it expects the
count of prefilled entries; with prefilled entries the decoded message holds none. -/
theorem C1_roundtrip_fails (E : Env Tx) (M : MsgHeaderAndShortTxIDs Tx) (pver enc : Nat)
    (hp : E.ShortIdsBlocksVersion ≤ pver) (hlen : M.ShortTxids.length < 2 ^ 64) :
    (M.PreFilledTxn = [] →
      (M.BtcEncode E [] pver enc).2 = none ∧
      ((MsgHeaderAndShortTxIDs.empty Tx).BtcDecode E
        (M.BtcEncode E [] pver enc).1 pver enc).err = some .io) ∧
    (M.PreFilledTxn ≠ [] →
      ((MsgHeaderAndShortTxIDs.empty Tx).BtcDecode E
        (M.BtcEncode E [] pver enc).1 pver enc).val.PreFilledTxn ≠ M.PreFilledTxn) ∧
    ¬ (((MsgHeaderAndShortTxIDs.empty Tx).BtcDecode E
          (M.BtcEncode E [] pver enc).1 pver enc).err = none ∧
       ((MsgHeaderAndShortTxIDs.empty Tx).BtcDecode E
          (M.BtcEncode E [] pver enc).1 pver enc).val = M) := by
  have h1 : M.PreFilledTxn = [] →
      (M.BtcEncode E [] pver enc).2 = none ∧
      ((MsgHeaderAndShortTxIDs.empty Tx).BtcDecode E
        (M.BtcEncode E [] pver enc).1 pver enc).err = some .io := by
    intro hpre
    have h := BtcEncode_written E M [] pver enc hp (by simp [hpre])
    rw [h]
    refine ⟨rfl, ?_⟩
    obtain ⟨hd, ids, _, _, hdec⟩ := BtcDecode_sections E (MsgHeaderAndShortTxIDs.empty Tx)
      M.Header.bytes (leBytes 8 M.Nonce) (M.ShortTxids.flatMap shortIDBytes) []
      M.ShortTxids.length pver enc (headerBytes_length M.Header) (leBytes_length 8 _)
      (flatMap_shortIDBytes_length _) hlen hp
    simp only [writtenLayout, hpre, List.flatMap_nil, List.nil_append, List.append_assoc]
    rw [hdec]
    rfl
  have h2 : M.PreFilledTxn ≠ [] →
      ((MsgHeaderAndShortTxIDs.empty Tx).BtcDecode E
        (M.BtcEncode E [] pver enc).1 pver enc).val.PreFilledTxn ≠ M.PreFilledTxn := by
    intro hpre
    rw [BtcDecode_PreFilledTxn]
    exact fun hc => hpre hc.symm
  refine ⟨h1, h2, ?_⟩
  rintro ⟨herr, hval⟩
  by_cases hpre : M.PreFilledTxn = []
  · rw [(h1 hpre).2] at herr
    cases herr
  · exact h2 hpre (by rw [hval])

/-- Instance of C1: a message with two short IDs and no prefilled entry, and one with the
prefilled entry (0, transaction 10). -/
theorem C1_roundtrip_fails_witness :
    (((MsgHeaderAndShortTxIDs.empty Nat).BtcDecode sampleEnv
        (MsgHeaderAndShortTxIDs.BtcEncode sampleEnv ⟨1, 0, 7, [11, 12], [], sampleHeader⟩
          [] 70014 0).1 70014 0).err = some .io) ∧
    ¬ (((MsgHeaderAndShortTxIDs.empty Nat).BtcDecode sampleEnv
          (MsgHeaderAndShortTxIDs.BtcEncode sampleEnv
            ⟨1, 0, 7, [11, 12], [⟨some 10, 0⟩], sampleHeader⟩ [] 70014 0).1 70014 0).err
          = none ∧
       ((MsgHeaderAndShortTxIDs.empty Nat).BtcDecode sampleEnv
          (MsgHeaderAndShortTxIDs.BtcEncode sampleEnv
            ⟨1, 0, 7, [11, 12], [⟨some 10, 0⟩], sampleHeader⟩ [] 70014 0).1 70014 0).val
          = ⟨1, 0, 7, [11, 12], [⟨some 10, 0⟩], sampleHeader⟩) :=
  ⟨((C1_roundtrip_fails sampleEnv ⟨1, 0, 7, [11, 12], [], sampleHeader⟩ 70014 0
      (by decide) (by decide)).1 rfl).2,
   (C1_roundtrip_fails sampleEnv ⟨1, 0, 7, [11, 12], [⟨some 10, 0⟩], sampleHeader⟩ 70014 0
      (by decide) (by decide)).2.2⟩

/-- C3: `BtcDecode` into an empty message leaves `PreFilledTxn` empty whatever the stream
holds. For the stream made of the sample header, nonce 7, the short ID
`0x060504030201` and one prefilled entry (index 0, transaction 10) it returns success
with that header, nonce and short ID, consumes the whole stream, and holds no prefilled
entry. -/
theorem C3_prefilled_entries_dropped :
    (∀ (T : Type) (E : Env T) (r : List Byte) (pver enc : Nat),
      ((MsgHeaderAndShortTxIDs.empty T).BtcDecode E r pver enc).val.PreFilledTxn = []) ∧
    (MsgHeaderAndShortTxIDs.empty Nat).BtcDecode sampleEnv
        (sampleHeader.bytes ++ leBytes 8 7 ++ varIntBytes 1 ++ [1, 2, 3, 4, 5, 6] ++
          varIntBytes 1 ++ (varIntBytes 0 ++ [10])) 70014 0 =
      ⟨⟨1, 0, 7, [0x060504030201], [], sampleHeader⟩, [], none⟩ := by
  refine ⟨fun T E r pver enc => BtcDecode_PreFilledTxn E _ r pver enc, ?_⟩
  decide

end wire

namespace wire

variable {Tx : Type}

/-! ## The salts as an invariant -/

theorem NewMsgHeaderAndShortTxIDs_salts (E : Env Tx) (block : MsgBlock Tx) (nonce : Nat)
    (m : MsgHeaderAndShortTxIDs Tx)
    (h : NewMsgHeaderAndShortTxIDs E block nonce = .ret (some m)) : saltsConsistent E m := by
  by_cases hn : 1 ≤ block.Transactions.length
  · obtain ⟨m1, k0, k1, hrun, hfill, h0, h1, hh, hnonce, _⟩ :=
      NewMsgHeaderAndShortTxIDs_ret E block nonce hn
    rw [hrun] at h
    injection h with h
    injection h with h
    subst h
    simp [saltsConsistent, hh, hnonce, hfill, h0, h1]
  · have hpanic : NewMsgHeaderAndShortTxIDs E block nonce = .panic := by
      unfold NewMsgHeaderAndShortTxIDs
      rw [if_pos (by omega)]
    rw [hpanic] at h
    cases h

/-- C8, counterexample: the message built from the one-transaction sample block with
nonce 7 has consistent salts; decoding into it a stream that ends after the nonce (a
header of version 2, nonce 9) returns an error and leaves the new header and nonce next
to the salts of the old ones. -/
theorem C8_salts_stale_after_error :
    NewMsgHeaderAndShortTxIDs sampleEnv ⟨sampleHeader, [10]⟩ 7 =
      .ret (some ⟨1, 0, 7, [], [⟨some 10, 0⟩], sampleHeader⟩) ∧
    saltsConsistent sampleEnv ⟨1, 0, 7, [], [⟨some 10, 0⟩], sampleHeader⟩ ∧
    (MsgHeaderAndShortTxIDs.BtcDecode sampleEnv ⟨1, 0, 7, [], [⟨some 10, 0⟩], sampleHeader⟩
        ((⟨2, Hash.zero, Hash.zero, 2, 3, 4⟩ : BlockHeader).bytes ++ leBytes 8 9)
        70014 0).err = some .io ∧
    ¬ saltsConsistent sampleEnv
      (MsgHeaderAndShortTxIDs.BtcDecode sampleEnv ⟨1, 0, 7, [], [⟨some 10, 0⟩], sampleHeader⟩
        ((⟨2, Hash.zero, Hash.zero, 2, 3, 4⟩ : BlockHeader).bytes ++ leBytes 8 9)
        70014 0).val := by
  decide

/-- C8, amended: the salts are those of header and nonce on every message returned by
`NewMsgHeaderAndShortTxIDs` and after every `BtcDecode` that returns success, whatever
they were before; a `BtcDecode` refused by the version guard leaves the message, hence
the invariant, as it was. -/
theorem C8_salts_after_success (E : Env Tx) (block : MsgBlock Tx) (nonce : Nat)
    (m msg : MsgHeaderAndShortTxIDs Tx) (r : List Byte) (pver enc : Nat) :
    (NewMsgHeaderAndShortTxIDs E block nonce = .ret (some m) → saltsConsistent E m) ∧
    ((msg.BtcDecode E r pver enc).err = none →
      saltsConsistent E (msg.BtcDecode E r pver enc).val) ∧
    (pver < E.ShortIdsBlocksVersion → saltsConsistent E msg →
      saltsConsistent E (msg.BtcDecode E r pver enc).val) := by
  refine ⟨NewMsgHeaderAndShortTxIDs_salts E block nonce m, ?_, ?_⟩
  · intro h
    exact BtcDecode_ok_salts E msg r pver enc h
  · intro hp hmsg
    rw [BtcDecode_below_version E msg r pver enc hp]
    exact hmsg

/-- Instance of C8 (amended): the one-transaction sample block with nonce 7; a message
with salts (5, 5) decoding a complete stream; and the message of the sample block
decoding under protocol version 70013. -/
theorem C8_salts_after_success_witness :
    saltsConsistent sampleEnv ⟨1, 0, 7, [], [⟨some 10, 0⟩], sampleHeader⟩ ∧
    saltsConsistent sampleEnv
      (MsgHeaderAndShortTxIDs.BtcDecode sampleEnv ⟨5, 5, 0, [], [], BlockHeader.zero⟩
        (sampleHeader.bytes ++ leBytes 8 7 ++ [0, 0]) 70014 0).val ∧
    saltsConsistent sampleEnv
      (MsgHeaderAndShortTxIDs.BtcDecode sampleEnv
        ⟨1, 0, 7, [], [⟨some 10, 0⟩], sampleHeader⟩ [1, 2, 3] 70013 0).val :=
  ⟨(C8_salts_after_success sampleEnv ⟨sampleHeader, [10]⟩ 7
      ⟨1, 0, 7, [], [⟨some 10, 0⟩], sampleHeader⟩ ⟨5, 5, 0, [], [], BlockHeader.zero⟩
      (sampleHeader.bytes ++ leBytes 8 7 ++ [0, 0]) 70014 0).1 (by decide),
   (C8_salts_after_success sampleEnv ⟨sampleHeader, [10]⟩ 7
      ⟨1, 0, 7, [], [⟨some 10, 0⟩], sampleHeader⟩ ⟨5, 5, 0, [], [], BlockHeader.zero⟩
      (sampleHeader.bytes ++ leBytes 8 7 ++ [0, 0]) 70014 0).2.1 (by decide),
   (C8_salts_after_success sampleEnv ⟨sampleHeader, [10]⟩ 7
      ⟨1, 0, 7, [], [⟨some 10, 0⟩], sampleHeader⟩
      ⟨1, 0, 7, [], [⟨some 10, 0⟩], sampleHeader⟩ [1, 2, 3] 70013 0).2.2
      (by decide) (by decide)⟩

end wire

/-! # Properties of the transaction-level UTXO operations -/

namespace ltx

/-! ## The view as a function -/

theorem CoinsMap.set_same (m : CoinsMap) (op : OutPoint) (e : Entry) : (m.set op e) op = e := by
  simp [CoinsMap.set]

theorem CoinsMap.set_other (m : CoinsMap) (op q : OutPoint) (e : Entry) (h : q ≠ op) :
    (m.set op e) q = m q := by
  simp [CoinsMap.set, h]

theorem CoinsMap.set_set (m : CoinsMap) (op : OutPoint) (e e' : Entry) :
    (m.set op e).set op e' = m.set op e' := by
  funext q
  by_cases h : q = op <;> simp [CoinsMap.set, h]

theorem CoinsMap.set_eq_self (m : CoinsMap) (op : OutPoint) (e : Entry) (h : m op = e) :
    m.set op e = m := by
  funext q
  by_cases hq : q = op
  · subst hq; simp [CoinsMap.set, h]
  · simp [CoinsMap.set, hq]

theorem CoinsMap.set_comm (m : CoinsMap) (a b : OutPoint) (e e' : Entry) (h : a ≠ b) :
    (m.set a e).set b e' = (m.set b e').set a e := by
  funext q
  by_cases h1 : q = a
  · subst h1
    simp [CoinsMap.set, h]
  · by_cases h2 : q = b
    · subst h2
      simp [CoinsMap.set, h1]
    · simp [CoinsMap.set, h1, h2]

theorem CoinsMap.set_comm_same (m : CoinsMap) (a b : OutPoint) (e : Entry) :
    (m.set a e).set b e = (m.set b e).set a e := by
  funext q
  by_cases h1 : q = a <;> by_cases h2 : q = b <;> simp [CoinsMap.set, h1, h2]

/-! ## Adding and removing the outputs of a transaction -/

theorem removeOutputs_set_absent (txid : wire.Hash) (outs : List TxOut) (idx : Nat)
    (m : CoinsMap) (op : OutPoint) :
    removeOutputs txid outs idx (m.set op .absent) =
      (removeOutputs txid outs idx m).set op .absent := by
  induction outs generalizing idx m with
  | nil => rfl
  | cons o outs ih =>
    simp only [removeOutputs]
    rw [CoinsMap.set_comm_same, ih]

/-- Outputs that are absent when they are added: `addLoop` adds them all, and removing
them afterwards gives the view back. -/
theorem addLoop_removeOutputs (txid : wire.Hash) (height : Int) (cb : Bool)
    (outs : List TxOut) (idx : Nat) (m : CoinsMap)
    (h : outputsAbsent txid height cb outs idx m = true) :
    ∃ m', addLoop txid height cb outs idx m = some m' ∧
      removeOutputs txid outs idx m' = m := by
  induction outs generalizing idx m with
  | nil => exact ⟨m, rfl, rfl⟩
  | cons o outs ih =>
    simp only [outputsAbsent, Bool.and_eq_true, decide_eq_true_eq] at h
    obtain ⟨habs, hrest⟩ := h
    obtain ⟨m', hadd, hrem⟩ := ih (idx + 1) _ hrest
    refine ⟨m', ?_, ?_⟩
    · simp only [addLoop, CoinsMap.AddCoin, NewFreshCoin, habs]
      exact hadd
    · simp only [removeOutputs]
      rw [removeOutputs_set_absent, hrem, CoinsMap.set_set]
      exact CoinsMap.set_eq_self m _ _ habs

/-! ## Spending and restoring the inputs of a transaction -/

theorem restoreInputs_set (ins : List TxIn) (cs : List Coin) (m : CoinsMap) (p : OutPoint)
    (e : Entry) (hp : ∀ txin ∈ ins, txin.PreviousOutPoint ≠ p) :
    restoreInputs ins cs (m.set p e) = (restoreInputs ins cs m).set p e := by
  induction ins generalizing cs m with
  | nil => cases cs <;> rfl
  | cons i ins ih =>
    cases cs with
    | nil => rfl
    | cons c cs =>
      have hi : i.PreviousOutPoint ≠ p := hp i (List.mem_cons_self _ _)
      have hrest : ∀ txin ∈ ins, txin.PreviousOutPoint ≠ p :=
        fun t ht => hp t (List.mem_cons_of_mem _ ht)
      simp only [restoreInputs]
      split
      · exact ih cs m hrest
      · split
        · exact ih cs m hrest
        · rw [CoinsMap.set_comm m p i.PreviousOutPoint e _ (Ne.symm hi)]
          exact ih cs _ hrest

/-- The coin `AccessCoin` gives is the empty one exactly when the entry is not
Unspent. -/
theorem IsSpent_AccessCoin (m : CoinsMap) (p : OutPoint) :
    (m.AccessCoin p).IsSpent = !(m p).isUnspent := by
  unfold CoinsMap.AccessCoin
  cases m p <;> rfl

/-- On an Unspent entry `AccessCoin` gives the coin of the entry. -/
theorem AccessCoin_of_isUnspent (m : CoinsMap) (p : OutPoint)
    (h : (m p).isUnspent = true) :
    ∃ out height cb fresh, m p = .unspent out height cb fresh ∧
      m.AccessCoin p = ⟨some out, height, cb, fresh⟩ := by
  unfold CoinsMap.AccessCoin
  cases hm : m p with
  | unspent out height cb fresh => exact ⟨out, height, cb, fresh, rfl, rfl⟩
  | spent => rw [hm] at h; cases h
  | absent => rw [hm] at h; cases h

/-- An outpoint that holds a tombstone is not among inputs that are unspent when they
are spent. -/
theorem not_mem_of_inputsUnspent (ins : List TxIn) (m : CoinsMap) (p : OutPoint)
    (h : inputsUnspent ins m = true) (hp : m p = .spent) :
    ∀ txin ∈ ins, txin.PreviousOutPoint ≠ p := by
  induction ins generalizing m with
  | nil => intro t ht; cases ht
  | cons i ins ih =>
    simp only [inputsUnspent, Bool.and_eq_true] at h
    obtain ⟨h1, h2⟩ := h
    have hne : i.PreviousOutPoint ≠ p := by
      intro hc
      rw [hc, hp] at h1
      cases h1
    intro t ht
    rcases List.mem_cons.mp ht with rfl | ht
    · exact hne
    · refine ih (m.SpendCoin i.PreviousOutPoint) h2 ?_ t ht
      simp only [CoinsMap.SpendCoin]
      rw [CoinsMap.set_other _ _ _ _ (Ne.symm hne)]
      exact hp

/-- Inputs that are unspent when they are spent: re-inserting the undo coins into the
view after the spends gives the view back. -/
theorem spendLoop_restoreInputs (ins : List TxIn) (m : CoinsMap)
    (h : inputsUnspent ins m = true) :
    restoreInputs ins (spendLoop ins m).2 (spendLoop ins m).1 = m := by
  induction ins generalizing m with
  | nil => rfl
  | cons i ins ih =>
    simp only [inputsUnspent, Bool.and_eq_true] at h
    obtain ⟨h1, h2⟩ := h
    obtain ⟨out, height, cb, fresh, hm, hacc⟩ := AccessCoin_of_isUnspent m i.PreviousOutPoint h1
    have hnot := not_mem_of_inputsUnspent ins (m.SpendCoin i.PreviousOutPoint)
      i.PreviousOutPoint h2 (by simp [CoinsMap.SpendCoin, CoinsMap.set_same])
    simp only [spendLoop, restoreInputs, hacc, Coin.DeepCopy, Coin.IsSpent, Option.isNone_some]
    rw [if_neg (by simp), restoreInputs_set _ _ _ _ _ hnot, ih _ h2]
    simp only [CoinsMap.SpendCoin]
    rw [CoinsMap.set_set]
    exact CoinsMap.set_eq_self m _ _ hm

end ltx

namespace ltx

/-! ## Connecting and disconnecting a block -/

theorem TxSpendCoins_map (tx : Tx) (m : CoinsMap) (u : Option TxUndo) :
    (TxSpendCoins tx m u).1 = if tx.IsCoinBase then m else (spendLoop tx.GetIns m).1 := by
  unfold TxSpendCoins
  cases tx.IsCoinBase <;> cases u <;> rfl

theorem TxSpendCoins_undo (tx : Tx) (m : CoinsMap) (u : TxUndo) :
    (TxSpendCoins tx m (some u)).2 =
      some (if tx.IsCoinBase then u else ⟨(spendLoop tx.GetIns m).2⟩) := by
  unfold TxSpendCoins
  cases tx.IsCoinBase <;> rfl

/-- One transaction: spending then adding succeeds, and undoing it from the undo record
gives the view back. -/
theorem disconnectTx_connect (tx : Tx) (m : CoinsMap) (height : Int)
    (hin : (tx.IsCoinBase || inputsUnspent tx.GetIns m) = true)
    (hout : outputsAbsent tx.GetHash height tx.IsCoinBase tx.GetOuts 0
      (TxSpendCoins tx m none).1 = true) :
    ∃ u m2, TxSpendCoins tx m (some ⟨[]⟩) = ((TxSpendCoins tx m none).1, some u) ∧
      TxAddCoins tx (TxSpendCoins tx m none).1 height = some m2 ∧
      disconnectTx tx u m2 = m := by
  obtain ⟨m2, hadd, hrem⟩ := addLoop_removeOutputs _ _ _ _ _ _ hout
  refine ⟨if tx.IsCoinBase then ⟨[]⟩ else ⟨(spendLoop tx.GetIns m).2⟩, m2, ?_, hadd, ?_⟩
  · apply Prod.ext
    · simp only [TxSpendCoins_map]
    · simp only [TxSpendCoins_undo]
  · unfold disconnectTx
    rw [hrem, TxSpendCoins_map]
    cases hcb : tx.IsCoinBase with
    | true =>
      simp only [if_true]
      cases tx.GetIns <;> rfl
    | false =>
      rw [hcb] at hin
      simp only [Bool.false_or] at hin
      simp only [Bool.false_eq_true, if_false]
      exact spendLoop_restoreInputs tx.GetIns m hin

/-- C10: for a block and a view in which, transaction by transaction, the entry of every
input outpoint of a non-coinbase transaction is Unspent when it is spent (whatever coin
it holds, a coin of amount zero with an empty script included) and the entry of every
output outpoint is Absent when it is added, applying `TxSpendCoins` then `TxAddCoins` in
block order succeeds and yields one undo record per transaction, and disconnecting in
reverse transaction order (remove the outputs, re-insert the undo coins at the inputs)
gives back exactly the view before the application. -/
theorem C10_connect_disconnect_identity (height : Int) (txs : List Tx) (m : CoinsMap)
    (h : connectable height txs m = true) :
    ∃ m' undos, connectBlock height txs m = some (m', undos) ∧
      undos.length = txs.length ∧ disconnectBlock txs undos m' = m := by
  induction txs generalizing m with
  | nil => exact ⟨m, [], rfl, rfl, rfl⟩
  | cons tx txs ih =>
    simp only [connectable, Bool.and_eq_true] at h
    obtain ⟨⟨hin, hout⟩, hrest⟩ := h
    obtain ⟨u, m2, hspend, hadd, hdis⟩ := disconnectTx_connect tx m height hin hout
    rw [hadd] at hrest
    obtain ⟨m3, us, hconn, hlen, hdis'⟩ := ih m2 hrest
    refine ⟨m3, u :: us, ?_, by simp [hlen], ?_⟩
    · simp only [connectBlock, hspend, hadd, hconn]
    · simp only [disconnectBlock, hdis', hdis]

/-- Instance of C10: on the empty view, the block made of the sample coinbase and of the
transaction that spends its output; and on the view that holds a coin of amount zero
with an empty script, the block that spends this coin into another such coin and then
spends that one. -/
theorem C10_connect_disconnect_identity_witness :
    (connectable 10 [sampleCoinbase, sampleSpend] CoinsMap.empty = true ∧
      ∃ m' undos, connectBlock 10 [sampleCoinbase, sampleSpend] CoinsMap.empty
          = some (m', undos) ∧
        undos.length = [sampleCoinbase, sampleSpend].length ∧
        disconnectBlock [sampleCoinbase, sampleSpend] undos m' = CoinsMap.empty) ∧
    (connectable 6 [sampleZeroSpend, sampleZeroSpendAgain] sampleZeroView = true ∧
      (sampleZeroView.AccessCoin ⟨⟨List.replicate 32 3, by simp⟩, 0⟩).txOut
        = some ⟨0, []⟩ ∧
      ∃ m' undos, connectBlock 6 [sampleZeroSpend, sampleZeroSpendAgain] sampleZeroView
          = some (m', undos) ∧
        undos.length = [sampleZeroSpend, sampleZeroSpendAgain].length ∧
        disconnectBlock [sampleZeroSpend, sampleZeroSpendAgain] undos m'
          = sampleZeroView) :=
  ⟨⟨by decide,
    C10_connect_disconnect_identity 10 [sampleCoinbase, sampleSpend] CoinsMap.empty
      (by decide)⟩,
   ⟨by decide, by decide,
    C10_connect_disconnect_identity 6 [sampleZeroSpend, sampleZeroSpendAgain]
      sampleZeroView (by decide)⟩⟩

end ltx

namespace ltx

/-! ## What `TxSpendCoins` does -/

/-- The view after the spend loop: a tombstone at every input outpoint, the other
entries as before. -/
theorem spendLoop_map (ins : List TxIn) (m : CoinsMap) (q : OutPoint) :
    (spendLoop ins m).1 q =
      if q ∈ ins.map (fun t => t.PreviousOutPoint) then Entry.spent else m q := by
  induction ins generalizing m with
  | nil => simp [spendLoop]
  | cons i ins ih =>
    simp only [spendLoop, List.map_cons, List.mem_cons]
    rw [ih]
    by_cases h1 : q ∈ ins.map (fun t => t.PreviousOutPoint)
    · simp [h1]
    · by_cases h2 : q = i.PreviousOutPoint
      · simp [h1, h2, CoinsMap.SpendCoin, CoinsMap.set_same]
      · simp [h1, h2, CoinsMap.SpendCoin, CoinsMap.set_other _ _ _ _ h2]

theorem AccessCoin_set_other (m : CoinsMap) (op q : OutPoint) (e : Entry) (h : q ≠ op) :
    (m.set op e).AccessCoin q = m.AccessCoin q := by
  simp [CoinsMap.AccessCoin, CoinsMap.set_other _ _ _ _ h]

/-- With pairwise distinct input outpoints the undo coins are the coins `AccessCoin`
gives on the view before the loop, in input order. -/
theorem spendLoop_undo (ins : List TxIn) (m : CoinsMap)
    (hnd : (ins.map (fun t => t.PreviousOutPoint)).Nodup) :
    (spendLoop ins m).2 = ins.map (fun t => (m.AccessCoin t.PreviousOutPoint).DeepCopy) := by
  induction ins generalizing m with
  | nil => rfl
  | cons i ins ih =>
    simp only [List.map_cons, List.nodup_cons] at hnd
    obtain ⟨hi, hnd⟩ := hnd
    simp only [spendLoop, List.map_cons, ih _ hnd]
    congr 1
    apply List.map_congr_left
    intro t ht
    have hne : t.PreviousOutPoint ≠ i.PreviousOutPoint := by
      intro hc
      exact hi (List.mem_map.mpr ⟨t, ht, hc⟩)
    simp only [CoinsMap.SpendCoin]
    rw [AccessCoin_set_other _ _ _ _ hne]

/-- C11: on a coinbase transaction `TxSpendCoins` returns the view and the undo record as
they were. On another transaction whose input outpoints are pairwise distinct, an undo
record that is passed holds afterwards one coin per input, the `i`-th being a copy of
the coin `AccessCoin` gave for input `i` before the call; every input outpoint holds a
tombstone; every other entry is unchanged; and with a nil undo record the view is the
same. -/
theorem C11_TxSpendCoins_effect (tx : Tx) (m : CoinsMap) (undo : Option TxUndo) :
    (tx.IsCoinBase = true → TxSpendCoins tx m undo = (m, undo)) ∧
    (tx.IsCoinBase = false → (tx.GetIns.map (fun t => t.PreviousOutPoint)).Nodup →
      (∀ u : TxUndo, ∃ u' : TxUndo, (TxSpendCoins tx m (some u)).2 = some u' ∧
        u'.undoCoins.length = tx.GetIns.length ∧
        ∀ (i : Nat) (hi : i < tx.GetIns.length),
          u'.undoCoins[i]? = some (m.AccessCoin (tx.GetIns.get ⟨i, hi⟩).PreviousOutPoint).DeepCopy ∧
          (m.AccessCoin (tx.GetIns.get ⟨i, hi⟩).PreviousOutPoint).DeepCopy =
            m.AccessCoin (tx.GetIns.get ⟨i, hi⟩).PreviousOutPoint) ∧
      (∀ txin ∈ tx.GetIns,
        (TxSpendCoins tx m undo).1 txin.PreviousOutPoint = .spent ∧
        ((TxSpendCoins tx m undo).1.AccessCoin txin.PreviousOutPoint).IsSpent = true) ∧
      (∀ q : OutPoint, (∀ txin ∈ tx.GetIns, txin.PreviousOutPoint ≠ q) →
        (TxSpendCoins tx m undo).1 q = m q) ∧
      (TxSpendCoins tx m none).1 = (TxSpendCoins tx m undo).1 ∧
      (TxSpendCoins tx m none).2 = none) := by
  constructor
  · intro hcb
    simp [TxSpendCoins, hcb]
  · intro hcb hnd
    have hmap : ∀ v : Option TxUndo, (TxSpendCoins tx m v).1 = (spendLoop tx.GetIns m).1 := by
      intro v
      rw [TxSpendCoins_map, hcb]
      rfl
    refine ⟨?_, ?_, ?_, ?_, ?_⟩
    · intro u
      refine ⟨⟨(spendLoop tx.GetIns m).2⟩, ?_, ?_, ?_⟩
      · rw [TxSpendCoins_undo, hcb]; rfl
      · simp [spendLoop_undo _ _ hnd]
      · intro i hi
        refine ⟨?_, rfl⟩
        simp only [spendLoop_undo _ _ hnd, List.getElem?_map]
        rw [List.getElem?_eq_getElem hi]
        rfl
    · intro txin htx
      have hs : (TxSpendCoins tx m undo).1 txin.PreviousOutPoint = .spent := by
        rw [hmap, spendLoop_map, if_pos (List.mem_map.mpr ⟨txin, htx, rfl⟩)]
      refine ⟨hs, ?_⟩
      simp [CoinsMap.AccessCoin, hs, Coin.IsSpent, Coin.empty]
    · intro q hq
      rw [hmap, spendLoop_map, if_neg]
      intro hc
      obtain ⟨t, ht, hte⟩ := List.mem_map.mp hc
      exact hq t ht hte
    · rw [hmap, hmap]
    · simp [TxSpendCoins, hcb]

/-- Instance of C11: the sample spending transaction on the view that holds the output
of the sample coinbase, and the sample coinbase on the empty view. -/
theorem C11_TxSpendCoins_effect_witness :
    TxSpendCoins sampleCoinbase CoinsMap.empty (some ⟨[]⟩) = (CoinsMap.empty, some ⟨[]⟩) ∧
    (∀ u : TxUndo, ∃ u' : TxUndo,
      (TxSpendCoins sampleSpend
        (CoinsMap.empty.set ⟨sampleCoinbase.GetHash, 0⟩
          (.unspent ⟨50, [1]⟩ 10 true true)) (some u)).2 = some u' ∧
      u'.undoCoins.length = sampleSpend.GetIns.length ∧
      ∀ (i : Nat) (hi : i < sampleSpend.GetIns.length),
        u'.undoCoins[i]? = some ((CoinsMap.empty.set ⟨sampleCoinbase.GetHash, 0⟩
            (.unspent ⟨50, [1]⟩ 10 true true)).AccessCoin
            (sampleSpend.GetIns.get ⟨i, hi⟩).PreviousOutPoint).DeepCopy ∧
        ((CoinsMap.empty.set ⟨sampleCoinbase.GetHash, 0⟩
            (.unspent ⟨50, [1]⟩ 10 true true)).AccessCoin
            (sampleSpend.GetIns.get ⟨i, hi⟩).PreviousOutPoint).DeepCopy =
          (CoinsMap.empty.set ⟨sampleCoinbase.GetHash, 0⟩
            (.unspent ⟨50, [1]⟩ 10 true true)).AccessCoin
            (sampleSpend.GetIns.get ⟨i, hi⟩).PreviousOutPoint) :=
  ⟨(C11_TxSpendCoins_effect sampleCoinbase CoinsMap.empty (some ⟨[]⟩)).1 (by decide),
   ((C11_TxSpendCoins_effect sampleSpend
      (CoinsMap.empty.set ⟨sampleCoinbase.GetHash, 0⟩
        (.unspent ⟨50, [1]⟩ 10 true true)) none).2 (by decide) (by decide)).1⟩

end ltx

namespace ltx

/-! ## What `TxAddCoins` does -/

theorem AddCoin_allowed (m : CoinsMap) (op : OutPoint) (out : TxOut) (height : Int)
    (cb : Bool) (h : cb = true ∨ m op = .absent) :
    m.AddCoin op (NewFreshCoin out height cb) cb =
      some (m.set op (.unspent out height cb true)) := by
  unfold CoinsMap.AddCoin NewFreshCoin
  rcases h with h | h
  · subst h
    cases m op <;> rfl
  · simp only [h]

/-- A call without `possibleOverwrite` on an Unspent entry is refused. -/
theorem AddCoin_refused (m : CoinsMap) (op : OutPoint) (coin : Coin)
    (h : (m op).isUnspent = true) : m.AddCoin op coin false = none := by
  unfold CoinsMap.AddCoin
  cases coin.txOut with
  | none => rfl
  | some out =>
    cases hm : m op with
    | unspent o ht cb f => rfl
    | spent => rw [hm] at h; cases h
    | absent => rw [hm] at h; cases h

/-- The add loop from index `idx` on, for outputs whose indices fit 32 bits and whose
outpoints are absent (or for a coinbase): it succeeds, every output outpoint holds the
fresh coin of its output, and the other entries are as before. -/
theorem addLoop_effect (txid : wire.Hash) (height : Int) (cb : Bool) (outs : List TxOut)
    (idx : Nat) (m : CoinsMap) (hb : idx + outs.length ≤ 2 ^ 32)
    (habs : cb = true ∨ ∀ i, i < outs.length → m ⟨txid, idx + i⟩ = .absent) :
    ∃ m', addLoop txid height cb outs idx m = some m' ∧
      (∀ (i : Nat) (hi : i < outs.length),
        m' ⟨txid, idx + i⟩ = .unspent (outs.get ⟨i, hi⟩) height cb true) ∧
      (∀ q : OutPoint, (∀ i, i < outs.length → q ≠ ⟨txid, idx + i⟩) → m' q = m q) := by
  induction outs generalizing idx m with
  | nil =>
    refine ⟨m, rfl, ?_, fun q _ => rfl⟩
    intro i hi
    simp at hi
  | cons o outs ih =>
    simp only [List.length_cons] at hb habs
    have hidx : idx % 2 ^ 32 = idx := Nat.mod_eq_of_lt (by omega)
    have hadd : m.AddCoin ⟨txid, idx⟩ (NewFreshCoin o height cb) cb =
        some (m.set ⟨txid, idx⟩ (.unspent o height cb true)) := by
      apply AddCoin_allowed
      rcases habs with h | h
      · exact Or.inl h
      · exact Or.inr (by simpa using h 0 (by omega))
    have hne : ∀ j : Nat, (⟨txid, idx + 1 + j⟩ : OutPoint) ≠ ⟨txid, idx⟩ := by
      intro j hc
      injection hc with _ h2
      omega
    obtain ⟨m', hloop, hP1, hP2⟩ := ih (idx + 1)
      (m.set ⟨txid, idx⟩ (.unspent o height cb true)) (by omega)
      (by
        rcases habs with h | h
        · exact Or.inl h
        · refine Or.inr (fun i hi => ?_)
          rw [CoinsMap.set_other _ _ _ _ (hne i)]
          have := h (i + 1) (by omega)
          rwa [show idx + (i + 1) = idx + 1 + i by omega] at this)
    refine ⟨m', ?_, ?_, ?_⟩
    · simp only [addLoop, NewOutPoint, hidx, hadd]
      exact hloop
    · intro i hi
      cases i with
      | zero =>
        rw [Nat.add_zero, hP2 _ (fun j _ hc => hne j hc.symm), CoinsMap.set_same]
        rfl
      | succ i =>
        have := hP1 i (by simpa using hi)
        rw [show idx + (i + 1) = idx + 1 + i by omega]
        exact this
    · intro q hq
      simp only [List.length_cons] at hq
      have hq0 : q ≠ ⟨txid, idx⟩ := by simpa using hq 0 (by omega)
      rw [hP2 q (fun j hj => by
        have := hq (j + 1) (by omega)
        rwa [show idx + (j + 1) = idx + 1 + j by omega] at this)]
      exact CoinsMap.set_other _ _ _ _ hq0

/-- The add loop of a transaction that is not a coinbase is refused when one of the
output outpoints holds an Unspent entry. -/
theorem addLoop_refused (txid : wire.Hash) (height : Int) (outs : List TxOut)
    (idx : Nat) (m : CoinsMap) (i : Nat) (hi : i < outs.length)
    (hocc : (m ⟨txid, idx + i⟩).isUnspent = true) (hb : idx + outs.length ≤ 2 ^ 32) :
    addLoop txid height false outs idx m = none := by
  induction outs generalizing idx m i with
  | nil => simp at hi
  | cons o outs ih =>
    simp only [List.length_cons] at hb hi
    have hidx : idx % 2 ^ 32 = idx := Nat.mod_eq_of_lt (by omega)
    simp only [addLoop, NewOutPoint, hidx]
    by_cases hocc0 : (m ⟨txid, idx⟩).isUnspent = true
    · rw [AddCoin_refused m _ _ hocc0]
    · have hadd : m.AddCoin ⟨txid, idx⟩ (NewFreshCoin o height false) false =
          some (m.set ⟨txid, idx⟩ (.unspent o height false true)) := by
        unfold CoinsMap.AddCoin NewFreshCoin
        cases hm : m ⟨txid, idx⟩ with
        | unspent _ _ _ _ => rw [hm] at hocc0; exact absurd rfl hocc0
        | spent => rfl
        | absent => rfl
      rw [hadd]
      cases i with
      | zero => exact absurd hocc hocc0
      | succ i =>
        refine ih (idx + 1) _ i (by omega) ?_ (by omega)
        have hne : (⟨txid, idx + 1 + i⟩ : OutPoint) ≠ ⟨txid, idx⟩ := by
          intro hc
          injection hc with _ h2
          omega
        rw [CoinsMap.set_other _ _ _ _ hne, show idx + 1 + i = idx + (i + 1) by omega]
        exact hocc

/-- The add loop performs the calls the specification lists, one per output and in index
order. -/
theorem addLoop_eq_runAddCoin (txid : wire.Hash) (height : Int) (cb : Bool)
    (outs : List TxOut) (idx : Nat) (m : CoinsMap) (hb : idx + outs.length ≤ 2 ^ 32) :
    addLoop txid height cb outs idx m =
      runAddCoin (addCoinCalls txid height cb outs idx) m := by
  induction outs generalizing idx m with
  | nil => rfl
  | cons o outs ih =>
    simp only [List.length_cons] at hb
    have hidx : idx % 2 ^ 32 = idx := Nat.mod_eq_of_lt (by omega)
    simp only [addLoop, addCoinCalls, runAddCoin, NewOutPoint, hidx]
    cases m.AddCoin ⟨txid, idx⟩ (NewFreshCoin o height cb) cb with
    | none => rfl
    | some m1 => exact ih (idx + 1) m1 (by omega)

theorem addCoinCalls_length (txid : wire.Hash) (height : Int) (cb : Bool)
    (outs : List TxOut) (idx : Nat) :
    (addCoinCalls txid height cb outs idx).length = outs.length := by
  induction outs generalizing idx with
  | nil => rfl
  | cons o outs ih => simp [addCoinCalls, ih]

theorem addCoinCalls_get (txid : wire.Hash) (height : Int) (cb : Bool)
    (outs : List TxOut) (idx i : Nat) (hi : i < outs.length) :
    (addCoinCalls txid height cb outs idx)[i]? =
      some (⟨txid, idx + i⟩, NewFreshCoin (outs.get ⟨i, hi⟩) height cb, cb) := by
  induction outs generalizing idx i with
  | nil => simp at hi
  | cons o outs ih =>
    cases i with
    | zero => simp [addCoinCalls]
    | succ i =>
      simp only [addCoinCalls, List.getElem?_cons_succ]
      rw [ih (idx + 1) i (by simpa using hi)]
      simp only [List.get_eq_getElem, List.getElem_cons_succ]
      rw [show idx + 1 + i = idx + (i + 1) by omega]

end ltx

namespace ltx

/-- C12: for a transaction whose output indices fit 32 bits and whose output outpoints
are absent from the view (or that is a coinbase), `TxAddCoins` succeeds; afterwards the
entry at `(txid, i)` is Unspent and the coin there is `NewFreshCoin(output[i], h,
IsCoinBase)`, with output `i`, height `h` and the coinbase flag of the transaction, for
every output index `i`; every other entry is unchanged. On every view, whether or not its
output outpoints are free, `TxAddCoins` does what the calls of `AddCoin` the
specification lists do, one per output in index order with `possibleOverwrite` equal to
`IsCoinBase`, stopping at the first refused one: so a transaction that is not a coinbase
is refused on a view in which one of its output outpoints is Unspent, where the same
calls with `possibleOverwrite = true` go through. -/
theorem C12_TxAddCoins_effect (tx : Tx) (m : CoinsMap) (height : Int)
    (hlen : tx.GetOuts.length ≤ 2 ^ 32)
    (habs : tx.IsCoinBase = true ∨
      ∀ i, i < tx.GetOuts.length → m ⟨tx.GetHash, i⟩ = .absent) :
    (∃ m', TxAddCoins tx m height = some m' ∧
      (∀ (i : Nat) (hi : i < tx.GetOuts.length),
        m' ⟨tx.GetHash, i⟩ =
          .unspent (tx.GetOuts.get ⟨i, hi⟩) height tx.IsCoinBase true ∧
        m'.AccessCoin ⟨tx.GetHash, i⟩ =
          NewFreshCoin (tx.GetOuts.get ⟨i, hi⟩) height tx.IsCoinBase ∧
        (m'.AccessCoin ⟨tx.GetHash, i⟩).IsSpent = false ∧
        (m'.AccessCoin ⟨tx.GetHash, i⟩).txOut = some (tx.GetOuts.get ⟨i, hi⟩) ∧
        (m'.AccessCoin ⟨tx.GetHash, i⟩).height = height ∧
        (m'.AccessCoin ⟨tx.GetHash, i⟩).isCoinBase = tx.IsCoinBase) ∧
      (∀ q : OutPoint, (∀ i, i < tx.GetOuts.length → q ≠ ⟨tx.GetHash, i⟩) → m' q = m q)) ∧
    (∀ m0 : CoinsMap, TxAddCoins tx m0 height =
      runAddCoin (addCoinCalls tx.GetHash height tx.IsCoinBase tx.GetOuts 0) m0) ∧
    (addCoinCalls tx.GetHash height tx.IsCoinBase tx.GetOuts 0).length
      = tx.GetOuts.length ∧
    (∀ (i : Nat) (hi : i < tx.GetOuts.length),
      (addCoinCalls tx.GetHash height tx.IsCoinBase tx.GetOuts 0)[i]? =
        some (⟨tx.GetHash, i⟩,
          NewFreshCoin (tx.GetOuts.get ⟨i, hi⟩) height tx.IsCoinBase, tx.IsCoinBase)) ∧
    (tx.IsCoinBase = false → ∀ (m0 : CoinsMap) (i : Nat), i < tx.GetOuts.length →
      (m0 ⟨tx.GetHash, i⟩).isUnspent = true →
      TxAddCoins tx m0 height = none ∧
      ∃ m1, runAddCoin (addCoinCalls tx.GetHash height true tx.GetOuts 0) m0 = some m1) := by
  obtain ⟨m', hadd, hP1, hP2⟩ := addLoop_effect tx.GetHash height tx.IsCoinBase tx.GetOuts 0 m
    (by omega) (by simpa using habs)
  refine ⟨⟨m', hadd, ?_, ?_⟩, ?_, addCoinCalls_length _ _ _ _ _, ?_, ?_⟩
  · intro i hi
    have h := hP1 i hi
    rw [Nat.zero_add] at h
    refine ⟨h, ?_, ?_, ?_, ?_, ?_⟩ <;> simp [CoinsMap.AccessCoin, h, NewFreshCoin, Coin.IsSpent]
  · intro q hq
    exact hP2 q (fun i hi => by simpa using hq i hi)
  · intro m0
    exact addLoop_eq_runAddCoin _ _ _ _ 0 m0 (by omega)
  · intro i hi
    have := addCoinCalls_get tx.GetHash height tx.IsCoinBase tx.GetOuts 0 i hi
    rwa [Nat.zero_add] at this
  · intro hcb m0 i hi hocc
    constructor
    · unfold TxAddCoins
      simp only [hcb]
      exact addLoop_refused tx.GetHash height tx.GetOuts 0 m0 i hi
        (by rwa [Nat.zero_add]) (by omega)
    · obtain ⟨m1, h1, _⟩ := addLoop_effect tx.GetHash height true tx.GetOuts 0 m0
        (by omega) (Or.inl rfl)
      rw [← addLoop_eq_runAddCoin _ _ _ _ 0 m0 (by omega)]
      exact ⟨m1, h1⟩

/-- Instance of C12: the sample coinbase, with one output of 50, added to the empty view
at height 10; and the sample spending transaction, which is not a coinbase, refused on
a view in which its output outpoint already holds a coin. -/
theorem C12_TxAddCoins_effect_witness :
    (∃ m', TxAddCoins sampleCoinbase CoinsMap.empty 10 = some m' ∧
      m' ⟨sampleCoinbase.GetHash, 0⟩ = .unspent ⟨50, [1]⟩ 10 true true ∧
      ∀ q : OutPoint, q ≠ ⟨sampleCoinbase.GetHash, 0⟩ → m' q = .absent) ∧
    TxAddCoins sampleSpend
      (CoinsMap.empty.set ⟨sampleSpend.GetHash, 0⟩ (.unspent ⟨1, []⟩ 3 false false)) 11
        = none := by
  refine ⟨?_, ?_⟩
  · obtain ⟨⟨m', h1, h2, h3⟩, _⟩ := C12_TxAddCoins_effect sampleCoinbase CoinsMap.empty 10
      (by decide) (Or.inl rfl)
    refine ⟨m', h1, (h2 0 (by decide)).1, fun q hq => ?_⟩
    rw [h3 q (fun i hi => ?_)]
    · rfl
    · have : i = 0 := by
        have : i < 1 := hi
        omega
      subst this
      exact hq
  · exact ((C12_TxAddCoins_effect sampleSpend CoinsMap.empty 11 (by decide)
      (Or.inr (fun _ _ => rfl))).2.2.2.2 rfl
        (CoinsMap.empty.set ⟨sampleSpend.GetHash, 0⟩ (.unspent ⟨1, []⟩ 3 false false)) 0
        (by decide) (by decide)).1

end ltx

/-! # Properties of the keystore -/

namespace crypto

variable {PrivateKey PublicKey : Type}

theorem GetKeyPair_eq_keys (ks : KeyStore PrivateKey PublicKey) (h : List wire.Byte) :
    ks.GetKeyPair h = ks.keys h := by
  unfold KeyStore.GetKeyPair
  cases ks.keys h <;> rfl

theorem assign_keys_same (ks : KeyStore PrivateKey PublicKey) (k : List wire.Byte)
    (kp : KeyPair PrivateKey PublicKey) : (ks.assign k kp).keys k = some kp := by
  simp [KeyStore.assign]

theorem assign_keys_other (ks : KeyStore PrivateKey PublicKey) (k q : List wire.Byte)
    (kp : KeyPair PrivateKey PublicKey) (h : q ≠ k) : (ks.assign k kp).keys q = ks.keys q := by
  simp [KeyStore.assign, h]

theorem AddKey_keys_other (K : KeyEnv PrivateKey PublicKey)
    (ks : KeyStore PrivateKey PublicKey) (k : PrivateKey) (q : List wire.Byte)
    (h : q ≠ K.ToHash160 (K.PubKey k)) : (ks.AddKey K k).keys q = ks.keys q := by
  simp only [KeyStore.AddKey]
  exact assign_keys_other _ _ _ _ h

theorem AddKeyPairs_keys_other (ks : KeyStore PrivateKey PublicKey)
    (keys : List (KeyPair PrivateKey PublicKey)) (q : List wire.Byte)
    (h : q ∉ keys.map KeyPair.GetKeyID) : (ks.AddKeyPairs keys).keys q = ks.keys q := by
  induction keys generalizing ks with
  | nil => rfl
  | cons kp keys ih =>
    simp only [List.map_cons, List.mem_cons, not_or] at h
    simp only [KeyStore.AddKeyPairs]
    rw [ih _ h.2]
    exact assign_keys_other _ _ _ _ h.1

theorem foldl_AddKey_keys_other (K : KeyEnv PrivateKey PublicKey)
    (ks : KeyStore PrivateKey PublicKey) (more : List PrivateKey) (q : List wire.Byte)
    (h : ∀ k ∈ more, K.ToHash160 (K.PubKey k) ≠ q) :
    (more.foldl (KeyStore.AddKey K) ks).keys q = ks.keys q := by
  induction more generalizing ks with
  | nil => rfl
  | cons k more ih =>
    simp only [List.foldl_cons]
    rw [ih _ (fun k' hk' => h k' (List.mem_cons_of_mem _ hk'))]
    exact AddKey_keys_other K ks k q (Ne.symm (h k (List.mem_cons_self _ _)))

theorem foldl_apply_keys_other (K : KeyEnv PrivateKey PublicKey)
    (ks : KeyStore PrivateKey PublicKey) (ops : List (KeyOp PrivateKey PublicKey))
    (q : List wire.Byte) (h : ∀ op ∈ ops, q ∉ op.keyIDs K) :
    (ops.foldl (KeyOp.apply K) ks).keys q = ks.keys q := by
  induction ops generalizing ks with
  | nil => rfl
  | cons op ops ih =>
    simp only [List.foldl_cons]
    rw [ih _ (fun o ho => h o (List.mem_cons_of_mem _ ho))]
    have hop := h op (List.mem_cons_self _ _)
    cases op with
    | addKey k =>
      simp only [KeyOp.keyIDs, List.mem_singleton] at hop
      exact AddKey_keys_other K ks k q hop
    | addKeyPairs keys =>
      exact AddKeyPairs_keys_other ks keys q hop

/-- C13: after `AddKey(K)`, on any keystore, `GetKeyPair(hash160(pub(K)))` returns the
pair with key ID `hash160(pub(K))`, public key `pub(K)` and private key `K`; this stays
so after further `AddKey` calls with keys of another public-key hash; and on a keystore
built from the empty one by `AddKey` and `AddKeyPairs`, `GetKeyPair(h)` returns nil for
every `h` under which none of them stored a pair. -/
theorem C13_AddKey_GetKeyPair (K : KeyEnv PrivateKey PublicKey)
    (ks : KeyStore PrivateKey PublicKey) (k : PrivateKey) :
    (ks.AddKey K k).GetKeyPair (K.ToHash160 (K.PubKey k)) =
      some { keyID := K.ToHash160 (K.PubKey k), publicKey := K.PubKey k, privateKey := k } ∧
    (∀ more : List PrivateKey,
      (∀ k' ∈ more, K.ToHash160 (K.PubKey k') ≠ K.ToHash160 (K.PubKey k)) →
      (more.foldl (KeyStore.AddKey K) (ks.AddKey K k)).GetKeyPair
          (K.ToHash160 (K.PubKey k)) =
        some { keyID := K.ToHash160 (K.PubKey k), publicKey := K.PubKey k,
               privateKey := k }) ∧
    (∀ (ops : List (KeyOp PrivateKey PublicKey)) (h : List wire.Byte),
      (∀ op ∈ ops, h ∉ op.keyIDs K) →
      ((ops.foldl (KeyOp.apply K) NewKeyStore).GetKeyPair h = none)) := by
  have h1 : (ks.AddKey K k).GetKeyPair (K.ToHash160 (K.PubKey k)) =
      some { keyID := K.ToHash160 (K.PubKey k), publicKey := K.PubKey k,
             privateKey := k } := by
    rw [GetKeyPair_eq_keys]
    simp only [KeyStore.AddKey, NewKeyPair, KeyPair.GetKeyID]
    exact assign_keys_same _ _ _
  refine ⟨h1, ?_, ?_⟩
  · intro more hmore
    rw [GetKeyPair_eq_keys, foldl_AddKey_keys_other K _ more _ hmore, ← GetKeyPair_eq_keys]
    exact h1
  · intro ops h hops
    rw [GetKeyPair_eq_keys, foldl_apply_keys_other K _ ops h hops]
    rfl

/-- Instance of C13: the keys 1 and 2 added to the empty keystore, queried by the hash of
the public key of 2 and by twenty zero bytes. -/
theorem C13_AddKey_GetKeyPair_witness :
    ((NewKeyStore.AddKey sampleKeyEnv 1).AddKey sampleKeyEnv 2).GetKeyPair
        (List.replicate 20 102) =
      some { keyID := List.replicate 20 102, publicKey := 102, privateKey := 2 } ∧
    ([2].foldl (KeyStore.AddKey sampleKeyEnv) (NewKeyStore.AddKey sampleKeyEnv 1)).GetKeyPair
        (List.replicate 20 101) =
      some { keyID := List.replicate 20 101, publicKey := 101, privateKey := 1 } ∧
    ([KeyOp.addKey 1, KeyOp.addKey 2].foldl (KeyOp.apply sampleKeyEnv)
        NewKeyStore).GetKeyPair (List.replicate 20 0) = none :=
  ⟨(C13_AddKey_GetKeyPair sampleKeyEnv (NewKeyStore.AddKey sampleKeyEnv 1) 2).1,
   (C13_AddKey_GetKeyPair sampleKeyEnv NewKeyStore 1).2.1 [2] (by decide),
   (C13_AddKey_GetKeyPair sampleKeyEnv NewKeyStore 1).2.2
     [KeyOp.addKey 1, KeyOp.addKey 2] (List.replicate 20 0) (by decide)⟩

/-! ## The batch lookup -/

theorem getKeyPairsLoop_eq (ks : KeyStore PrivateKey PublicKey)
    (L : List (List wire.Byte)) (acc : List (KeyPair PrivateKey PublicKey)) :
    getKeyPairsLoop ks L acc = acc ++ L.filterMap ks.GetKeyPair := by
  induction L generalizing acc with
  | nil => simp [getKeyPairsLoop]
  | cons h L ih =>
    unfold getKeyPairsLoop
    rw [List.filterMap_cons, GetKeyPair_eq_keys]
    cases ks.keys h with
    | none => exact ih acc
    | some kp => simp [ih]

/-- C14: `GetKeyPairs(L)` returns the list obtained by applying `GetKeyPair` to each
element of `L` in order and dropping the absent results, and leaves the keystore as it
was. Hence the list is compatible with concatenation and holds the pair of a single
hash when present (so a repeated hash repeats its pair), it contains exactly the pairs
of listed hashes that are present, it is no longer than `L`, and it is empty when no
listed hash is present. -/
theorem C14_GetKeyPairs_filterMap (ks : KeyStore PrivateKey PublicKey)
    (L : List (List wire.Byte)) :
    (ks.GetKeyPairs L).2 = lookupPresent ks L ∧
    (ks.GetKeyPairs L).1 = ks ∧
    (∀ L1 L2 : List (List wire.Byte),
      (ks.GetKeyPairs (L1 ++ L2)).2 = (ks.GetKeyPairs L1).2 ++ (ks.GetKeyPairs L2).2) ∧
    (∀ h : List wire.Byte, (ks.GetKeyPairs [h]).2 = (ks.GetKeyPair h).toList) ∧
    (∀ kp, kp ∈ (ks.GetKeyPairs L).2 ↔ ∃ h ∈ L, ks.GetKeyPair h = some kp) ∧
    (ks.GetKeyPairs L).2.length ≤ L.length ∧
    ((∀ h ∈ L, ks.GetKeyPair h = none) → (ks.GetKeyPairs L).2 = []) := by
  have e : ∀ M : List (List wire.Byte), (ks.GetKeyPairs M).2 = M.filterMap ks.GetKeyPair := by
    intro M
    simp [KeyStore.GetKeyPairs, getKeyPairsLoop_eq]
  refine ⟨e L, rfl, ?_, ?_, ?_, ?_, ?_⟩
  · intro L1 L2
    rw [e, e, e, List.filterMap_append]
  · intro h
    rw [e]
    cases hh : ks.GetKeyPair h <;> simp [hh]
  · intro kp
    rw [e, List.mem_filterMap]
  · rw [e]
    exact List.length_filterMap_le _ _
  · intro hnone
    rw [e, List.filterMap_eq_nil_iff]
    exact hnone

/-- Instance of C14: the keystore holding the keys 1 and 2, queried with the hash of
key 2, an unknown hash, the hash of key 1 and again the hash of key 2; and queried with
unknown hashes only. -/
theorem C14_GetKeyPairs_filterMap_witness :
    (((NewKeyStore.AddKey sampleKeyEnv 1).AddKey sampleKeyEnv 2).GetKeyPairs
        [List.replicate 20 102, List.replicate 20 0, List.replicate 20 101,
         List.replicate 20 102]).2 =
      [⟨List.replicate 20 102, 102, 2⟩, ⟨List.replicate 20 101, 101, 1⟩,
       ⟨List.replicate 20 102, 102, 2⟩] ∧
    (((NewKeyStore.AddKey sampleKeyEnv 1).AddKey sampleKeyEnv 2).GetKeyPairs
        [List.replicate 20 0, List.replicate 20 7]).2 = [] :=
  ⟨((C14_GetKeyPairs_filterMap ((NewKeyStore.AddKey sampleKeyEnv 1).AddKey sampleKeyEnv 2)
      [List.replicate 20 102, List.replicate 20 0, List.replicate 20 101,
       List.replicate 20 102]).1).trans (by decide),
   (C14_GetKeyPairs_filterMap ((NewKeyStore.AddKey sampleKeyEnv 1).AddKey sampleKeyEnv 2)
      [List.replicate 20 0, List.replicate 20 7]).2.2.2.2.2.2 (by decide)⟩

end crypto

/-! # Properties of the chain notifier -/

namespace chain

variable {W D : Type}

theorem foldl_Subscribe_notifications (c : Chain W D) (subs : List (NotificationCallback W D)) :
    (subs.foldl Chain.Subscribe c).notifications = c.notifications ++ subs := by
  induction subs generalizing c with
  | nil => simp
  | cons s subs ih => simp [List.foldl_cons, ih, Chain.Subscribe]

theorem range_map_succ (n k : Nat) (x : Notification D) :
    (List.range (n + 1)).map (fun j => (k + j, x)) =
      (k, x) :: (List.range n).map (fun j => (k + 1 + j, x)) := by
  rw [List.range_succ_eq_map, List.map_cons, List.map_map]
  simp only [Nat.add_zero, List.cons.injEq, true_and]
  apply List.map_congr_left
  intro j _
  simp only [Function.comp, Nat.succ_eq_add_one]
  rw [show k + (j + 1) = k + 1 + j by omega]

/-- With well-behaved callbacks the loop calls each of them once, in order, with the
notification of the call, and does not panic. -/
theorem notifyLoop_wellBehaved (cbs : List (NotificationCallback W D)) (k : Nat)
    (n : Notification D) (w : W) (h : ∀ cb ∈ cbs, wellBehaved cb) :
    ∃ w1, notifyLoop cbs k n w =
      ((List.range cbs.length).map (fun j => (k + j, n)), .ret (n, w1)) := by
  induction cbs generalizing k w with
  | nil => exact ⟨w, rfl⟩
  | cons cb cbs ih =>
    obtain ⟨w1, hcb⟩ := h cb (List.mem_cons_self _ _) n w
    obtain ⟨w2, hrest⟩ := ih (k + 1) w1 (fun c hc => h c (List.mem_cons_of_mem _ hc))
    refine ⟨w2, ?_⟩
    simp only [notifyLoop, hcb, hrest, List.length_cons]
    rw [range_map_succ]

/-- When the callbacks in front return during this call without changing the
notification and the next one panics in the world they leave, the loop has called
exactly these, once each and in order, and ends in the panic. -/
theorem notifyLoop_panic (pre post : List (NotificationCallback W D))
    (bad : NotificationCallback W D) (k : Nat) (n : Notification D) (w w1 : W)
    (hpre : returnUnchanged pre n w w1) (hbad : bad n w1 = .panic) :
    notifyLoop (pre ++ bad :: post) k n w =
      ((List.range (pre.length + 1)).map (fun j => (k + j, n)), .panic) := by
  induction pre generalizing k w with
  | nil =>
    simp only [returnUnchanged] at hpre
    subst hpre
    simp [notifyLoop, hbad, List.range_succ]
  | cons cb pre ih =>
    obtain ⟨w0, hcb, hrest⟩ := hpre
    have hloop := ih (k + 1) w0 hrest
    rw [List.cons_append]
    simp only [notifyLoop, hcb, List.length_cons]
    rw [hloop, range_map_succ (pre.length + 1)]

/-- Well-behaved callbacks return without changing the notification, in whatever world
they are called. -/
theorem returnUnchanged_of_wellBehaved (cbs : List (NotificationCallback W D))
    (n : Notification D) (w : W) (h : ∀ cb ∈ cbs, wellBehaved cb) :
    ∃ w1, returnUnchanged cbs n w w1 := by
  induction cbs generalizing w with
  | nil => exact ⟨w, rfl⟩
  | cons cb cbs ih =>
    obtain ⟨w0, hcb⟩ := h cb (List.mem_cons_self _ _) n w
    obtain ⟨w1, hrest⟩ := ih w0 (fun c hc => h c (List.mem_cons_of_mem _ hc))
    exact ⟨w1, w0, hcb, hrest⟩

theorem filter_range_map (n i : Nat) (x : Notification D) :
    ((List.range n).map (fun j => (j, x))).filter (fun p => decide (p.1 = i)) =
      if i < n then [(i, x)] else [] := by
  induction n with
  | zero => simp
  | succ n ih =>
    rw [List.range_succ, List.map_append, List.filter_append, ih]
    by_cases h1 : i < n
    · have : ¬ n = i := by omega
      simp [h1, this, show i < n + 1 by omega]
    · by_cases h2 : n = i
      · subst h2
        simp
      · simp [h1, h2, show ¬ i < n + 1 by omega]

/-- A sequence of sends to well-behaved callbacks: no panic, the chain is left as it
was, and the log is, send after send, one call per callback in order. -/
theorem sendAll_wellBehaved (c : Chain W D) (sends : List (NotificationType × D)) (w : W)
    (h : ∀ cb ∈ c.notifications, wellBehaved cb) :
    ∃ w1, sendAll c sends w =
      { chain := c
        log := sends.flatMap (fun td =>
          (List.range c.notifications.length).map
            (fun j => (j, ({ Typ := td.1, Data := td.2 } : Notification D))))
        outcome := .ret w1 } := by
  induction sends generalizing w with
  | nil => exact ⟨w, rfl⟩
  | cons td sends ih =>
    obtain ⟨typ, data⟩ := td
    obtain ⟨w1, hloop⟩ := notifyLoop_wellBehaved c.notifications 0 ⟨typ, data⟩ w h
    obtain ⟨w2, hrest⟩ := ih w1
    refine ⟨w2, ?_⟩
    simp only [sendAll, Chain.SendNotification, hloop, hrest, List.flatMap_cons,
      Nat.zero_add]

end chain

namespace chain

variable {W D : Type}

/-- In the log of a sequence of sends to `n` well-behaved callbacks, the calls of the
callback at position `i` carry the notifications of the sends, in order. -/
theorem observed_in_log (n i : Nat) (hi : i < n) (sends : List (NotificationType × D)) :
    ((sends.flatMap (fun td =>
        (List.range n).map
          (fun j => (j, ({ Typ := td.1, Data := td.2 } : Notification D))))).filter
        (fun p => decide (p.1 = i))).map (fun p => p.2) =
      sends.map (fun td => ({ Typ := td.1, Data := td.2 } : Notification D)) := by
  induction sends with
  | nil => rfl
  | cons td sends ih =>
    rw [List.flatMap_cons, List.filter_append, List.map_append, ih, filter_range_map,
      if_pos hi]
    rfl

/-- C15: for a chain whose subscribers were registered by `Subscribe` in the order
`s1..sn`, with callbacks that neither panic nor change the notification, a sequence of
`SendNotification(T1, d1), ..., SendNotification(Tk, dk)` does not panic and leaves the
subscriber list as it was; send after send, the callbacks are called once each in
subscription order; and the calls of every subscriber carry, in order, the `k`
notifications `(T1, d1), ..., (Tk, dk)`. -/
theorem C15_notifications_in_order (c0 : Chain W D) (subs : List (NotificationCallback W D))
    (sends : List (NotificationType × D)) (w : W)
    (h0 : c0.notifications = []) (hwb : ∀ cb ∈ subs, wellBehaved cb) :
    (subs.foldl Chain.Subscribe c0).notifications = subs ∧
    (∃ w1, (sendAll (subs.foldl Chain.Subscribe c0) sends w).outcome = .ret w1) ∧
    (sendAll (subs.foldl Chain.Subscribe c0) sends w).chain.notifications = subs ∧
    (sendAll (subs.foldl Chain.Subscribe c0) sends w).log =
      sends.flatMap (fun td =>
        (List.range subs.length).map
          (fun j => (j, ({ Typ := td.1, Data := td.2 } : Notification D)))) ∧
    ∀ i, i < subs.length →
      (((sendAll (subs.foldl Chain.Subscribe c0) sends w).log.filter
          (fun p => decide (p.1 = i))).map (fun p => p.2) =
        sends.map (fun td => ({ Typ := td.1, Data := td.2 } : Notification D))) ∧
      (((sendAll (subs.foldl Chain.Subscribe c0) sends w).log.filter
          (fun p => decide (p.1 = i))).length = sends.length) := by
  have hsubs : (subs.foldl Chain.Subscribe c0).notifications = subs := by
    rw [foldl_Subscribe_notifications, h0, List.nil_append]
  obtain ⟨w1, hsend⟩ := sendAll_wellBehaved (subs.foldl Chain.Subscribe c0) sends w
    (by rw [hsubs]; exact hwb)
  rw [hsubs] at hsend
  rw [hsend]
  refine ⟨hsubs, ⟨w1, rfl⟩, hsubs, rfl, ?_⟩
  intro i hi
  have hobs := observed_in_log subs.length i hi sends
  refine ⟨hobs, ?_⟩
  have := congrArg List.length hobs
  simpa using this

/-- Instance of C15: three counting subscribers and the sends of `NTBlockAccepted`,
`NTBlockConnected` and `NTChainTipUpdated` with the data 7, 7 and 8. -/
theorem C15_notifications_in_order_witness :
    (sendAll ([countingCallback, countingCallback, countingCallback].foldl
        Chain.Subscribe ⟨[]⟩)
      [(NTBlockAccepted, 7), (NTBlockConnected, 7), (NTChainTipUpdated, 8)] 0).log =
      [(NTBlockAccepted, 7), (NTBlockConnected, 7), (NTChainTipUpdated, 8)].flatMap
        (fun td => (List.range 3).map
          (fun j => (j, ({ Typ := td.1, Data := td.2 } : Notification Nat)))) ∧
    ((sendAll ([countingCallback, countingCallback, countingCallback].foldl
        Chain.Subscribe ⟨[]⟩)
      [(NTBlockAccepted, 7), (NTBlockConnected, 7), (NTChainTipUpdated, 8)] 0).log.filter
        (fun p => decide (p.1 = 2))).map (fun p => p.2) =
      [⟨NTBlockAccepted, 7⟩, ⟨NTBlockConnected, 7⟩, ⟨NTChainTipUpdated, 8⟩] :=
  ⟨(C15_notifications_in_order ⟨[]⟩ [countingCallback, countingCallback, countingCallback]
      [(NTBlockAccepted, 7), (NTBlockConnected, 7), (NTChainTipUpdated, 8)] 0 rfl
      (fun cb _ n w => by
        have hcb : cb = countingCallback := by simp_all
        exact ⟨w + 1, by rw [hcb]; rfl⟩)).2.2.2.1,
   ((C15_notifications_in_order ⟨[]⟩ [countingCallback, countingCallback, countingCallback]
      [(NTBlockAccepted, 7), (NTBlockConnected, 7), (NTChainTipUpdated, 8)] 0 rfl
      (fun cb _ n w => by
        have hcb : cb = countingCallback := by simp_all
        exact ⟨w + 1, by rw [hcb]; rfl⟩)).2.2.2.2 2 (by decide)).1⟩

/-- C16, counterexample: with a panicking subscriber registered before a counting one,
`SendNotification` ends in the panic after the single call of the first subscriber; the
second subscriber is not called. -/
theorem C16_panic_stops_delivery :
    (Chain.SendNotification ⟨[panickingCallback, countingCallback]⟩
        NTBlockConnected 5 0).outcome = .panic ∧
    (Chain.SendNotification ⟨[panickingCallback, countingCallback]⟩
        NTBlockConnected 5 0).log = [(0, ⟨NTBlockConnected, 5⟩)] ∧
    ((Chain.SendNotification ⟨[panickingCallback, countingCallback]⟩
        NTBlockConnected 5 0).log.filter (fun p => decide (p.1 = 1))).length = 0 := by
  decide

/-- C16, amended: take a call of `SendNotification` during which the subscribers
registered before `si` return without changing the notification and the callback of `si`
panics in the world they leave (whatever these callbacks do on other notifications or in
other worlds). The call ends in that panic; the subscribers up to and including `si`
have been called once each, in order, with the notification, the subscribers registered
after `si` have not been called, and the subscriber list is as before. Subscribers that
neither panic nor change the notification in any world are a case of this. -/
theorem C16_panic_propagates (pre post : List (NotificationCallback W D))
    (bad : NotificationCallback W D) (typ : NotificationType) (data : D) (w w1 : W)
    (hpre : returnUnchanged pre { Typ := typ, Data := data } w w1)
    (hbad : bad { Typ := typ, Data := data } w1 = .panic) :
    (Chain.SendNotification ⟨pre ++ bad :: post⟩ typ data w).outcome = .panic ∧
    (Chain.SendNotification ⟨pre ++ bad :: post⟩ typ data w).log =
      (List.range (pre.length + 1)).map
        (fun j => (j, ({ Typ := typ, Data := data } : Notification D))) ∧
    (∀ j, j ≤ pre.length →
      (Chain.SendNotification ⟨pre ++ bad :: post⟩ typ data w).log.filter
          (fun p => decide (p.1 = j)) =
        [(j, ({ Typ := typ, Data := data } : Notification D))]) ∧
    (∀ j, pre.length < j →
      (Chain.SendNotification ⟨pre ++ bad :: post⟩ typ data w).log.filter
          (fun p => decide (p.1 = j)) = []) ∧
    (Chain.SendNotification ⟨pre ++ bad :: post⟩ typ data w).chain.notifications =
      pre ++ bad :: post ∧
    ((∀ cb ∈ pre, wellBehaved cb) →
      ∃ w2, returnUnchanged pre { Typ := typ, Data := data } w w2) := by
  have hloop := notifyLoop_panic pre post bad 0 ⟨typ, data⟩ w w1 hpre hbad
  simp only [Nat.zero_add] at hloop
  have hlog : (Chain.SendNotification ⟨pre ++ bad :: post⟩ typ data w).log =
      (List.range (pre.length + 1)).map
        (fun j => (j, ({ Typ := typ, Data := data } : Notification D))) := by
    simp only [Chain.SendNotification, hloop]
  refine ⟨?_, hlog, ?_, ?_, rfl, returnUnchanged_of_wellBehaved pre _ w⟩
  · simp only [Chain.SendNotification, hloop]
  · intro j hj
    rw [hlog, filter_range_map, if_pos (by omega)]
  · intro j hj
    rw [hlog, filter_range_map, if_neg (by omega)]

/-- Instance of C16 (amended): a counting subscriber, then one that panics only in
world 1, then a counting one, called from world 0: the second subscriber is called in
world 1 and panics there; called first, in world 0, it would have returned. -/
theorem C16_panic_propagates_witness :
    panicsInWorldOne ⟨NTBlockConnected, 5⟩ 0 = .ret (⟨NTBlockConnected, 5⟩, 1) ∧
    (Chain.SendNotification ⟨[countingCallback] ++ panicsInWorldOne :: [countingCallback]⟩
        NTBlockConnected 5 0).outcome = .panic ∧
    (Chain.SendNotification ⟨[countingCallback] ++ panicsInWorldOne :: [countingCallback]⟩
        NTBlockConnected 5 0).log =
      (List.range 2).map (fun j => (j, ({ Typ := NTBlockConnected, Data := 5 } :
        Notification Nat))) :=
  ⟨rfl,
   (C16_panic_propagates [countingCallback] [countingCallback] panicsInWorldOne
      NTBlockConnected 5 0 1 ⟨1, rfl, rfl⟩ rfl).1,
   (C16_panic_propagates [countingCallback] [countingCallback] panicsInWorldOne
      NTBlockConnected 5 0 1 ⟨1, rfl, rfl⟩ rfl).2.1⟩

/-- C19: `String` returns the constant's name for `NTBlockAccepted`, `NTBlockConnected`
and `NTBlockDisconnected`; the map has no entry for `NTChainTipUpdated`, for which it
returns "Unknown Notification Type (3)"; and for every number other than 0, 1 and 2 it
returns "Unknown Notification Type (n)" with `n` in decimal. -/
theorem C19_NotificationType_String :
    NotificationType.String NTBlockAccepted = "NTBlockAccepted" ∧
    NotificationType.String NTBlockConnected = "NTBlockConnected" ∧
    NotificationType.String NTBlockDisconnected = "NTBlockDisconnected" ∧
    NotificationType.String NTChainTipUpdated = "Unknown Notification Type (3)" ∧
    NotificationType.String NTChainTipUpdated ≠ "NTChainTipUpdated" ∧
    NotificationType.String (-5) = "Unknown Notification Type (-5)" ∧
    ∀ n : NotificationType, n ≠ 0 → n ≠ 1 → n ≠ 2 →
      NotificationType.String n = "Unknown Notification Type (" ++ toString n ++ ")" := by
  refine ⟨by decide, by decide, by decide, by decide, by decide, by decide, ?_⟩
  intro n h0 h1 h2
  simp [NotificationType.String, notificationTypeStrings, NTBlockAccepted, NTBlockConnected,
    NTBlockDisconnected, h0, h1, h2]

end chain

/-! # Further properties of the compact-block message -/

namespace wire

variable {Tx : Type}

/-- C17, counterexample: with `MaxBlockPayload` = 32000000, a message with no short ID and
135 prefilled entries has the payload bound 4320000499, and `MaxPayloadLength` returns
25033203, the bound reduced modulo 2^32. -/
theorem C17_MaxPayloadLength_wraps :
    80 + 8 + 3 + 6 * 0 + 3 + 135 * (3 + sampleEnv.MaxBlockPayload) = 4320000499 ∧
    MsgHeaderAndShortTxIDs.MaxPayloadLength sampleEnv
      ⟨0, 0, 0, [], List.replicate 135 ⟨none, 0⟩, BlockHeader.zero⟩ 70014 = 25033203 ∧
    MsgHeaderAndShortTxIDs.MaxPayloadLength sampleEnv
        ⟨0, 0, 0, [], List.replicate 135 ⟨none, 0⟩, BlockHeader.zero⟩ 70014 ≠
      80 + 8 + 3 + 6 * 0 + 3 + 135 * (3 + sampleEnv.MaxBlockPayload) := by
  have h1 : 80 + 8 + 3 + 6 * 0 + 3 + 135 * (3 + sampleEnv.MaxBlockPayload) = 4320000499 := by
    norm_num [sampleEnv]
  have h2 : MsgHeaderAndShortTxIDs.MaxPayloadLength sampleEnv
      ⟨0, 0, 0, [], List.replicate 135 ⟨none, 0⟩, BlockHeader.zero⟩ 70014 = 25033203 := by
    simp [MsgHeaderAndShortTxIDs.MaxPayloadLength, sampleEnv]
  refine ⟨h1, h2, ?_⟩
  rw [h1, h2]
  norm_num

/-- C17, amended: for every message and every protocol version `MaxPayloadLength` returns
`80 + 8 + 3 + 6*len(ShortTxids) + 3 + len(PreFilledTxn)*(3 + MaxBlockPayload)` reduced
modulo 2^32; it is that number itself exactly when the number is below 2^32, and it does
not depend on the protocol version. -/
theorem C17_MaxPayloadLength_mod (E : Env Tx) (msg : MsgHeaderAndShortTxIDs Tx)
    (pver : Nat) :
    msg.MaxPayloadLength E pver =
      (80 + 8 + 3 + 6 * msg.ShortTxids.length + 3 +
        msg.PreFilledTxn.length * (3 + E.MaxBlockPayload)) % 2 ^ 32 ∧
    (msg.MaxPayloadLength E pver =
        80 + 8 + 3 + 6 * msg.ShortTxids.length + 3 +
          msg.PreFilledTxn.length * (3 + E.MaxBlockPayload)
      ↔ 80 + 8 + 3 + 6 * msg.ShortTxids.length + 3 +
          msg.PreFilledTxn.length * (3 + E.MaxBlockPayload) < 2 ^ 32) ∧
    ∀ pver' : Nat, msg.MaxPayloadLength E pver' = msg.MaxPayloadLength E pver := by
  have e : msg.MaxPayloadLength E pver =
      (80 + 8 + 3 + 6 * msg.ShortTxids.length + 3 +
        msg.PreFilledTxn.length * (3 + E.MaxBlockPayload)) % 2 ^ 32 := by
    simp only [MsgHeaderAndShortTxIDs.MaxPayloadLength, Nat.mul_comm msg.ShortTxids.length 6]
  refine ⟨e, ?_, fun _ => rfl⟩
  rw [e]
  constructor
  · intro h
    rw [← h]
    exact Nat.mod_lt _ (by norm_num)
  · intro h
    exact Nat.mod_eq_of_lt h

/-- C18: `NewMsgHeaderAndShortTxIDs` panics exactly on a block without transactions,
where the length `len(Transactions) - 1` given to `make` is negative. On a block with at
least one transaction no slice access of the constructor panics (the read of
`Transactions[0]`, and in the loop the reads of `Transactions[i]` and the stores into
`shortids[i-1]`, each of which panics in the embedding when its index is out of bounds)
and it returns a message, never nil: `fillShortTxIDSelector` returns no error on any
header and nonce. -/
theorem C18_NewMsgHeaderAndShortTxIDs_panic_iff (E : Env Tx) (block : MsgBlock Tx)
    (nonce : Nat) :
    (NewMsgHeaderAndShortTxIDs E block nonce = .panic ↔ block.Transactions = []) ∧
    (block.Transactions ≠ [] → ∃ m, NewMsgHeaderAndShortTxIDs E block nonce = .ret (some m)) ∧
    NewMsgHeaderAndShortTxIDs E block nonce ≠ .ret none ∧
    (∀ (h : BlockHeader) (n : Nat), ∃ k, fillShortTxIDSelector E h n = .ok k) ∧
    (block.Transactions ≠ [] →
      (∃ tx0, block.Transactions[0]? = some tx0) ∧
      ∀ id0 id1 : Nat, ∃ shortids,
        shortIDLoop E id0 id1 block.Transactions block.Transactions.length 1
          (List.replicate ((block.Transactions.length : Int) - 1).toNat 0)
            = .ret shortids) := by
  have hfill : ∀ (h : BlockHeader) (n : Nat), ∃ k, fillShortTxIDSelector E h n = .ok k :=
    fun h n => ⟨_, fillShortTxIDSelector_eq E h n⟩
  by_cases hn : 1 ≤ block.Transactions.length
  · have hne : block.Transactions ≠ [] := by
      intro h
      rw [h] at hn
      simp at hn
    obtain ⟨m, _, _, hm, _⟩ := NewMsgHeaderAndShortTxIDs_ret E block nonce hn
    refine ⟨?_, fun _ => ⟨m, hm⟩, ?_, hfill, fun _ => ⟨?_, ?_⟩⟩
    · rw [hm]
      constructor
      · intro h; cases h
      · intro h; exact absurd h hne
    · rw [hm]
      intro h
      cases h
    · exact ⟨_, List.getElem?_eq_getElem hn⟩
    · intro id0 id1
      obtain ⟨s1, hrun, _⟩ :=
        shortIDLoop_ret E id0 id1 block.Transactions block.Transactions.length 1
          (List.replicate ((block.Transactions.length : Int) - 1).toNat 0) (le_refl 1)
          (by simp only [List.length_replicate]; omega)
      exact ⟨s1, hrun⟩
  · have hnil : block.Transactions = [] := by
      cases hts : block.Transactions with
      | nil => rfl
      | cons t ts =>
        rw [hts] at hn
        simp at hn
    have hpanic : NewMsgHeaderAndShortTxIDs E block nonce = .panic := by
      unfold NewMsgHeaderAndShortTxIDs
      rw [if_pos (by omega)]
    refine ⟨⟨fun _ => hnil, fun _ => hpanic⟩, fun h => absurd hnil h, ?_, hfill,
      fun h => absurd hnil h⟩
    rw [hpanic]
    intro h
    cases h

/-- Instance of C18: the empty sample block panics, a block of two transactions gives a
message. -/
theorem C18_NewMsgHeaderAndShortTxIDs_panic_iff_witness :
    NewMsgHeaderAndShortTxIDs sampleEnv ⟨sampleHeader, []⟩ 7 = .panic ∧
    ∃ m, NewMsgHeaderAndShortTxIDs sampleEnv ⟨sampleHeader, [10, 11]⟩ 7 = .ret (some m) :=
  ⟨(C18_NewMsgHeaderAndShortTxIDs_panic_iff sampleEnv ⟨sampleHeader, []⟩ 7).1.2 rfl,
   (C18_NewMsgHeaderAndShortTxIDs_panic_iff sampleEnv ⟨sampleHeader, [10, 11]⟩ 7).2.1
     (by decide)⟩

end wire

/-! # The six-byte wire form of a short ID -/

namespace wire

variable {Tx : Type}

theorem shortID_recombine (x : Nat) :
    ((x / 2 ^ 32 % 2 ^ 16) <<< 32) ||| (x % 2 ^ 32) = x % 2 ^ 48 := by
  rw [Nat.shiftLeft_eq, Nat.mul_comm,
    ← Nat.mul_add_lt_is_or (Nat.mod_lt x (by norm_num : 0 < 2 ^ 32)) (x / 2 ^ 32 % 2 ^ 16),
    show (2 : Nat) ^ 48 = 2 ^ 32 * 2 ^ 16 by norm_num, Nat.mod_mul, Nat.add_comm]

theorem readShortIDs_shortIDBytes (ids : List Nat) (rest : List Byte) :
    readShortIDs ids.length (ids.flatMap shortIDBytes ++ rest) =
      (some (ids.map (fun x => x % 2 ^ 48)), rest) := by
  induction ids with
  | nil => rfl
  | cons x xs ih =>
    have e4 : x % 2 ^ 32 % 256 ^ 4 = x % 2 ^ 32 :=
      Nat.mod_eq_of_lt (lt_of_lt_of_le (Nat.mod_lt x (by norm_num)) (by norm_num))
    have e2 : x / 2 ^ 32 % 2 ^ 16 % 256 ^ 2 = x / 2 ^ 32 % 2 ^ 16 :=
      Nat.mod_eq_of_lt (lt_of_lt_of_le (Nat.mod_lt _ (by norm_num)) (by norm_num))
    simp only [List.flatMap_cons, List.length_cons, readShortIDs, shortIDBytes,
      List.append_assoc, readUint_leBytes, e4, e2, ih, List.map_cons, shortID_recombine]

theorem readUint_lt (k : Nat) (r r1 : List Byte) (v : Nat)
    (h : readUint k r = (some v, r1)) : v < 256 ^ k := by
  unfold readUint readN at h
  split_ifs at h with hk
  · simp only [Prod.mk.injEq, Option.some.injEq] at h
    rw [← h.1]
    have := leVal_lt (r.take k)
    rwa [List.length_take, Nat.min_eq_left hk] at this
  · simp at h

/-- Every short ID the decoding loop produces is below `2^48`. -/
theorem readShortIDs_lt (n : Nat) (r r1 : List Byte) (ids : List Nat)
    (h : readShortIDs n r = (some ids, r1)) : ∀ v ∈ ids, v < 2 ^ 48 := by
  induction n generalizing r r1 ids with
  | zero =>
    simp only [readShortIDs, Prod.mk.injEq, Option.some.injEq] at h
    rw [← h.1]
    intro v hv
    cases hv
  | succ n ih =>
    unfold readShortIDs at h
    split at h
    · simp at h
    · rename_i lsb r2 hl
      split at h
      · simp at h
      · rename_i msb r3 hm
        split at h
        · simp at h
        · rename_i tl r4 ht
          simp only [Prod.mk.injEq, Option.some.injEq] at h
          rw [← h.1]
          intro v hv
          rcases List.mem_cons.mp hv with rfl | hv
          · have h1 := readUint_lt 4 _ _ _ hl
            have h2 := readUint_lt 2 _ _ _ hm
            rw [Nat.shiftLeft_eq, Nat.mul_comm,
              ← Nat.mul_add_lt_is_or (lt_of_lt_of_le h1 (by norm_num)) msb]
            norm_num at h1 h2 ⊢
            omega
          · exact ih _ _ _ ht v hv

theorem shortIDBytes_eq_iff (x y : Nat) :
    shortIDBytes x = shortIDBytes y ↔ x % 2 ^ 48 = y % 2 ^ 48 := by
  constructor
  · intro h
    have hx := readShortIDs_shortIDBytes [x] []
    have hy := readShortIDs_shortIDBytes [y] []
    simp only [List.flatMap_cons, List.flatMap_nil, List.append_nil] at hx hy
    rw [h] at hx
    have hxy := hx.symm.trans hy
    simpa using hxy
  · intro h
    have h1 : x % 2 ^ 32 = y % 2 ^ 32 := by
      norm_num at h ⊢
      omega
    have h2 : x / 2 ^ 32 % 2 ^ 16 = y / 2 ^ 32 % 2 ^ 16 := by
      norm_num at h ⊢
      omega
    simp only [shortIDBytes, h1, h2]

end wire

namespace wire

variable {Tx : Type}

/-- C21: the encoding loop writes a short ID `x` as the four little-endian bytes of its
low 32 bits and the two little-endian bytes of its bits 32..47; the decoding loop reads
these six bytes back as `x mod 2^48`, hence as `x` when `x < 2^48`; every short ID the
decoding loop produces is below `2^48`; and two short IDs have the same six bytes
exactly when they agree modulo `2^48`. -/
theorem C21_shortID_six_bytes (x y n : Nat) (xs ids : List Nat) (r r1 rest : List Byte) :
    writeShortIDs [x] [] =
      (leBytes 4 (x % 2 ^ 32) ++ leBytes 2 (x / 2 ^ 32 % 2 ^ 16), none) ∧
    (writeShortIDs [x] []).1.length = 6 ∧
    readShortIDs 1 ((writeShortIDs [x] []).1 ++ rest) = (some [x % 2 ^ 48], rest) ∧
    (x < 2 ^ 48 → readShortIDs 1 ((writeShortIDs [x] []).1 ++ rest) = (some [x], rest)) ∧
    readShortIDs xs.length ((writeShortIDs xs []).1 ++ rest) =
      (some (xs.map (fun v => v % 2 ^ 48)), rest) ∧
    (readShortIDs n r = (some ids, r1) → ∀ v ∈ ids, v < 2 ^ 48) ∧
    ((writeShortIDs [x] []).1 = (writeShortIDs [y] []).1 ↔ x % 2 ^ 48 = y % 2 ^ 48) := by
  have hw : ∀ v : Nat, (writeShortIDs [v] []).1 = shortIDBytes v := by
    intro v
    simp [writeShortIDs_eq]
  have hr : readShortIDs 1 ((writeShortIDs [x] []).1 ++ rest) = (some [x % 2 ^ 48], rest) := by
    rw [hw]
    have := readShortIDs_shortIDBytes [x] rest
    simpa using this
  refine ⟨?_, ?_, hr, ?_, ?_, readShortIDs_lt n r r1 ids, ?_⟩
  · simp [writeShortIDs_eq, shortIDBytes]
  · rw [hw, shortIDBytes_length]
  · intro hx
    rw [hr, Nat.mod_eq_of_lt hx]
  · rw [writeShortIDs_eq, List.nil_append]
    exact readShortIDs_shortIDBytes xs rest
  · rw [hw, hw]
    exact shortIDBytes_eq_iff x y

/-- Instance of C21: the short ID `0x060504030201`, and the value `2^48 + 5`, whose six
bytes are those of 5. -/
theorem C21_shortID_six_bytes_witness :
    readShortIDs 1 ((writeShortIDs [0x060504030201] []).1 ++ [9]) =
      (some [0x060504030201], [9]) ∧
    (∀ v ∈ [0x060504030201], v < 2 ^ 48) ∧
    (writeShortIDs [2 ^ 48 + 5] []).1 = (writeShortIDs [5] []).1 :=
  ⟨(C21_shortID_six_bytes 0x060504030201 5 1 [] [0x060504030201] [1, 2, 3, 4, 5, 6, 9] [9]
      [9]).2.2.2.1 (by norm_num),
   (C21_shortID_six_bytes 0x060504030201 5 1 [] [0x060504030201] [1, 2, 3, 4, 5, 6, 9] [9]
      [9]).2.2.2.2.2.1 (by decide),
   (C21_shortID_six_bytes (2 ^ 48 + 5) 5 0 [] [] [] [] []).2.2.2.2.2.2.2 (by norm_num)⟩

/-- C22: `BtcDecode` appends to the short IDs of the receiver. On a stream with a header,
a nonce and a complete short-ID section of `n` entries, the message afterwards holds its
previous short IDs followed by the `n` decoded ones, whatever follows in the stream and
whether or not the call returns an error after this section; and on every stream the
`PreFilledTxn` of the receiver is the same after the call as before. -/
theorem C22_BtcDecode_appends (E : Env Tx) (msg : MsgHeaderAndShortTxIDs Tx)
    (hdr nonce idb rest : List Byte) (n pver enc : Nat)
    (hh : hdr.length = 80) (hn : nonce.length = 8) (hid : idb.length = 6 * n)
    (hn64 : n < 2 ^ 64) (hp : E.ShortIdsBlocksVersion ≤ pver) :
    (∃ ids : List Nat, readShortIDs n (idb ++ rest) = (some ids, rest) ∧ ids.length = n ∧
      (msg.BtcDecode E (hdr ++ (nonce ++ (varIntBytes n ++ (idb ++ rest)))) pver
        enc).val.ShortTxids = msg.ShortTxids ++ ids ∧
      (msg.BtcDecode E (hdr ++ (nonce ++ (varIntBytes n ++ (idb ++ rest)))) pver
        enc).val.ShortTxids.length = msg.ShortTxids.length + n) ∧
    ∀ (s : List Byte) (p e : Nat),
      (msg.BtcDecode E s p e).val.PreFilledTxn = msg.PreFilledTxn := by
  refine ⟨?_, fun s p e => BtcDecode_PreFilledTxn E msg s p e⟩
  obtain ⟨hd, ids, hlen, hids, hdec⟩ :=
    BtcDecode_sections E msg hdr nonce idb rest n pver enc hh hn hid hn64 hp
  have hs : (msg.BtcDecode E (hdr ++ (nonce ++ (varIntBytes n ++ (idb ++ rest)))) pver
      enc).val.ShortTxids = msg.ShortTxids ++ ids := by
    rw [hdec]
    rcases ReadVarInt rest with ⟨_ | pftLen, r4⟩
    · rfl
    · simp only []
      rcases (decodePrefilled E pver enc pftLen r4).err with _ | err
      · rfl
      · rfl
  refine ⟨ids, hids, hlen, hs, ?_⟩
  rw [hs, List.length_append, hlen]

/-- Instance of C22: a message holding the short IDs 11 and 12 decodes a stream that
carries one short ID and ends there; the call returns an error and the message holds
three short IDs. -/
theorem C22_BtcDecode_appends_witness :
    (MsgHeaderAndShortTxIDs.BtcDecode sampleEnv ⟨0, 0, 0, [11, 12], [⟨some 10, 0⟩],
        BlockHeader.zero⟩
      (sampleHeader.bytes ++ (leBytes 8 7 ++ (varIntBytes 1 ++ ([1, 2, 3, 4, 5, 6] ++ []))))
      70014 0).err = some .io ∧
    ∃ ids : List Nat, readShortIDs 1 ([1, 2, 3, 4, 5, 6] ++ []) = (some ids, []) ∧
      ids.length = 1 ∧
      (MsgHeaderAndShortTxIDs.BtcDecode sampleEnv ⟨0, 0, 0, [11, 12], [⟨some 10, 0⟩],
          BlockHeader.zero⟩
        (sampleHeader.bytes ++ (leBytes 8 7 ++ (varIntBytes 1 ++ ([1, 2, 3, 4, 5, 6] ++ []))))
        70014 0).val.ShortTxids = [11, 12] ++ ids ∧
      (MsgHeaderAndShortTxIDs.BtcDecode sampleEnv ⟨0, 0, 0, [11, 12], [⟨some 10, 0⟩],
          BlockHeader.zero⟩
        (sampleHeader.bytes ++ (leBytes 8 7 ++ (varIntBytes 1 ++ ([1, 2, 3, 4, 5, 6] ++ []))))
        70014 0).val.ShortTxids.length = 2 + 1 :=
  ⟨by decide,
   (C22_BtcDecode_appends sampleEnv ⟨0, 0, 0, [11, 12], [⟨some 10, 0⟩], BlockHeader.zero⟩
      sampleHeader.bytes (leBytes 8 7) [1, 2, 3, 4, 5, 6] [] 1 70014 0
      (by decide) (by decide) (by decide) (by decide) (by decide)).1⟩

end wire

/-! # Properties of the `sendmany` handler -/

namespace rpc

variable {Script Txn Value : Type}

/-- The handler on a request that passes the checks before `CreateTransaction`. -/
theorem handleSendMany_after_checks (E : WalletEnv Script Txn Value) (c : SendManyCmd Value)
    (totalAmount : Int) (recipients : List (Recipient Script))
    (hen : E.IsWalletEnable = true) (hacc : c.FromAccount ≠ "*")
    (hloop : recipientsLoop E c.SubTractFeeFrom c.Amounts 0 [] = .ok (totalAmount, recipients))
    (hbal : totalAmount ≤ E.GetBalance) :
    handleSendMany E c =
      (match E.CreateTransaction recipients with
        | (txn, feeRequired, err) =>
          if err ≠ none ∨ wrapInt64 (feeRequired + totalAmount) > E.GetBalance then
            match err with
            | some e =>
              ⟨.ret (none, some ⟨E.RPCWalletInsufficientFunds, e.Error⟩),
                [.CreateTransaction]⟩
            | none => ⟨.panic, [.CreateTransaction]⟩
          else
            match E.CommitTransaction txn
                (match c.Comment with
                  | some comment => [("comment", comment)]
                  | none => []) with
            | some e =>
              ⟨.ret (none, some ⟨E.RPCWalletError,
                  "Error: The transaction was rejected! Reason given: " ++ e.Error⟩),
                [.CreateTransaction, .CommitTransaction]⟩
            | none =>
              ⟨.ret (some (E.TxHashString txn), none),
                [.CreateTransaction, .CommitTransaction]⟩) := by
  unfold handleSendMany
  simp only [hen, Bool.not_true, Bool.false_eq_true, if_false, if_neg hacc, hloop,
    if_neg (not_lt.mpr hbal)]

/-- C23: on a `sendmany` request that passes the earlier checks, when `CreateTransaction`
returns an error the handler returns an RPC error with the code
`RPCWalletInsufficientFunds` and the text of that error, without calling
`CommitTransaction`; when `CreateTransaction` returns no error and
`feeRequired + totalAmount` exceeds the balance, the handler calls `err.Error()` on the
nil error and panics, again without calling `CommitTransaction`. -/
theorem C23_handleSendMany_insufficient_funds (E : WalletEnv Script Txn Value)
    (c : SendManyCmd Value) (totalAmount : Int) (recipients : List (Recipient Script))
    (hen : E.IsWalletEnable = true) (hacc : c.FromAccount ≠ "*")
    (hloop : recipientsLoop E c.SubTractFeeFrom c.Amounts 0 [] = .ok (totalAmount, recipients))
    (hbal : totalAmount ≤ E.GetBalance) :
    (∀ e : GoError, (E.CreateTransaction recipients).2.2 = some e →
      handleSendMany E c =
        ⟨.ret (none, some ⟨E.RPCWalletInsufficientFunds, e.Error⟩), [.CreateTransaction]⟩) ∧
    ((E.CreateTransaction recipients).2.2 = none →
      wrapInt64 ((E.CreateTransaction recipients).2.1 + totalAmount) > E.GetBalance →
      handleSendMany E c = ⟨.panic, [.CreateTransaction]⟩) ∧
    ((E.CreateTransaction recipients).2.2 ≠ none ∨
      wrapInt64 ((E.CreateTransaction recipients).2.1 + totalAmount) > E.GetBalance →
      WalletCall.CommitTransaction ∉ (handleSendMany E c).calls) := by
  have h := handleSendMany_after_checks E c totalAmount recipients hen hacc hloop hbal
  rcases hct : E.CreateTransaction recipients with ⟨txn, feeRequired, err⟩
  rw [hct] at h
  simp only [] at h
  have h1 : ∀ e : GoError, err = some e →
      handleSendMany E c =
        ⟨.ret (none, some ⟨E.RPCWalletInsufficientFunds, e.Error⟩),
          [.CreateTransaction]⟩ := by
    intro e he
    subst he
    rw [h, if_pos (Or.inl (by simp))]
  have h2 : err = none → wrapInt64 (feeRequired + totalAmount) > E.GetBalance →
      handleSendMany E c = ⟨.panic, [.CreateTransaction]⟩ := by
    intro he hfee
    subst he
    rw [h, if_pos (Or.inr hfee)]
  refine ⟨h1, h2, ?_⟩
  intro hor
  cases err with
  | some e =>
    rw [h1 e rfl]
    simp
  | none =>
    rcases hor with hne | hfee
    · exact absurd rfl hne
    · rw [h2 rfl hfee]
      simp

/-- Instance of C23: on the sample wallet with balance 100, a request to send 100 to one
address. With `CreateTransaction` returning the error "no coins" the handler returns the
RPC error (-6, "no coins"); with `CreateTransaction` returning no error and the fee 5 it
panics. -/
theorem C23_handleSendMany_insufficient_funds_witness :
    handleSendMany (sampleWalletEnv (0, 0, some ⟨"no coins"⟩))
        ⟨"", [("a", 100)], 1, none, none⟩ =
      ⟨.ret (none, some ⟨-6, "no coins"⟩), [.CreateTransaction]⟩ ∧
    handleSendMany (sampleWalletEnv (1, 5, none)) ⟨"", [("a", 100)], 1, none, none⟩ =
      ⟨.panic, [.CreateTransaction]⟩ :=
  ⟨(C23_handleSendMany_insufficient_funds (sampleWalletEnv (0, 0, some ⟨"no coins"⟩))
      ⟨"", [("a", 100)], 1, none, none⟩ 100 [⟨"a", 100, false⟩]
      (by decide) (by decide) (by decide) (by decide)).1 ⟨"no coins"⟩ rfl,
   (C23_handleSendMany_insufficient_funds (sampleWalletEnv (1, 5, none))
      ⟨"", [("a", 100)], 1, none, none⟩ 100 [⟨"a", 100, false⟩]
      (by decide) (by decide) (by decide) (by decide)).2.1 rfl (by decide)⟩

end rpc
